import Mathlib

/-!
Verification of the jssp-heuristics solver library.

This file gives a shallow embedding, in Lean 4, of the parts of the
solver relevant to the stated properties: the instance model
(`src/data.rs`), the verifier, the schedule-to-orientation bridge, the
disjunctive-graph state with its head/tail propagation
(`src/solver.rs`), the N1 neighbourhood (`src/solver/n1.rs`), the hill
climber (`src/solver/hill_climber.rs`), the priority dispatchers
(`src/solver/priority.rs`), and the delta computation of simulated
annealing's temperature estimator (`src/solver/simulated_annealing.rs`).

Rust `u32` values are modelled by `Nat`; where the source's wrap-around
behaviour matters (the `u32` subtraction in `estimate_initial_temperature`)
the wrap is made explicit modulo `2 ^ 32`.  Code paths that panic
(`unwrap` on an unlabelled node, the `panic!` in `is_before`, indexing
with an out-of-range index) are modelled with `Option`, `none` standing
for the panic.  Loops whose termination is not structural (the work-queue
propagation, the neighbourhood trace, the hill-climbing loop) take an
explicit fuel argument; exhausting the fuel also yields `none`, so any
`some` result is a faithful image of a terminating source run.
-/

namespace JSSP

/-- Problem instance (`Instance` in `src/data.rs`): `n_jobs` jobs of
`n_machines` operations each, with per-operation durations and machine
assignments indexed by operation id `j * n_machines + o`. -/
structure Instance where
  n_jobs : Nat
  n_machines : Nat
  durations : List Nat
  machines : List Nat
deriving Repr, DecidableEq

/-- Start-time vector (`Solution` in `src/data.rs`). -/
structure Solution where
  start_times : List Nat
deriving Repr, DecidableEq

/-- Number of operations, `Instance::n_ops`. -/
def Instance.n_ops (inst : Instance) : Nat := inst.n_jobs * inst.n_machines

/-- Operation id of the pair `[j, o]`, `Instance::op_to_id`. -/
def Instance.op_to_id (inst : Instance) (j o : Nat) : Nat :=
  j * inst.n_machines + o

/-- Inverse of `op_to_id`, `Instance::op_from_id`. -/
def Instance.op_from_id (inst : Instance) (id : Nat) : Nat × Nat :=
  (id / inst.n_machines, id % inst.n_machines)

/-- Duration lookup `inst.durations[op]`. -/
def Instance.dur (inst : Instance) (op : Nat) : Nat := inst.durations.getD op 0

/-- Machine lookup `inst.machines[op]`. -/
def Instance.mach (inst : Instance) (op : Nat) : Nat := inst.machines.getD op 0

/-- Start-time lookup `solution.start_times[op]`. -/
def Solution.start (sol : Solution) (op : Nat) : Nat := sol.start_times.getD op 0

/-- Well-formedness of an instance: the data arrays have length
`n_jobs * n_machines` and every machine index is in range.  These are the
section-3 invariants of the data model. -/
def Instance.WF (inst : Instance) : Prop :=
  inst.durations.length = inst.n_ops ∧
  inst.machines.length = inst.n_ops ∧
  ∀ m ∈ inst.machines, m < inst.n_machines

/-- Makespan of a start-time vector, `calculate_cmax` in `src/solver.rs`
(maximum of `start + duration` over all operations). -/
def calculate_cmax (inst : Instance) (sol : Solution) : Nat :=
  (List.range inst.n_ops).foldl
    (fun cmax op => max cmax (sol.start op + inst.dur op)) 0

/-- The verifier `verify_solution` in `src/solver.rs`, modelled as a
Boolean: `true` is `Ok(())`, `false` is the `Err` returned by the first
failing check.  The nested loops and the guard
`other_job != job && other_op != op` are translated literally. -/
def verify_solution (inst : Instance) (sol : Solution) : Bool :=
  (List.range inst.n_jobs).all fun job =>
    (List.range inst.n_machines).all fun op =>
      let op_id := inst.op_to_id job op
      let machine := inst.mach op_id
      let duration := inst.dur op_id
      let start := sol.start op_id
      let endT := start + duration
      (List.range inst.n_jobs).all fun other_job =>
        (List.range inst.n_machines).all fun other_op =>
          if other_job ≠ job ∧ other_op ≠ op then
            let other_op_id := inst.op_to_id other_job other_op
            let other_machine := inst.mach other_op_id
            let other_duration := inst.dur other_op_id
            let other_start := sol.start other_op_id
            let other_endT := other_start + other_duration
            (if other_job = job ∧ other_op + 1 = op then
              decide (other_endT ≤ start)
            else true) &&
            (if other_machine = machine then
              decide ((start ≤ other_start ∧ endT ≤ other_start) ∨
                      (other_start ≤ start ∧ other_endT ≤ start))
            else true)
          else true

/-- Modelled from the spec (section 6 verifier contract, the intended
semantics): (a) for each job, operation `o+1` starts at or after `o`'s
end; (b) intervals of two distinct positive-length operations on the
same machine are disjoint; (c) start times are non-negative. -/
def spec_verifier_ok (inst : Instance) (sol : Solution) : Prop :=
  (∀ j < inst.n_jobs, ∀ o < inst.n_machines, o + 1 < inst.n_machines →
    sol.start (inst.op_to_id j o) + inst.dur (inst.op_to_id j o) ≤
      sol.start (inst.op_to_id j (o + 1))) ∧
  (∀ p < inst.n_ops, ∀ q < inst.n_ops, p ≠ q →
    inst.mach p = inst.mach q → 0 < inst.dur p → 0 < inst.dur q →
    (sol.start p + inst.dur p ≤ sol.start q ∨
     sol.start q + inst.dur q ≤ sol.start p)) ∧
  (∀ op < inst.n_ops, 0 ≤ sol.start op)

instance (inst : Instance) (sol : Solution) :
    Decidable (spec_verifier_ok inst sol) :=
  @instDecidableAnd _ _
    (@Nat.decidableBallLT _ _ (fun _ _ =>
      @Nat.decidableBallLT _ _ (fun _ _ => inferInstance)))
    (@instDecidableAnd _ _
      (@Nat.decidableBallLT _ _ (fun _ _ =>
        @Nat.decidableBallLT _ _ (fun _ _ => inferInstance)))
      (@Nat.decidableBallLT _ _ (fun _ _ => inferInstance)))

/-- What `verify_solution` actually enforces: only pairs of operations
that differ in both the job index and the position index are compared,
and for such pairs on a common machine the no-overlap condition is
required.  The precedence branch of the source is dead code (it sits
under `other_job != job`), and non-negativity is never tested. -/
def code_verifier_ok (inst : Instance) (sol : Solution) : Prop :=
  ∀ j < inst.n_jobs, ∀ o < inst.n_machines,
    ∀ j' < inst.n_jobs, ∀ o' < inst.n_machines,
      j' ≠ j → o' ≠ o →
      inst.mach (inst.op_to_id j' o') = inst.mach (inst.op_to_id j o) →
      (sol.start (inst.op_to_id j o) + inst.dur (inst.op_to_id j o) ≤
         sol.start (inst.op_to_id j' o') ∨
       sol.start (inst.op_to_id j' o') + inst.dur (inst.op_to_id j' o') ≤
         sol.start (inst.op_to_id j o))

instance (inst : Instance) (sol : Solution) :
    Decidable (code_verifier_ok inst sol) :=
  @Nat.decidableBallLT _ _ (fun _ _ =>
    @Nat.decidableBallLT _ _ (fun _ _ =>
      @Nat.decidableBallLT _ _ (fun _ _ =>
        @Nat.decidableBallLT _ _ (fun _ _ => inferInstance))))

/-! ## Schedule→orientation bridge: the per-machine comparator -/

/-- The comparator `op_ordering` in `src/solver.rs`: order two operations
on a machine by release time; on a tie a zero-duration operation goes
first; two zero-duration operations are ordered by id; two
positive-duration operations with equal release compare `Equal`. -/
def op_ordering (a b : Nat) (release_times durations : List Nat) : Ordering :=
  let r_a := release_times.getD a 0
  let r_b := release_times.getD b 0
  if r_a < r_b then Ordering.lt
  else if r_a = r_b then
    let d_a := durations.getD a 0
    let d_b := durations.getD b 0
    if d_a = 0 ∧ d_b ≠ 0 then Ordering.lt
    else if d_a ≠ 0 ∧ d_b = 0 then Ordering.gt
    else if d_a = 0 ∧ d_b = 0 then compare a b
    else Ordering.eq
  else Ordering.gt

/-- The wrapper `is_before` in `src/solver.rs`.  The source panics on
`Ordering::Equal` ("Overlapping jobs"); the panic is modelled as
`none`. -/
def is_before (a b : Nat) (release_times durations : List Nat) : Option Bool :=
  match op_ordering a b release_times durations with
  | Ordering.lt => some true
  | Ordering.gt => some false
  | Ordering.eq => none

/-! ## Disjunctive graph state -/

/-- Directed edge between operation ids (`Edge` in `src/data.rs`). -/
abbrev Edge := Nat × Nat

/-- Option-array lookup (`Array1<Option<OpId>>` indexing). -/
def getO (l : List (Option Nat)) (i : Nat) : Option Nat := l.getD i none

/-- The fixed intra-job precedence arcs, `get_precedence_edges`. -/
def get_precedence_edges (inst : Instance) : List Edge :=
  (List.range inst.n_jobs).flatMap fun j =>
    (List.range' 1 (inst.n_machines - 1)).map fun o =>
      (inst.op_to_id j (o - 1), inst.op_to_id j o)

/-- Loop body of `get_pre_succ_relations`: insert the edges one by one,
panicking (`none`) when a node would get a second predecessor or a
second successor, or on an out-of-range id. -/
def pre_succ_fold (inst : Instance) :
    List Edge → List (Option Nat) × List (Option Nat) →
    Option (List (Option Nat) × List (Option Nat))
  | [], ps => some ps
  | (v, w) :: es, ps =>
    if v < inst.n_ops ∧ w < inst.n_ops then
      match getO ps.1 w, getO ps.2 v with
      | none, none =>
        pre_succ_fold inst es (ps.1.set w (some v), ps.2.set v (some w))
      | _, _ => none
    else none

/-- Inverted-index arrays from an edge list, `get_pre_succ_relations`. -/
def get_pre_succ_relations (inst : Instance) (edges : List Edge) :
    Option (List (Option Nat) × List (Option Nat)) :=
  pre_succ_fold inst edges
    (List.replicate inst.n_ops (none : Option Nat),
     List.replicate inst.n_ops (none : Option Nat))

/-- Unwrap every entry of an optional array (the source's
`map(|r| r.unwrap())`), panicking (`none`) on any unassigned entry. -/
def unwrap_all : List (Option Nat) → Option (List Nat)
  | [] => some []
  | none :: _ => none
  | some v :: xs => (unwrap_all xs).map (v :: ·)

/-- End time `release_times[x] + durations[x]` of an optional
predecessor; an absent neighbour contributes `0`, an unlabelled
neighbour is the source's `unwrap` panic (`none`). -/
def endOf (inst : Instance) (rel : List (Option Nat)) (x : Option Nat) :
    Option Nat :=
  match x with
  | none => some 0
  | some p =>
    match getO rel p with
    | none => none
    | some r => some (r + inst.dur p)

/-- The ordering gate of the head/tail propagation: a successor is
enqueued only if its other predecessor is absent or already labelled. -/
def gateOk (lab : List Bool) (other : Option Nat) : Bool :=
  match other with
  | none => true
  | some p => lab.getD p false

/-- Work-queue loop of `get_release_times_from_pre_succ_relations`.
`fuel` bounds the number of pops (the source loops until the queue
drains); the returned trace records the popped nodes in order. -/
def release_loop (inst : Instance) (pj sj pm sm : List (Option Nat)) :
    Nat → List Nat → List (Option Nat) → List Bool → List Nat →
    Option (List (Option Nat) × List Bool × List Nat)
  | 0, q, rel, lab, tr =>
    match q with
    | [] => some (rel, lab, tr)
    | _ :: _ => none
  | fuel + 1, q, rel, lab, tr =>
    match q with
    | [] => some (rel, lab, tr)
    | node :: rest =>
      match endOf inst rel (getO pj node), endOf inst rel (getO pm node) with
      | some pre_job_end, some pre_machine_end =>
        let release := max pre_job_end pre_machine_end
        let rel' := rel.set node (some release)
        let lab' := lab.set node true
        let q1 :=
          match getO sj node with
          | none => rest
          | some s => if gateOk lab' (getO pm s) then rest ++ [s] else rest
        let q2 :=
          match getO sm node with
          | none => q1
          | some s => if gateOk lab' (getO pj s) then q1 ++ [s] else q1
        release_loop inst pj sj pm sm fuel q2 rel' lab' (tr ++ [node])
      | _, _ => none

/-- Head computation `get_release_times_from_pre_succ_relations`: seed
the queue with all sources (release `0`), run the work-queue loop, then
unwrap every entry (the source's `map(|r| r.unwrap())`, which panics on
an unlabelled node, i.e. on a cyclic orientation).  Also returns the pop
trace. -/
def get_release_times_from_pre_succ_relations (fuel : Nat) (inst : Instance)
    (pj sj pm sm : List (Option Nat)) : Option (List Nat × List Nat) :=
  let seeds := (List.range inst.n_ops).filter fun op =>
    (getO pj op).isNone && (getO pm op).isNone
  let rel0 := seeds.foldl (fun rel op => rel.set op (some 0))
    (List.replicate inst.n_ops (none : Option Nat))
  match release_loop inst pj sj pm sm fuel seeds rel0
      (List.replicate inst.n_ops false) [] with
  | none => none
  | some (rel, _, tr) =>
    match unwrap_all rel with
    | none => none
    | some rel' => some (rel', tr)

/-- Tail of an optional successor, read directly from the running tail
array (the source reads `tail_time[x]` without an unwrap; unlabelled
entries read as their initial `0`). -/
def tailOf (tail : List Nat) (x : Option Nat) : Nat :=
  match x with
  | none => 0
  | some s => tail.getD s 0

/-- Work-queue loop of `get_tail_times_from_pre_succ_relations`, the
mirror image of `release_loop` (seeded from sinks, propagating towards
sources). -/
def tail_loop (inst : Instance) (pj sj pm sm : List (Option Nat)) :
    Nat → List Nat → List Nat → List Bool → List Nat →
    Option (List Nat × List Bool × List Nat)
  | 0, q, tail, lab, tr =>
    match q with
    | [] => some (tail, lab, tr)
    | _ :: _ => none
  | fuel + 1, q, tail, lab, tr =>
    match q with
    | [] => some (tail, lab, tr)
    | node :: rest =>
      let succ_job_tail := tailOf tail (getO sj node)
      let succ_machine_tail := tailOf tail (getO sm node)
      let t := max succ_job_tail succ_machine_tail + inst.dur node
      let tail' := tail.set node t
      let lab' := lab.set node true
      let q1 :=
        match getO pj node with
        | none => rest
        | some p => if gateOk lab' (getO sm p) then rest ++ [p] else rest
      let q2 :=
        match getO pm node with
        | none => q1
        | some p => if gateOk lab' (getO sj p) then q1 ++ [p] else q1
      tail_loop inst pj sj pm sm fuel q2 tail' lab' (tr ++ [node])

/-- Tail computation `get_tail_times_from_pre_succ_relations`, with pop
trace and final label array. -/
def get_tail_times_from_pre_succ_relations (fuel : Nat) (inst : Instance)
    (pj sj pm sm : List (Option Nat)) :
    Option (List Nat × List Bool × List Nat) :=
  let seeds := (List.range inst.n_ops).filter fun op =>
    (getO sj op).isNone && (getO sm op).isNone
  tail_loop inst pj sj pm sm fuel seeds (List.replicate inst.n_ops 0)
    (List.replicate inst.n_ops false) []

/-- The central derived state (`IntermediateSolution` in
`src/solver.rs`).  The owned instance field is named `inst` (`instance`
is a Lean keyword). -/
structure IntermediateSolution where
  inst : Instance
  oriented_conflict_edges : List Edge
  precedence_edges : List Edge
  pre_job : List (Option Nat)
  succ_job : List (Option Nat)
  pre_machine : List (Option Nat)
  succ_machine : List (Option Nat)
  release_times : List Nat
  tail_times : List Nat
  path_times : List Nat
  cmax : Nat
deriving Repr, DecidableEq

/-- Release-time lookup `self.release_times[i]`. -/
def IntermediateSolution.rel (s : IntermediateSolution) (i : Nat) : Nat :=
  s.release_times.getD i 0

/-- Tail-time lookup `self.tail_times[i]`. -/
def IntermediateSolution.tl (s : IntermediateSolution) (i : Nat) : Nat :=
  s.tail_times.getD i 0

/-- Path-time lookup `self.path_times[i]`. -/
def IntermediateSolution.path (s : IntermediateSolution) (i : Nat) : Nat :=
  s.path_times.getD i 0

/-- `IntermediateSolution::is_critical`. -/
def IntermediateSolution.is_critical (s : IntermediateSolution) (node : Nat) :
    Bool :=
  s.path node == s.cmax

/-- `IntermediateSolution::to_solution` (release times as start times). -/
def IntermediateSolution.to_solution (s : IntermediateSolution) : Solution :=
  ⟨s.release_times⟩

/-- Constructor `IntermediateSolution::new`: build the inverted indexes,
then heads, tails, path times and `cmax`.  `none` models the panics on a
duplicate predecessor/successor, on a cyclic orientation (unlabelled
head), or on an empty operation set (`max().unwrap()`); the `fuel`
argument bounds the two work-queue loops. -/
def IntermediateSolution.new (fuel : Nat) (inst : Instance)
    (oriented_conflict_edges : List Edge) : Option IntermediateSolution :=
  match get_pre_succ_relations inst (get_precedence_edges inst) with
  | none => none
  | some (pre_job, succ_job) =>
    match get_pre_succ_relations inst oriented_conflict_edges with
    | none => none
    | some (pre_machine, succ_machine) =>
      match get_release_times_from_pre_succ_relations fuel inst
          pre_job succ_job pre_machine succ_machine with
      | none => none
      | some (release_times, _) =>
        match get_tail_times_from_pre_succ_relations fuel inst
            pre_job succ_job pre_machine succ_machine with
        | none => none
        | some (tail_times, _, _) =>
          let path_times := List.zipWith (· + ·) release_times tail_times
          match path_times.max? with
          | none => none
          | some cmax =>
            some
              { inst := inst
                oriented_conflict_edges := oriented_conflict_edges
                precedence_edges := get_precedence_edges inst
                pre_job := pre_job
                succ_job := succ_job
                pre_machine := pre_machine
                succ_machine := succ_machine
                release_times := release_times
                tail_times := tail_times
                path_times := path_times
                cmax := cmax }

/-- The four quantities of `IntermediateSolution::times_after_swap`
(`a_new_release`, `a_new_tail`, `b_new_release`, `b_new_tail`), computed
from the pre-swap state exactly as in the source. -/
def IntermediateSolution.times_after_swap (s : IntermediateSolution)
    (a b : Nat) : Nat × Nat × Nat × Nat :=
  let pre_machine_a_end :=
    match getO s.pre_machine a with
    | some p => s.rel p + s.inst.dur p
    | none => 0
  let pre_job_b_end :=
    match getO s.pre_job b with
    | some p => s.rel p + s.inst.dur p
    | none => 0
  let pre_job_a_end :=
    match getO s.pre_job a with
    | some p => s.rel p + s.inst.dur p
    | none => 0
  let succ_machine_b_tail :=
    match getO s.succ_machine b with
    | some p => s.tl p
    | none => 0
  let succ_job_a_tail :=
    match getO s.succ_job a with
    | some p => s.tl p
    | none => 0
  let succ_job_b_tail :=
    match getO s.succ_job b with
    | some p => s.tl p
    | none => 0
  let b_new_release := max pre_machine_a_end pre_job_b_end
  let b_new_end := b_new_release + s.inst.dur b
  let a_new_release := max b_new_end pre_job_a_end
  let a_new_tail := max succ_machine_b_tail succ_job_a_tail + s.inst.dur a
  let b_new_tail := max a_new_tail succ_job_b_tail + s.inst.dur b
  (a_new_release, a_new_tail, b_new_release, b_new_tail)

/-- The O(1) estimator `IntermediateSolution::cmax_after_swap`. -/
def IntermediateSolution.cmax_after_swap (s : IntermediateSolution)
    (a b : Nat) : Nat :=
  let (a_new_release, a_new_tail, b_new_release, b_new_tail) :=
    s.times_after_swap a b
  max (b_new_release + b_new_tail) (a_new_release + a_new_tail)

/-- `IntermediateSolution::apply_swap`: reorient the affected conflict
edges, relink the machine pre/succ arrays (all reads from the pre-swap
state, writes in source order), and recompute heads, tails, paths and
`cmax`.  `none` models the panic of the recomputation on a cyclic
result and fuel exhaustion. -/
def IntermediateSolution.apply_swap (fuel : Nat) (s : IntermediateSolution)
    (a b : Nat) : Option IntermediateSolution :=
  let edges := s.oriented_conflict_edges.map fun e =>
    let (u, v) := e
    if u = a ∧ v = b then (b, a)
    else if v = a then (u, b)
    else if u = b then (a, v)
    else (u, v)
  let succ_machine1 :=
    match getO s.pre_machine a with
    | some pre_machine_a => s.succ_machine.set pre_machine_a (some b)
    | none => s.succ_machine
  let pre_machine1 :=
    match getO s.succ_machine b with
    | some succ_machine_b => s.pre_machine.set succ_machine_b (some a)
    | none => s.pre_machine
  let pre_machine2 := (pre_machine1.set a (some b)).set b (getO s.pre_machine a)
  let succ_machine2 :=
    (succ_machine1.set a (getO s.succ_machine b)).set b (some a)
  match get_release_times_from_pre_succ_relations fuel s.inst
      s.pre_job s.succ_job pre_machine2 succ_machine2 with
  | none => none
  | some (release_times, _) =>
    match get_tail_times_from_pre_succ_relations fuel s.inst
        s.pre_job s.succ_job pre_machine2 succ_machine2 with
    | none => none
    | some (tail_times, _, _) =>
      let path_times := List.zipWith (· + ·) release_times tail_times
      match path_times.max? with
      | none => none
      | some cmax =>
        some
          { inst := s.inst
            oriented_conflict_edges := edges
            precedence_edges := s.precedence_edges
            pre_job := s.pre_job
            succ_job := s.succ_job
            pre_machine := pre_machine2
            succ_machine := succ_machine2
            release_times := release_times
            tail_times := tail_times
            path_times := path_times
            cmax := cmax }

/-! ## Schedule→orientation bridge -/

/-- Ordered insertion with the panicking comparator: `none` as soon as
the comparator answers `Equal` (the source's `is_before` panic).  On
inputs where no two listed operations compare `Equal`, the comparator is
a strict total order and any correct sort — in particular the source's
`sort_by` — produces this unique sorted arrangement. -/
def insert_ordered (cmp : Nat → Nat → Ordering) (x : Nat) :
    List Nat → Option (List Nat)
  | [] => some [x]
  | y :: ys =>
    match cmp x y with
    | Ordering.lt => some (x :: y :: ys)
    | Ordering.gt => (insert_ordered cmp x ys).map (y :: ·)
    | Ordering.eq => none

/-- Sort a list with the panicking comparator (insertion sort). -/
def sort_ordered (cmp : Nat → Nat → Ordering) (l : List Nat) :
    Option (List Nat) :=
  l.foldlM (fun acc x => insert_ordered cmp x acc) []

/-- `get_orientation_from_schedule`: group the operations by machine (in
id order), sort each group by `op_ordering` on the schedule's start
times, and emit consecutive pairs (`tuple_windows`) as oriented conflict
edges. -/
def get_orientation_from_schedule (inst : Instance) (solution : Solution) :
    Option (List Edge) :=
  let machine_to_operations := (List.range inst.n_machines).map fun m =>
    (List.range inst.n_ops).filter fun op => inst.mach op == m
  match machine_to_operations.mapM
      (fun ops => sort_ordered
        (fun x y => op_ordering x y solution.start_times inst.durations) ops) with
  | none => none
  | some sorted => some (sorted.flatMap fun ops => ops.zip ops.tail)

/-! ## N1 neighbourhood -/

/-- A scored candidate move (`EvaluatedMove` in `src/solver/n1.rs`). -/
structure EvaluatedMove where
  swap_move : Edge
  cmax : Nat
deriving Repr, DecidableEq

/-- Lexicographic comparison of edges, the iteration order of the
`BTreeSet` of critical arcs. -/
def arcLt (e f : Edge) : Bool :=
  e.1 < f.1 || (e.1 == f.1 && e.2 < f.2)

/-- Ordered-insert an arc, keeping the list sorted and duplicate-free
(the `BTreeSet::insert` of the source). -/
def insertArc (e : Edge) : List Edge → List Edge
  | [] => [e]
  | f :: fs =>
    if arcLt e f then e :: f :: fs
    else if e = f then f :: fs
    else f :: insertArc e fs

/-- Backward trace of `generate_moves`: from every critical terminal,
follow at most one critical predecessor (both, on an `op_ordering` tie),
inserting each visited arc. -/
def n1_trace_loop (s : IntermediateSolution) :
    Nat → List Nat → List Edge → Option (List Edge)
  | 0, q, arcs =>
    match q with
    | [] => some arcs
    | _ :: _ => none
  | fuel + 1, q, arcs =>
    match q with
    | [] => some arcs
    | current :: rest =>
      let critical_pre_job :=
        (getO s.pre_job current).filter fun op => s.is_critical op
      let critical_pre_machine :=
        (getO s.pre_machine current).filter fun op => s.is_critical op
      let nexts : List Nat :=
        match critical_pre_job, critical_pre_machine with
        | some o1, some o2 =>
          match op_ordering o1 o2 s.release_times s.inst.durations with
          | Ordering.lt => [o2]
          | Ordering.gt => [o1]
          | Ordering.eq => [o1, o2]
        | some o1, none => [o1]
        | none, some o2 => [o2]
        | none, none => []
      let arcs' := nexts.foldl (fun acc nxt => insertArc (nxt, current) acc) arcs
      n1_trace_loop s fuel (rest ++ nexts) arcs'

/-- `n1::generate_moves`: trace the critical arcs, then keep those that
are same-machine oriented conflict edges, scoring each with
`cmax_after_swap`. -/
def generate_moves (fuel : Nat) (s : IntermediateSolution) :
    Option (List EvaluatedMove) :=
  let seeds := (List.range s.inst.n_ops).filter fun op =>
    s.is_critical op && (getO s.succ_job op).isNone &&
      (getO s.succ_machine op).isNone
  match n1_trace_loop s fuel seeds [] with
  | none => none
  | some critical_arcs =>
    some ((critical_arcs.filter fun e =>
        s.inst.mach e.1 == s.inst.mach e.2 &&
          s.oriented_conflict_edges.contains e).map fun e =>
      { swap_move := e, cmax := s.cmax_after_swap e.1 e.2 })

/-- Search strategy of `n1::find_move`. -/
inductive SearchMethod where
  | Exhaustive
  | First

/-- Candidate scan of `n1::find_move`. -/
def find_move_go (should_accept : Option EvaluatedMove → EvaluatedMove → Bool)
    (method : SearchMethod) :
    List EvaluatedMove → Option EvaluatedMove → Option EvaluatedMove
  | [], best => best
  | m :: ms, best =>
    if should_accept best m then
      match method with
      | SearchMethod.First => some m
      | SearchMethod.Exhaustive => find_move_go should_accept method ms (some m)
    else find_move_go should_accept method ms best

/-- `n1::find_move`: generate the neighbourhood and scan it with the
acceptance predicate. -/
def find_move (fuel : Nat) (s : IntermediateSolution)
    (should_accept : Option EvaluatedMove → EvaluatedMove → Bool)
    (method : SearchMethod) : Option (Option EvaluatedMove) :=
  (generate_moves fuel s).map fun moves =>
    find_move_go should_accept method moves none

/-! ## Hill climber -/

/-- The descent loop of `hill_climber::improve_solution`: take the
exhaustively-best N1 move; apply it if its estimate improves on the
current `cmax`, stop otherwise. -/
def hc_loop (fuel : Nat) :
    Nat → IntermediateSolution → Option IntermediateSolution
  | 0, _ => none
  | n + 1, s =>
    match find_move fuel s
        (fun maybe_best candidate =>
          match maybe_best with
          | some best => candidate.cmax < best.cmax
          | none => true)
        SearchMethod.Exhaustive with
    | none => none
    | some maybe_move =>
      match maybe_move.filter fun m => m.cmax < s.cmax with
      | some next_move =>
        match s.apply_swap fuel next_move.swap_move.1 next_move.swap_move.2 with
        | none => none
        | some s' => hc_loop fuel n s'
      | none => some s

/-- `hill_climber::improve_solution`: build the state from the
schedule's induced orientation and run the descent loop. -/
def improve_solution (fuel : Nat) (inst : Instance)
    (initial_solution : Solution) : Option IntermediateSolution :=
  match get_orientation_from_schedule inst initial_solution with
  | none => none
  | some edges =>
    match IntermediateSolution.new fuel inst edges with
    | none => none
    | some s => hc_loop fuel fuel s

/-! ## Priority dispatchers -/

/-- Strict lexicographic order on key tuples (encoded as lists). -/
def lexLt : List Nat → List Nat → Bool
  | [], _ => false
  | _ :: _, [] => false
  | x :: xs, y :: ys => x < y || (x == y && lexLt xs ys)

/-- Index of the first minimum of `key` over a list
(`enumerate().min_by_key(...)`; Rust returns the first of equal
minima). -/
def min_idx_by (key : Nat → List Nat) (l : List Nat) : Option Nat :=
  (l.enum.foldl
    (fun acc p =>
      match acc with
      | none => some p
      | some q => if lexLt (key p.2) (key q.2) then some p else some q)
    none).map (·.1)

/-- Index of the last maximum of `key` over a list
(`enumerate().max_by_key(...)`; Rust returns the last of equal
maxima). -/
def max_idx_by (key : Nat → List Nat) (l : List Nat) : Option Nat :=
  (l.enum.foldl
    (fun acc p =>
      match acc with
      | none => some p
      | some q => if lexLt (key p.2) (key q.2) then some q else some p)
    none).map (·.1)

/-- `priority::get_work_remaining`: total duration of operations `o` to
`M-1` of job `job`. -/
def get_work_remaining (inst : Instance) (job op : Nat) : Nat :=
  (List.range' op (inst.n_machines - op)).foldl
    (fun acc o => acc + inst.dur (inst.op_to_id job o)) 0

/-- Completion-time key of a ready operation in the dispatch loop of
`priority::find_solution`: `max(job_next_release[j], machine_next_release[m])
+ duration`. -/
def priority_completion (inst : Instance) (jnr mnr : List Nat)
    (op_id : Nat) : Nat :=
  max (jnr.getD (inst.op_from_id op_id).1 0) (mnr.getD (inst.mach op_id) 0) +
    inst.dur op_id

/-- The `min_by_key`-selected `(op, completion)` pair over the non-empty
ready list `r0 :: rrest` (first minimum, keyed lexicographically by
completion time then operation id, as Rust `min_by_key` on the tuple). -/
def priority_earliest (inst : Instance) (jnr mnr : List Nat)
    (r0 : Nat) (rrest : List Nat) : Nat × Nat :=
  (rrest.map fun op => (op, priority_completion inst jnr mnr op)).foldl
    (fun best p => if lexLt [p.2, p.1] [best.2, best.1] then p else best)
    (r0, priority_completion inst jnr mnr r0)

/-- The candidate list handed to the rule closure: ready operations on
the earliest-completion operation's machine whose job clock does not
exceed that operation's completion time. -/
def priority_candidates (inst : Instance) (jnr mnr : List Nat)
    (r0 : Nat) (rrest : List Nat) : List Nat :=
  ((r0 :: rrest).filter fun op =>
      inst.mach op == inst.mach (priority_earliest inst jnr mnr r0 rrest).1)
    |>.filter fun op =>
      decide (jnr.getD (inst.op_from_id op).1 0 ≤
        (priority_earliest inst jnr mnr r0 rrest).2)

/-- Dispatch loop of `priority::find_solution`.  One fuel unit per
scheduled operation; `none` models the `unwrap`/indexing panics (empty
candidate list or out-of-range chosen index) and fuel exhaustion.  The
returned trace lists the scheduled operations in order. -/
def priority_loop (inst : Instance) (choose_next : List Nat → Option Nat) :
    Nat → List Nat → List Nat → List Nat → List Nat → List Nat →
    Option (Solution × List Nat)
  | 0, ready, op_start_times, _, _, order =>
    match ready with
    | [] => some (⟨op_start_times⟩, order)
    | _ :: _ => none
  | fuel + 1, ready, op_start_times, machine_next_release, job_next_release,
      order =>
    match ready with
    | [] => some (⟨op_start_times⟩, order)
    | r0 :: rrest =>
      let candidates :=
        priority_candidates inst job_next_release machine_next_release r0
          rrest
      match choose_next candidates with
      | none => none
      | some chosen_idx =>
        match candidates.get? chosen_idx with
        | none => none
        | some chosen_op =>
          let j := (inst.op_from_id chosen_op).1
          let o := (inst.op_from_id chosen_op).2
          let m := inst.mach chosen_op
          let release_time :=
            max (job_next_release.getD j 0) (machine_next_release.getD m 0)
          let finish_time := release_time + inst.dur chosen_op
          priority_loop inst choose_next fuel
            ((if o < inst.n_machines - 1 then
                ((r0 :: rrest).filter fun op => op ≠ chosen_op) ++
                  [inst.op_to_id j (o + 1)]
              else (r0 :: rrest).filter fun op => op ≠ chosen_op))
            (op_start_times.set chosen_op release_time)
            (machine_next_release.set m finish_time)
            (job_next_release.set j finish_time)
            (order ++ [chosen_op])

/-- `priority::find_solution`: seed the ready list with `(j, 0)` for
every job and run the dispatch loop. -/
def priority_find_solution (inst : Instance)
    (choose_next : List Nat → Option Nat) : Option (Solution × List Nat) :=
  priority_loop inst choose_next (inst.n_ops + 1)
    ((List.range inst.n_jobs).map fun j => inst.op_to_id j 0)
    (List.replicate inst.n_ops 0) (List.replicate inst.n_machines 0)
    (List.replicate inst.n_jobs 0) []

/-- The six rule closures of `src/solver/priority.rs`, by index:
0 SPS, 1 LPS, 2 SPT, 3 LPT, 4 LWRM, 5 MWRM. -/
def priority_rule (inst : Instance) : Nat → (List Nat → Option Nat)
  | 0 => min_idx_by fun op_id =>
      [(inst.op_from_id op_id).2, (inst.op_from_id op_id).1]
  | 1 => max_idx_by fun op_id =>
      [(inst.op_from_id op_id).2, (inst.op_from_id op_id).1]
  | 2 => min_idx_by fun op_id =>
      [inst.dur op_id, (inst.op_from_id op_id).1, (inst.op_from_id op_id).2]
  | 3 => max_idx_by fun op_id =>
      [inst.dur op_id, (inst.op_from_id op_id).1, (inst.op_from_id op_id).2]
  | 4 => min_idx_by fun op_id =>
      [get_work_remaining inst (inst.op_from_id op_id).1
        (inst.op_from_id op_id).2,
       (inst.op_from_id op_id).1, (inst.op_from_id op_id).2]
  | _ => max_idx_by fun op_id =>
      [get_work_remaining inst (inst.op_from_id op_id).1
        (inst.op_from_id op_id).2,
       (inst.op_from_id op_id).1, (inst.op_from_id op_id).2]

/-! ## Simulated annealing: the temperature estimator's delta -/

/-- The delta recorded by `estimate_initial_temperature` in
`src/solver/simulated_annealing.rs`: `chosen_move.cmax - solution.cmax`
is a Rust `u32` subtraction, modelled here with its release-mode
wrap-around semantics (in a debug build the same expression panics on
overflow). -/
def sa_recorded_delta (move_cmax solution_cmax : Nat) : Nat :=
  (move_cmax % 2 ^ 32 + (2 ^ 32 - solution_cmax % 2 ^ 32)) % 2 ^ 32

/-! ## Claim C7: the per-machine pairwise ordering -/

/-! ## Claim C4: the temperature estimator's unsigned delta -/

/-! ## Well-formedness of the derived graph -/

/-- Every entry of a neighbour array is an in-range operation id, and
the array has one slot per operation. -/
def ArrOk (inst : Instance) (arr : List (Option Nat)) : Prop :=
  arr.length = inst.n_ops ∧ ∀ i p, getO arr i = some p → p < inst.n_ops

/-- The predecessor and successor arrays of one edge family are inverse
views of the same relation. -/
def InversePair (pre succ : List (Option Nat)) : Prop :=
  ∀ p n, getO succ p = some n ↔ getO pre n = some p

/-- The arc relation induced by the predecessor arrays: `p` is an
immediate (job or machine) predecessor of `n`. -/
def predOf (pj pm : List (Option Nat)) (p n : Nat) : Prop :=
  getO pj n = some p ∨ getO pm n = some p

/-- End time of an optional predecessor over unwrapped release times;
an absent neighbour contributes `0`. -/
def endv (inst : Instance) (rel : List Nat) : Option Nat → Nat
  | none => 0
  | some p => rel.getD p 0 + inst.dur p

/-- The head fixpoint equations: each release time is the maximum of
its predecessors' end times (the section-3 head invariant). -/
def relFix (inst : Instance) (pj pm : List (Option Nat))
    (rel : List Nat) : Prop :=
  ∀ n < inst.n_ops,
    rel.getD n 0 = max (endv inst rel (getO pj n)) (endv inst rel (getO pm n))

/-- The tail fixpoint equations: each tail is the node's duration plus
the maximum of its successors' tails (the mirror invariant). -/
def tailFix (inst : Instance) (sj sm : List (Option Nat))
    (tail : List Nat) : Prop :=
  ∀ n < inst.n_ops,
    tail.getD n 0 =
      max (tailOf tail (getO sj n)) (tailOf tail (getO sm n)) + inst.dur n

/-- A rank function certifying acyclicity: every arc increases rank. -/
def RankedBy (pj pm : List (Option Nat)) (rk : Nat → Nat) : Prop :=
  ∀ p n, predOf pj pm p n → rk p < rk n

/-- Mid-loop value of the head recurrence over the optional release
array (default-unwrapped; used only for labelled nodes, whose
predecessors are labelled and hence assigned). -/
def endR (inst : Instance) (rel : List (Option Nat)) : Option Nat → Nat
  | none => 0
  | some p => (getO rel p).getD 0 + inst.dur p

/-- Invariant of `release_loop`: labels mirror the pop trace, queued
nodes have all predecessors labelled, every pop's predecessors appear
earlier in the trace, labelled nodes carry their head-recurrence value,
unlabelled-but-assigned nodes are seeded sources, and every assigned
node is popped or queued. -/
structure RelInv (inst : Instance) (pj pm : List (Option Nat))
    (q : List Nat) (rel : List (Option Nat)) (lab : List Bool)
    (tr : List Nat) : Prop where
  rel_len : rel.length = inst.n_ops
  lab_len : lab.length = inst.n_ops
  lab_tr : ∀ i, lab.getD i false = true ↔ i ∈ tr
  q_bound : ∀ n ∈ q, n < inst.n_ops
  q_gate : ∀ n ∈ q, ∀ p, predOf pj pm p n → lab.getD p false = true
  tr_preds : ∀ k, (hk : k < tr.length) → ∀ p,
    predOf pj pm p (tr.get ⟨k, hk⟩) → p ∈ tr.take k
  lab_val : ∀ n, lab.getD n false = true →
    getO rel n =
      some (max (endR inst rel (getO pj n)) (endR inst rel (getO pm n)))
  unlab_val : ∀ n, lab.getD n false = false → ∀ v, getO rel n = some v →
    getO pj n = none ∧ getO pm n = none ∧ v = 0
  rel_mem : ∀ n, (getO rel n).isSome = true → n ∈ tr ∨ n ∈ q

/-- Invariant of `tail_loop`, the mirror of `RelInv`: seeded from sinks,
propagating towards sources.  `comp` is the completeness clause: a node
whose successors are all labelled is labelled or queued. -/
structure TailInv (inst : Instance) (sj sm : List (Option Nat))
    (q : List Nat) (tail : List Nat) (lab : List Bool)
    (tr : List Nat) : Prop where
  tail_len : tail.length = inst.n_ops
  lab_len : lab.length = inst.n_ops
  lab_tr : ∀ i, lab.getD i false = true ↔ i ∈ tr
  q_bound : ∀ n ∈ q, n < inst.n_ops
  q_gate : ∀ n ∈ q, ∀ s, predOf sj sm s n → lab.getD s false = true
  tr_succs : ∀ k, (hk : k < tr.length) → ∀ s,
    predOf sj sm s (tr.get ⟨k, hk⟩) → s ∈ tr.take k
  lab_val : ∀ n, lab.getD n false = true →
    tail.getD n 0 =
      max (tailOf tail (getO sj n)) (tailOf tail (getO sm n)) + inst.dur n
  comp : ∀ n < inst.n_ops,
    (∀ s, predOf sj sm s n → lab.getD s false = true) →
    (lab.getD n false = true ∨ n ∈ q)

/-- Well-formedness of a constructed `IntermediateSolution`: the
inverted indexes are in-range inverse pairs, the conflict edges coincide
with the machine-successor relation, release and tail times satisfy
their fixpoint equations, a bounded rank function certifies acyclicity,
and `path_times`/`cmax` are the stated derivations.  These are the
construction invariants of section 3 of the specification. -/
structure StateWF (s : IntermediateSolution) : Prop where
  hpjO : ArrOk s.inst s.pre_job
  hsjO : ArrOk s.inst s.succ_job
  hpmO : ArrOk s.inst s.pre_machine
  hsmO : ArrOk s.inst s.succ_machine
  hJ : InversePair s.pre_job s.succ_job
  hM : InversePair s.pre_machine s.succ_machine
  rel_len : s.release_times.length = s.inst.n_ops
  tail_len : s.tail_times.length = s.inst.n_ops
  hfix : relFix s.inst s.pre_job s.pre_machine s.release_times
  htfix : tailFix s.inst s.succ_job s.succ_machine s.tail_times
  hrank : ∃ (rk : Nat → Nat) (B : Nat),
    RankedBy s.pre_job s.pre_machine rk ∧ ∀ n < s.inst.n_ops, rk n < B
  hrankT : ∃ rk : Nat → Nat, RankedBy s.succ_job s.succ_machine rk
  edge_iff : ∀ v w, (v, w) ∈ s.oriented_conflict_edges ↔
    getO s.succ_machine v = some w
  path_eq : s.path_times = List.zipWith (· + ·) s.release_times s.tail_times
  cmax_eq : s.path_times.max? = some s.cmax

/-- The edge reorientation of `apply_swap` (the `for edge in &mut edges`
loop): `(a,b)` becomes `(b,a)`, edges into `a` are redirected into `b`,
edges out of `b` are redirected out of `a`. -/
def swapEdge (a b : Nat) (e : Edge) : Edge :=
  let (u, v) := e
  if u = a ∧ v = b then (b, a)
  else if v = a then (u, b)
  else if u = b then (a, v)
  else (u, v)

/-- The machine-predecessor array after `apply_swap`'s four relink
writes (reads from the pre-swap arrays, writes in source order). -/
def relinkPre (pm sm : List (Option Nat)) (a b : Nat) : List (Option Nat) :=
  ((match getO sm b with
    | some succ_machine_b => pm.set succ_machine_b (some a)
    | none => pm).set a (some b)).set b (getO pm a)

/-- The machine-successor array after `apply_swap`'s four relink
writes. -/
def relinkSucc (pm sm : List (Option Nat)) (a b : Nat) : List (Option Nat) :=
  ((match getO pm a with
    | some pre_machine_a => sm.set pre_machine_a (some b)
    | none => sm).set a (getO sm b)).set b (some a)

/-- Reflexive-transitive closure of a step relation: reachability in
the disjunctive graph, used by the change-propagation arguments. -/
inductive reach (step : Nat → Nat → Prop) (src : Nat) : Nat → Prop where
  | refl : reach step src src
  | tail {u v : Nat} : reach step src u → step u v → reach step src v

/-- Total duration of a list of operations: the weight of a path of the
disjunctive graph. -/
def wt (inst : Instance) (l : List Nat) : Nat := (l.map inst.dur).sum

/-- The five formulas of specification section 4.2 for the post-swap
heads and tails of the swapped endpoints, written from the spec's words:
`end(x) = release_times[x] + duration[x]`, `tail(x) = tail_times[x]`, a
missing neighbour contributing `0`.  Spec-side counterpart of
`times_after_swap`, for the refinement claim. -/
def spec_new_times (s : IntermediateSolution) (a b : Nat) :
    Nat × Nat × Nat × Nat :=
  let endO : Option Nat → Nat := fun x =>
    match x with
    | some p => s.rel p + s.inst.dur p
    | none => 0
  let tailO : Option Nat → Nat := fun x =>
    match x with
    | some p => s.tl p
    | none => 0
  let b_new_release :=
    max (endO (getO s.pre_machine a)) (endO (getO s.pre_job b))
  let b_new_end := b_new_release + s.inst.dur b
  let a_new_release := max b_new_end (endO (getO s.pre_job a))
  let a_new_tail :=
    max (tailO (getO s.succ_machine b)) (tailO (getO s.succ_job a)) +
      s.inst.dur a
  let b_new_tail := max a_new_tail (tailO (getO s.succ_job b)) + s.inst.dur b
  (a_new_release, a_new_tail, b_new_release, b_new_tail)

/-- The spec's estimator value,
`max(a_new_release + a_new_tail, b_new_release + b_new_tail)`. -/
def spec_cmax_after_swap (s : IntermediateSolution) (a b : Nat) : Nat :=
  max ((spec_new_times s a b).1 + (spec_new_times s a b).2.1)
    ((spec_new_times s a b).2.2.1 + (spec_new_times s a b).2.2.2)

/-! ## Claim theorems and supporting lemmas -/

theorem getD_set_self {α : Type} (l : List α) {i : Nat} (h : i < l.length)
    (x d : α) : (l.set i x).getD i d = x := by
  simp [List.getD, List.getElem?_set_self', h]

theorem getD_set_ne {α : Type} (l : List α) {i j : Nat} (h : i ≠ j)
    (x d : α) : (l.set i x).getD j d = l.getD j d := by
  simp [List.getD, List.getElem?_set_ne h]

theorem getD_out {α : Type} (l : List α) {i : Nat} (h : l.length ≤ i)
    (d : α) : l.getD i d = d := by
  simp [List.getD, List.getElem?_eq_none h]

theorem getD_replicate {α : Type} {n i : Nat} (a d : α) :
    (List.replicate n a).getD i d = if i < n then a else d := by
  by_cases h : i < n
  · simp [List.getD, List.getElem?_replicate, h]
  · simp [List.getD, List.getElem?_replicate, h]

theorem getO_set_self {l : List (Option Nat)} {i : Nat} (h : i < l.length)
    (x : Option Nat) : getO (l.set i x) i = x := getD_set_self l h x none

theorem getO_set_ne {l : List (Option Nat)} {i j : Nat} (h : i ≠ j)
    (x : Option Nat) : getO (l.set i x) j = getO l j := getD_set_ne l h x none

theorem getO_out {l : List (Option Nat)} {i : Nat} (h : l.length ≤ i) :
    getO l i = none := getD_out l h none

theorem pre_succ_fold_spec (inst : Instance) (es : List Edge) :
    ∀ pre succ pre' succ' : List (Option Nat),
      pre_succ_fold inst es (pre, succ) = some (pre', succ') →
      pre.length = inst.n_ops → succ.length = inst.n_ops →
      (pre'.length = inst.n_ops ∧ succ'.length = inst.n_ops) ∧
      (∀ n p, getO pre' n = some p → getO pre n = some p ∨ (p, n) ∈ es) ∧
      (∀ p n, getO succ' p = some n → getO succ p = some n ∨ (p, n) ∈ es) ∧
      (∀ v w, (v, w) ∈ es →
        getO pre' w = some v ∧ getO succ' v = some w ∧
        v < inst.n_ops ∧ w < inst.n_ops) ∧
      (∀ n p, getO pre n = some p → getO pre' n = some p) ∧
      (∀ p n, getO succ p = some n → getO succ' p = some n) := by
  induction es with
  | nil =>
    intro pre succ pre' succ' h hl1 hl2
    simp only [pre_succ_fold, Option.some.injEq, Prod.mk.injEq] at h
    obtain ⟨rfl, rfl⟩ := h
    exact ⟨⟨hl1, hl2⟩, fun n p hp => Or.inl hp, fun p n hp => Or.inl hp,
      fun v w hw => absurd hw (List.not_mem_nil _),
      fun _ _ hp => hp, fun _ _ hp => hp⟩
  | cons e es ih =>
    obtain ⟨v, w⟩ := e
    intro pre succ pre' succ' h hl1 hl2
    simp only [pre_succ_fold] at h
    split at h
    case isFalse => exact absurd h (by simp)
    case isTrue hb =>
      obtain ⟨hv, hw⟩ := hb
      cases hpw : getO pre w with
      | some p => rw [hpw] at h; exact absurd h (by simp)
      | none =>
        cases hsv : getO succ v with
        | some s =>
          rw [hpw, hsv] at h; exact absurd h (by simp)
        | none =>
          rw [hpw, hsv] at h
          have hl1' : (pre.set w (some v)).length = inst.n_ops := by
            simpa using hl1
          have hl2' : (succ.set v (some w)).length = inst.n_ops := by
            simpa using hl2
          obtain ⟨hlen, horigP, horigS, hrec, hperP, hperS⟩ :=
            ih (pre.set w (some v)) (succ.set v (some w)) pre' succ' h hl1' hl2'
          refine ⟨hlen, ?_, ?_, ?_, ?_, ?_⟩
          · intro n p hp
            rcases horigP n p hp with h1 | h1
            · by_cases hnw : n = w
              · subst hnw
                rw [getO_set_self (hl1 ▸ hw) _] at h1
                exact Or.inr (by simp [← Option.some_inj.mp h1])
              · rw [getO_set_ne (Ne.symm hnw) _] at h1
                exact Or.inl h1
            · exact Or.inr (List.mem_cons_of_mem _ h1)
          · intro p n hp
            rcases horigS p n hp with h1 | h1
            · by_cases hpv : p = v
              · subst hpv
                rw [getO_set_self (hl2 ▸ hv) _] at h1
                exact Or.inr (by simp [← Option.some_inj.mp h1])
              · rw [getO_set_ne (Ne.symm hpv) _] at h1
                exact Or.inl h1
            · exact Or.inr (List.mem_cons_of_mem _ h1)
          · intro v' w' hmem
            rcases List.mem_cons.mp hmem with heq | htl
            · obtain ⟨rfl, rfl⟩ : v = v' ∧ w = w' := by
                simpa using heq.symm
              refine ⟨hperP w v ?_, hperS v w ?_, hv, hw⟩
              · exact getO_set_self (hl1 ▸ hw) _
              · exact getO_set_self (hl2 ▸ hv) _
            · exact hrec v' w' htl
          · intro n p hp
            refine hperP n p ?_
            by_cases hnw : n = w
            · subst hnw; rw [hpw] at hp; exact absurd hp (by simp)
            · rw [getO_set_ne (Ne.symm hnw) _]; exact hp
          · intro p n hp
            refine hperS p n ?_
            by_cases hpv : p = v
            · subst hpv; rw [hsv] at hp; exact absurd hp (by simp)
            · rw [getO_set_ne (Ne.symm hpv) _]; exact hp

theorem get_pre_succ_spec (inst : Instance) (edges : List Edge)
    (pre succ : List (Option Nat))
    (h : get_pre_succ_relations inst edges = some (pre, succ)) :
    ArrOk inst pre ∧ ArrOk inst succ ∧ InversePair pre succ ∧
    (∀ v w, (v, w) ∈ edges → getO pre w = some v ∧ getO succ v = some w ∧
      v < inst.n_ops ∧ w < inst.n_ops) ∧
    (∀ n p, getO pre n = some p → (p, n) ∈ edges) ∧
    (∀ p n, getO succ p = some n → (p, n) ∈ edges) := by
  have hbase : ∀ i, getO (List.replicate inst.n_ops (none : Option Nat)) i =
      none := by
    intro i
    unfold getO
    rw [getD_replicate]
    split <;> rfl
  obtain ⟨⟨hl1, hl2⟩, horigP, horigS, hrec, _, _⟩ :=
    pre_succ_fold_spec inst edges _ _ pre succ h (by simp) (by simp)
  have hpreMem : ∀ n p, getO pre n = some p → (p, n) ∈ edges := by
    intro n p hp
    rcases horigP n p hp with h1 | h1
    · rw [hbase n] at h1; exact absurd h1 (by simp)
    · exact h1
  have hsuccMem : ∀ p n, getO succ p = some n → (p, n) ∈ edges := by
    intro p n hp
    rcases horigS p n hp with h1 | h1
    · rw [hbase p] at h1; exact absurd h1 (by simp)
    · exact h1
  refine ⟨⟨hl1, ?_⟩, ⟨hl2, ?_⟩, ?_, hrec, hpreMem, hsuccMem⟩
  · intro n p hp
    exact (hrec p n (hpreMem n p hp)).2.2.1
  · intro p n hp
    exact (hrec p n (hsuccMem p n hp)).2.2.2
  · intro p n
    constructor
    · intro hp
      exact (hrec p n (hsuccMem p n hp)).1
    · intro hp
      exact (hrec p n (hpreMem n p hp)).2.1

theorem endOf_some {inst : Instance} {rel : List (Option Nat)}
    {x : Option Nat} {e : Nat} (h : endOf inst rel x = some e) :
    e = endR inst rel x ∧ ∀ p, x = some p → (getO rel p).isSome = true := by
  cases x with
  | none =>
    simp [endOf] at h
    exact ⟨by simp [endR, ← h], by simp⟩
  | some p =>
    simp only [endOf] at h
    cases hr : getO rel p with
    | none => rw [hr] at h; exact absurd h (by simp)
    | some r =>
      rw [hr] at h
      refine ⟨?_, by simp [hr]⟩
      simp only [Option.some.injEq] at h
      simp [endR, hr, ← h]

theorem seed_fold_getO (v : Nat) :
    ∀ (l : List Nat) (rel : List (Option Nat)) (n : Nat),
      getO (l.foldl (fun r o => r.set o (some v)) rel) n =
        if n ∈ l ∧ n < rel.length then some v else getO rel n := by
  intro l
  induction l with
  | nil => intro rel n; simp
  | cons x xs ih =>
    intro rel n
    rw [List.foldl_cons, ih]
    by_cases hn : n ∈ xs ∧ n < (rel.set x (some v)).length
    · rw [if_pos hn]
      have : n ∈ x :: xs ∧ n < rel.length := ⟨List.mem_cons_of_mem _ hn.1,
        by simpa using hn.2⟩
      rw [if_pos this]
    · rw [if_neg hn]
      by_cases hx : n = x
      · subst hx
        by_cases hlen : n < rel.length
        · rw [getO_set_self hlen, if_pos ⟨List.mem_cons_self _ _, hlen⟩]
        · rw [if_neg (fun hc => hlen hc.2)]
          have h1 : rel.length ≤ n := Nat.le_of_not_lt hlen
          rw [getO_out (by simpa using h1), getO_out h1]
      · rw [getO_set_ne (Ne.symm hx)]
        rw [if_neg (fun hc => hn ⟨(List.mem_cons.mp hc.1).resolve_left hx,
          by simpa using hc.2⟩)]

theorem unwrap_all_spec :
    ∀ (l : List (Option Nat)) (l' : List Nat),
      unwrap_all l = some l' →
      l.length = l'.length ∧ ∀ i, i < l.length →
        getO l i = some (l'.getD i 0) := by
  intro l
  induction l with
  | nil =>
    intro l' h
    simp only [unwrap_all, Option.some.injEq] at h
    subst h
    exact ⟨rfl, fun i hi => absurd hi (by simp)⟩
  | cons x xs ih =>
    intro l' h
    cases x with
    | none => simp [unwrap_all] at h
    | some v =>
      simp only [unwrap_all] at h
      cases hxs : unwrap_all xs with
      | none => rw [hxs] at h; simp at h
      | some ys =>
        rw [hxs] at h
        simp only [Option.map_some', Option.some.injEq] at h
        subst h
        obtain ⟨hlen, hval⟩ := ih ys hxs
        refine ⟨by simp [hlen], ?_⟩
        intro i hi
        cases i with
        | zero => rfl
        | succ j =>
          simpa [getO, List.getD] using hval j (by simpa using hi)

theorem mem_take_indexOf {p : Nat} :
    ∀ (l : List Nat) (k : Nat), p ∈ l.take k → l.indexOf p < k := by
  intro l
  induction l with
  | nil => intro k h; simp at h
  | cons x xs ih =>
    intro k h
    cases k with
    | zero => simp at h
    | succ k' =>
      rw [List.take_succ_cons] at h
      rcases List.mem_cons.mp h with rfl | h1
      · simp [List.indexOf_cons_self]
      · by_cases hpx : p = x
        · subst hpx; simp [List.indexOf_cons_self]
        · rw [List.indexOf_cons_ne _ (by simpa using Ne.symm hpx)]
          exact Nat.succ_lt_succ (ih k' h1)

theorem release_step_inv (inst : Instance) {pj sj pm sm : List (Option Nat)}
    (hsjO : ArrOk inst sj) (hsmO : ArrOk inst sm)
    (hJ : InversePair pj sj) (hM : InversePair pm sm)
    {node : Nat} {rest tr : List Nat} {rel : List (Option Nat)}
    {lab : List Bool} {e1 e2 : Nat}
    (hinv : RelInv inst pj pm (node :: rest) rel lab tr)
    (he1 : endOf inst rel (getO pj node) = some e1)
    (he2 : endOf inst rel (getO pm node) = some e2)
    (q2 : List Nat)
    (hq2 : ∀ n ∈ q2, n ∈ rest ∨
      (getO sj node = some n ∧ gateOk (lab.set node true) (getO pm n) = true) ∨
      (getO sm node = some n ∧ gateOk (lab.set node true) (getO pj n) = true))
    (hq2' : ∀ n ∈ rest, n ∈ q2) :
    RelInv inst pj pm q2 (rel.set node (some (max e1 e2)))
      (lab.set node true) (tr ++ [node]) := by
  obtain ⟨rel_len, lab_len, lab_tr, q_bound, q_gate, tr_preds, lab_val,
    unlab_val, rel_mem⟩ := hinv
  have hnode : node < inst.n_ops := q_bound node (List.mem_cons_self _ _)
  have hnode_rel : node < rel.length := rel_len ▸ hnode
  have hnode_lab : node < lab.length := lab_len ▸ hnode
  have hgate : ∀ p, predOf pj pm p node → lab.getD p false = true :=
    q_gate node (List.mem_cons_self _ _)
  have hlabpred : ∀ n, lab.getD n false = true →
      ∀ p, predOf pj pm p n → lab.getD p false = true := by
    intro n hn p hp
    obtain ⟨⟨k, hk⟩, hget⟩ := List.mem_iff_get.mp ((lab_tr n).mp hn)
    have hmem := tr_preds k hk p (by rw [hget]; exact hp)
    exact (lab_tr p).mpr (List.mem_of_mem_take hmem)
  have hlab_some : ∀ n, lab.getD n false = true →
      (getO rel n).isSome = true := by
    intro n hn; rw [lab_val n hn]; rfl
  have hstab : ∀ i, (getO rel i).isSome = true →
      getO (rel.set node (some (max e1 e2))) i = getO rel i := by
    intro i hi
    by_cases hin : i = node
    · subst hin
      by_cases hl : lab.getD i false = true
      · rw [getO_set_self hnode_rel, lab_val i hl]
        rw [(endOf_some he1).1, (endOf_some he2).1]
      · obtain ⟨v, hv⟩ := Option.isSome_iff_exists.mp hi
        obtain ⟨hpj0, hpm0, hv0⟩ :=
          unlab_val i (Bool.not_eq_true _ ▸ hl) v hv
        have he10 : e1 = 0 := by rw [(endOf_some he1).1, hpj0]; rfl
        have he20 : e2 = 0 := by rw [(endOf_some he2).1, hpm0]; rfl
        rw [getO_set_self hnode_rel, hv, hv0, he10, he20]
        rfl
    · rw [getO_set_ne (Ne.symm hin)]
  have hlabmono : ∀ i, lab.getD i false = true →
      (lab.set node true).getD i false = true := by
    intro i hi
    by_cases hin : i = node
    · subst hin; rw [getD_set_self _ hnode_lab]
    · rw [getD_set_ne _ (Ne.symm hin)]; exact hi
  have hlab'_node : (lab.set node true).getD node false = true :=
    getD_set_self _ hnode_lab _ _
  have hendR : ∀ x : Option Nat,
      (∀ p, x = some p → (getO rel p).isSome = true) →
      endR inst (rel.set node (some (max e1 e2))) x = endR inst rel x := by
    intro x hx
    cases x with
    | none => rfl
    | some p => simp only [endR]; rw [hstab p (hx p rfl)]
  refine ⟨by simp [rel_len], by simp [lab_len], ?_, ?_, ?_, ?_, ?_, ?_, ?_⟩
  · intro i
    by_cases hin : i = node
    · subst hin
      simp only [hlab'_node, true_iff]
      simp
    · rw [getD_set_ne _ (Ne.symm hin), lab_tr i]
      simp [List.mem_append, hin]
  · intro n hn
    rcases hq2 n hn with h1 | ⟨h1, _⟩ | ⟨h1, _⟩
    · exact q_bound n (List.mem_cons_of_mem _ h1)
    · exact hsjO.2 node n h1
    · exact hsmO.2 node n h1
  · intro n hn p hp
    rcases hq2 n hn with h1 | ⟨h1, hg⟩ | ⟨h1, hg⟩
    · exact hlabmono p (q_gate n (List.mem_cons_of_mem _ h1) p hp)
    · rcases hp with hp | hp
      · have : getO pj n = some node := (hJ node n).mp h1
        rw [this] at hp
        obtain rfl : node = p := by simpa using hp
        exact hlab'_node
      · rw [hp, gateOk] at hg
        exact hg
    · rcases hp with hp | hp
      · rw [hp, gateOk] at hg
        exact hg
      · have : getO pm n = some node := (hM node n).mp h1
        rw [this] at hp
        obtain rfl : node = p := by simpa using hp
        exact hlab'_node
  · intro k hk p hp
    by_cases hklt : k < tr.length
    · have hget : (tr ++ [node]).get ⟨k, hk⟩ = tr.get ⟨k, hklt⟩ := by
        simp [List.getElem_append_left, hklt]
      rw [hget] at hp
      have hmem := tr_preds k hklt p hp
      rw [List.take_append_of_le_length (Nat.le_of_lt hklt)]
      exact hmem
    · have hkeq : k = tr.length := by
        have := hk
        simp only [List.length_append, List.length_singleton] at this
        omega
      subst hkeq
      have hget : (tr ++ [node]).get ⟨tr.length, hk⟩ = node := by
        simp
      rw [hget] at hp
      have hlab := hgate p hp
      rw [List.take_append_of_le_length (Nat.le_refl _), List.take_length]
      exact (lab_tr p).mp hlab
  · intro n hn
    by_cases hin : n = node
    · subst hin
      rw [getO_set_self hnode_rel]
      have h1 : endR inst (rel.set n (some (max e1 e2))) (getO pj n) = e1 := by
        rw [hendR _ (endOf_some he1).2, (endOf_some he1).1]
      have h2 : endR inst (rel.set n (some (max e1 e2))) (getO pm n) = e2 := by
        rw [hendR _ (endOf_some he2).2, (endOf_some he2).1]
      rw [h1, h2]
    · rw [getD_set_ne _ (Ne.symm hin)] at hn
      rw [getO_set_ne (Ne.symm hin), lab_val n hn]
      have hpj' : endR inst (rel.set node (some (max e1 e2))) (getO pj n) =
          endR inst rel (getO pj n) := by
        refine hendR _ ?_
        intro p hp
        exact hlab_some p (hlabpred n hn p (Or.inl hp))
      have hpm' : endR inst (rel.set node (some (max e1 e2))) (getO pm n) =
          endR inst rel (getO pm n) := by
        refine hendR _ ?_
        intro p hp
        exact hlab_some p (hlabpred n hn p (Or.inr hp))
      rw [hpj', hpm']
  · intro n hn v hv
    by_cases hin : n = node
    · subst hin
      rw [hlab'_node] at hn
      exact absurd hn (by simp)
    · rw [getD_set_ne _ (Ne.symm hin)] at hn
      rw [getO_set_ne (Ne.symm hin)] at hv
      exact unlab_val n hn v hv
  · intro n hn
    by_cases hin : n = node
    · subst hin
      exact Or.inl (by simp)
    · rw [getO_set_ne (Ne.symm hin)] at hn
      rcases rel_mem n hn with h1 | h1
      · exact Or.inl (List.mem_append_left _ h1)
      · rcases List.mem_cons.mp h1 with rfl | h2
        · exact absurd rfl hin
        · exact Or.inr (hq2' n h2)

theorem release_loop_inv (inst : Instance) {pj sj pm sm : List (Option Nat)}
    (hsjO : ArrOk inst sj) (hsmO : ArrOk inst sm)
    (hJ : InversePair pj sj) (hM : InversePair pm sm) :
    ∀ (fuel : Nat) (q tr : List Nat) (rel : List (Option Nat))
      (lab : List Bool) (res : List (Option Nat) × List Bool × List Nat),
      release_loop inst pj sj pm sm fuel q rel lab tr = some res →
      RelInv inst pj pm q rel lab tr →
      RelInv inst pj pm [] res.1 res.2.1 res.2.2 := by
  intro fuel
  induction fuel with
  | zero =>
    intro q tr rel lab res h hinv
    cases q with
    | nil =>
      simp only [release_loop, Option.some.injEq] at h
      subst h
      exact hinv
    | cons n rest => simp [release_loop] at h
  | succ fuel ih =>
    intro q tr rel lab res h hinv
    cases q with
    | nil =>
      simp only [release_loop, Option.some.injEq] at h
      subst h
      exact hinv
    | cons node rest =>
      simp only [release_loop] at h
      split at h
      case h_2 => exact absurd h (by simp)
      case h_1 e1 e2 he1 he2 =>
        refine ih _ _ _ _ _ h ?_
        refine release_step_inv inst hsjO hsmO hJ hM hinv he1 he2 _ ?_ ?_
        · intro n hn
          split at hn
          case h_1 =>
            split at hn
            case h_1 => exact Or.inl hn
            case h_2 s hs =>
              split at hn
              case isTrue hg =>
                rcases List.mem_append.mp hn with h1 | h1
                · exact Or.inl h1
                · obtain rfl : n = s := by simpa using h1
                  exact Or.inr (Or.inl ⟨hs, hg⟩)
              case isFalse => exact Or.inl hn
          case h_2 s hs =>
            split at hn
            case isTrue hg =>
              rcases List.mem_append.mp hn with h1 | h1
              · -- h1 : n ∈ q1
                split at h1
                case h_1 => exact Or.inl h1
                case h_2 s' hs' =>
                  split at h1
                  case isTrue hg' =>
                    rcases List.mem_append.mp h1 with h2 | h2
                    · exact Or.inl h2
                    · obtain rfl : n = s' := by simpa using h2
                      exact Or.inr (Or.inl ⟨hs', hg'⟩)
                  case isFalse => exact Or.inl h1
              · obtain rfl : n = s := by simpa using h1
                exact Or.inr (Or.inr ⟨hs, hg⟩)
            case isFalse =>
              split at hn
              case h_1 => exact Or.inl hn
              case h_2 s' hs' =>
                split at hn
                case isTrue hg' =>
                  rcases List.mem_append.mp hn with h2 | h2
                  · exact Or.inl h2
                  · obtain rfl : n = s' := by simpa using h2
                    exact Or.inr (Or.inl ⟨hs', hg'⟩)
                case isFalse => exact Or.inl hn
        · intro n hn
          split
          · split
            · exact hn
            · split
              · exact List.mem_append_left _ hn
              · exact hn
          · split
            · split
              · exact List.mem_append_left _ hn
              · split
                · exact List.mem_append_left _ (List.mem_append_left _ hn)
                · exact List.mem_append_left _ hn
            · split
              · exact hn
              · split
                · exact List.mem_append_left _ hn
                · exact hn

theorem seed_fold_length (v : Nat) :
    ∀ (l : List Nat) (rel : List (Option Nat)),
      (l.foldl (fun r o => r.set o (some v)) rel).length = rel.length := by
  intro l
  induction l with
  | nil => intro rel; rfl
  | cons x xs ih =>
    intro rel
    rw [List.foldl_cons, ih]
    simp

theorem release_master {fuel : Nat} {inst : Instance}
    {pj sj pm sm : List (Option Nat)} {rel tr : List Nat}
    (hpjO : ArrOk inst pj) (hpmO : ArrOk inst pm)
    (hsjO : ArrOk inst sj) (hsmO : ArrOk inst sm)
    (hJ : InversePair pj sj) (hM : InversePair pm sm)
    (h : get_release_times_from_pre_succ_relations fuel inst pj sj pm sm =
      some (rel, tr)) :
    rel.length = inst.n_ops ∧
    (∀ n < inst.n_ops, n ∈ tr) ∧
    relFix inst pj pm rel ∧
    RankedBy pj pm fun n => tr.indexOf n := by
  simp only [get_release_times_from_pre_succ_relations] at h
  split at h
  case h_1 => exact absurd h (by simp)
  case h_2 relO labO trO hloop =>
    split at h
    case h_1 => exact absurd h (by simp)
    case h_2 rel' hunwrap =>
      obtain ⟨rfl, rfl⟩ : rel = rel' ∧ tr = trO := by
        have hs := h.symm
        simp only [Option.some.injEq, Prod.mk.injEq] at hs
        exact ⟨hs.1, hs.2⟩
      have hinv0 : RelInv inst pj pm
          ((List.range inst.n_ops).filter fun op =>
            (getO pj op).isNone && (getO pm op).isNone)
          (((List.range inst.n_ops).filter fun op =>
            (getO pj op).isNone && (getO pm op).isNone).foldl
            (fun rel op => rel.set op (some 0))
            (List.replicate inst.n_ops (none : Option Nat)))
          (List.replicate inst.n_ops false) [] := by
        have hrepl : ∀ i, getO (List.replicate inst.n_ops
            (none : Option Nat)) i = none := by
          intro i
          unfold getO
          rw [getD_replicate]
          split <;> rfl
        have hlabF : ∀ i, (List.replicate inst.n_ops false).getD i false =
            false := by
          intro i
          rw [getD_replicate]
          split <;> rfl
        refine ⟨?_, by simp, ?_, ?_, ?_, ?_, ?_, ?_, ?_⟩
        · rw [seed_fold_length]; simp
        · intro i; simp [hlabF i]
        · intro n hn
          exact List.mem_range.mp (List.mem_of_mem_filter hn)
        · intro n hn p hp
          have hmemf := List.of_mem_filter hn
          have h1 : getO pj n = none := Option.isNone_iff_eq_none.mp
            ((Bool.and_eq_true _ _).mp hmemf).1
          have h2 : getO pm n = none := Option.isNone_iff_eq_none.mp
            ((Bool.and_eq_true _ _).mp hmemf).2
          rcases hp with hp | hp
          · rw [h1] at hp; exact absurd hp (by simp)
          · rw [h2] at hp; exact absurd hp (by simp)
        · intro k hk; exact absurd hk (by simp)
        · intro n hn; exact absurd hn (by simp [hlabF n])
        · intro n _ v hv
          rw [seed_fold_getO] at hv
          split at hv
          case isTrue hc =>
            have hmemf := List.of_mem_filter hc.1
            have h1 : getO pj n = none := Option.isNone_iff_eq_none.mp
              ((Bool.and_eq_true _ _).mp hmemf).1
            have h2 : getO pm n = none := Option.isNone_iff_eq_none.mp
              ((Bool.and_eq_true _ _).mp hmemf).2
            obtain rfl : v = 0 := by simpa using hv.symm
            exact ⟨h1, h2, rfl⟩
          case isFalse => rw [hrepl] at hv; exact absurd hv (by simp)
        · intro n hn
          rw [seed_fold_getO] at hn
          split at hn
          case isTrue hc => exact Or.inr hc.1
          case isFalse => rw [hrepl] at hn; exact absurd hn (by simp)
      have hfi : RelInv inst pj pm [] relO labO tr :=
        release_loop_inv inst hsjO hsmO hJ hM _ _ _ _ _
          (relO, labO, tr) hloop hinv0
      obtain ⟨rel_len, lab_len, lab_tr, _, _, tr_preds, lab_val, _,
        rel_mem⟩ := hfi
      obtain ⟨hulen, huval⟩ := unwrap_all_spec relO rel hunwrap
      have hmemtr : ∀ n < inst.n_ops, n ∈ tr := by
        intro n hn
        have hs : (getO relO n).isSome = true := by
          rw [huval n (by omega)]; rfl
        rcases rel_mem n hs with h1 | h1
        · exact h1
        · exact absurd h1 (List.not_mem_nil n)
      have hlab : ∀ n < inst.n_ops, labO.getD n false = true := by
        intro n hn
        exact (lab_tr n).mpr (hmemtr n hn)
      have hval : ∀ n < inst.n_ops, getO relO n = some (rel.getD n 0) := by
        intro n hn
        exact huval n (by omega)
      refine ⟨by omega, hmemtr, ?_, ?_⟩
      · intro n hn
        have h1 := lab_val n (hlab n hn)
        rw [hval n hn] at h1
        have h2 : rel.getD n 0 =
            max (endR inst relO (getO pj n)) (endR inst relO (getO pm n)) := by
          simpa using h1
        rw [h2]
        have hconv : ∀ (arr : List (Option Nat)), ArrOk inst arr →
            endR inst relO (getO arr n) = endv inst rel (getO arr n) := by
          intro arr harr
          cases harr' : getO arr n with
          | none => rfl
          | some p =>
            have hp : p < inst.n_ops := harr.2 n p harr'
            simp only [endR, endv]
            rw [hval p hp]
            rfl
        rw [hconv pj hpjO, hconv pm hpmO]
      · intro p n hp
        have hn : n < inst.n_ops := by
          rcases hp with hp | hp
          · by_contra hc
            rw [getO_out (hpjO.1 ▸ Nat.le_of_not_lt hc)] at hp
            exact absurd hp (by simp)
          · by_contra hc
            rw [getO_out (hpmO.1 ▸ Nat.le_of_not_lt hc)] at hp
            exact absurd hp (by simp)
        have hpn : p < inst.n_ops := by
          rcases hp with hp | hp
          · exact hpjO.2 n p hp
          · exact hpmO.2 n p hp
        have hklt : tr.indexOf n < tr.length :=
          List.indexOf_lt_length.mpr (hmemtr n hn)
        have hget : tr.get ⟨tr.indexOf n, hklt⟩ = n := List.indexOf_get hklt
        have hmem := tr_preds (tr.indexOf n) hklt p (by rw [hget]; exact hp)
        exact mem_take_indexOf tr _ hmem

theorem tail_step_inv (inst : Instance) {pj sj pm sm : List (Option Nat)}
    (hpjO : ArrOk inst pj) (hpmO : ArrOk inst pm)
    (hJ : InversePair pj sj) (hM : InversePair pm sm)
    {node : Nat} {rest tr : List Nat} {tail : List Nat}
    {lab : List Bool}
    (hinv : TailInv inst sj sm (node :: rest) tail lab tr)
    (q2 : List Nat)
    (hq2 : ∀ n ∈ q2, n ∈ rest ∨
      (getO pj node = some n ∧ gateOk (lab.set node true) (getO sm n) = true) ∨
      (getO pm node = some n ∧ gateOk (lab.set node true) (getO sj n) = true))
    (hq2' : ∀ n ∈ rest, n ∈ q2)
    (hq2p : ∀ p, getO pj node = some p →
      gateOk (lab.set node true) (getO sm p) = true → p ∈ q2)
    (hq2q : ∀ p, getO pm node = some p →
      gateOk (lab.set node true) (getO sj p) = true → p ∈ q2) :
    TailInv inst sj sm q2
      (tail.set node
        (max (tailOf tail (getO sj node)) (tailOf tail (getO sm node)) +
          inst.dur node))
      (lab.set node true) (tr ++ [node]) := by
  obtain ⟨tail_len, lab_len, lab_tr, q_bound, q_gate, tr_succs, lab_val,
    comp⟩ := hinv
  have hnode : node < inst.n_ops := q_bound node (List.mem_cons_self _ _)
  have hnode_tail : node < tail.length := tail_len ▸ hnode
  have hnode_lab : node < lab.length := lab_len ▸ hnode
  have hgate : ∀ s, predOf sj sm s node → lab.getD s false = true :=
    q_gate node (List.mem_cons_self _ _)
  have hlabsucc : ∀ n, lab.getD n false = true →
      ∀ s, predOf sj sm s n → lab.getD s false = true := by
    intro n hn s hs
    obtain ⟨⟨k, hk⟩, hget⟩ := List.mem_iff_get.mp ((lab_tr n).mp hn)
    have hmem := tr_succs k hk s (by rw [hget]; exact hs)
    exact (lab_tr s).mpr (List.mem_of_mem_take hmem)
  have hlab_node_false_or : lab.getD node false = true ∨
      lab.getD node false = false := by
    cases lab.getD node false <;> simp
  have hstab : ∀ i, lab.getD i false = true →
      (tail.set node
        (max (tailOf tail (getO sj node)) (tailOf tail (getO sm node)) +
          inst.dur node)).getD i 0 = tail.getD i 0 := by
    intro i hi
    by_cases hin : i = node
    · subst hin
      rw [getD_set_self _ hnode_tail, lab_val i hi]
    · rw [getD_set_ne _ (Ne.symm hin)]
  have hlabmono : ∀ i, lab.getD i false = true →
      (lab.set node true).getD i false = true := by
    intro i hi
    by_cases hin : i = node
    · subst hin; rw [getD_set_self _ hnode_lab]
    · rw [getD_set_ne _ (Ne.symm hin)]; exact hi
  have hlab'_node : (lab.set node true).getD node false = true :=
    getD_set_self _ hnode_lab _ _
  have htailOf : ∀ x : Option Nat,
      (∀ s, x = some s → lab.getD s false = true) →
      tailOf (tail.set node
        (max (tailOf tail (getO sj node)) (tailOf tail (getO sm node)) +
          inst.dur node)) x = tailOf tail x := by
    intro x hx
    cases x with
    | none => rfl
    | some s => simp only [tailOf]; exact hstab s (hx s rfl)
  refine ⟨by simp [tail_len], by simp [lab_len], ?_, ?_, ?_, ?_, ?_, ?_⟩
  · intro i
    by_cases hin : i = node
    · subst hin
      simp only [hlab'_node, true_iff]
      simp
    · rw [getD_set_ne _ (Ne.symm hin), lab_tr i]
      simp [List.mem_append, hin]
  · intro n hn
    rcases hq2 n hn with h1 | ⟨h1, _⟩ | ⟨h1, _⟩
    · exact q_bound n (List.mem_cons_of_mem _ h1)
    · exact hpjO.2 node n h1
    · exact hpmO.2 node n h1
  · intro n hn s hs
    rcases hq2 n hn with h1 | ⟨h1, hg⟩ | ⟨h1, hg⟩
    · exact hlabmono s (q_gate n (List.mem_cons_of_mem _ h1) s hs)
    · rcases hs with hs | hs
      · have : getO sj n = some node := (hJ n node).mpr h1
        rw [this] at hs
        obtain rfl : node = s := by simpa using hs
        exact hlab'_node
      · rw [hs, gateOk] at hg
        exact hg
    · rcases hs with hs | hs
      · rw [hs, gateOk] at hg
        exact hg
      · have : getO sm n = some node := (hM n node).mpr h1
        rw [this] at hs
        obtain rfl : node = s := by simpa using hs
        exact hlab'_node
  · intro k hk s hs
    by_cases hklt : k < tr.length
    · have hget : (tr ++ [node]).get ⟨k, hk⟩ = tr.get ⟨k, hklt⟩ := by
        simp [List.getElem_append_left, hklt]
      rw [hget] at hs
      have hmem := tr_succs k hklt s hs
      rw [List.take_append_of_le_length (Nat.le_of_lt hklt)]
      exact hmem
    · have hkeq : k = tr.length := by
        have := hk
        simp only [List.length_append, List.length_singleton] at this
        omega
      subst hkeq
      have hget : (tr ++ [node]).get ⟨tr.length, hk⟩ = node := by
        simp
      rw [hget] at hs
      rw [List.take_append_of_le_length (Nat.le_refl _), List.take_length]
      exact (lab_tr s).mp (hgate s hs)
  · intro n hn
    by_cases hin : n = node
    · subst hin
      rw [getD_set_self _ hnode_tail]
      have h1 := htailOf (getO sj n) fun s hsx =>
        hgate s (Or.inl hsx)
      have h2 := htailOf (getO sm n) fun s hsx =>
        hgate s (Or.inr hsx)
      rw [h1, h2]
    · rw [getD_set_ne _ (Ne.symm hin)] at hn ⊢
      rw [lab_val n hn]
      have h1 := htailOf (getO sj n) fun s hsx =>
        hlabsucc n hn s (Or.inl hsx)
      have h2 := htailOf (getO sm n) fun s hsx =>
        hlabsucc n hn s (Or.inr hsx)
      rw [h1, h2]
  · intro n hn hsucc
    by_cases hin : n = node
    · subst hin
      exact Or.inl hlab'_node
    · by_cases hl : lab.getD n false = true
      · exact Or.inl (hlabmono n hl)
      · by_cases hold : ∀ s, predOf sj sm s n → lab.getD s false = true
        · rcases comp n hn hold with h1 | h1
          · exact Or.inl (hlabmono n h1)
          · rcases List.mem_cons.mp h1 with rfl | h2
            · exact absurd rfl hin
            · exact Or.inr (hq2' n h2)
        · push_neg at hold
          obtain ⟨s0, hs0, hs0lab⟩ := hold
          have hs0' : (lab.set node true).getD s0 false = true := hsucc s0 hs0
          have hs0node : s0 = node := by
            by_contra hc
            rw [getD_set_ne _ (Ne.symm hc)] at hs0'
            exact hs0lab hs0'
          subst hs0node
          rcases hs0 with hs | hs
          · have hpjn : getO pj s0 = some n := (hJ n s0).mp hs
            refine Or.inr (hq2p n hpjn ?_)
            cases hsmn : getO sm n with
            | none => rfl
            | some s1 =>
              have := hsucc s1 (Or.inr hsmn)
              rw [gateOk]
              exact this
          · have hpmn : getO pm s0 = some n := (hM n s0).mp hs
            refine Or.inr (hq2q n hpmn ?_)
            cases hsjn : getO sj n with
            | none => rfl
            | some s1 =>
              have := hsucc s1 (Or.inl hsjn)
              rw [gateOk]
              exact this

theorem tail_loop_inv (inst : Instance) {pj sj pm sm : List (Option Nat)}
    (hpjO : ArrOk inst pj) (hpmO : ArrOk inst pm)
    (hJ : InversePair pj sj) (hM : InversePair pm sm) :
    ∀ (fuel : Nat) (q tr : List Nat) (tail : List Nat)
      (lab : List Bool) (res : List Nat × List Bool × List Nat),
      tail_loop inst pj sj pm sm fuel q tail lab tr = some res →
      TailInv inst sj sm q tail lab tr →
      TailInv inst sj sm [] res.1 res.2.1 res.2.2 := by
  intro fuel
  induction fuel with
  | zero =>
    intro q tr tail lab res h hinv
    cases q with
    | nil =>
      simp only [tail_loop, Option.some.injEq] at h
      subst h
      exact hinv
    | cons n rest => simp [tail_loop] at h
  | succ fuel ih =>
    intro q tr tail lab res h hinv
    cases q with
    | nil =>
      simp only [tail_loop, Option.some.injEq] at h
      subst h
      exact hinv
    | cons node rest =>
      simp only [tail_loop] at h
      refine ih _ _ _ _ _ h ?_
      refine tail_step_inv inst hpjO hpmO hJ hM hinv _ ?_ ?_ ?_ ?_
      · intro n hn
        split at hn
        case h_1 =>
          split at hn
          case h_1 => exact Or.inl hn
          case h_2 s hs =>
            split at hn
            case isTrue hg =>
              rcases List.mem_append.mp hn with h1 | h1
              · exact Or.inl h1
              · obtain rfl : n = s := by simpa using h1
                exact Or.inr (Or.inl ⟨hs, hg⟩)
            case isFalse => exact Or.inl hn
        case h_2 s hs =>
          split at hn
          case isTrue hg =>
            rcases List.mem_append.mp hn with h1 | h1
            · split at h1
              case h_1 => exact Or.inl h1
              case h_2 s' hs' =>
                split at h1
                case isTrue hg' =>
                  rcases List.mem_append.mp h1 with h2 | h2
                  · exact Or.inl h2
                  · obtain rfl : n = s' := by simpa using h2
                    exact Or.inr (Or.inl ⟨hs', hg'⟩)
                case isFalse => exact Or.inl h1
            · obtain rfl : n = s := by simpa using h1
              exact Or.inr (Or.inr ⟨hs, hg⟩)
          case isFalse =>
            split at hn
            case h_1 => exact Or.inl hn
            case h_2 s' hs' =>
              split at hn
              case isTrue hg' =>
                rcases List.mem_append.mp hn with h2 | h2
                · exact Or.inl h2
                · obtain rfl : n = s' := by simpa using h2
                  exact Or.inr (Or.inl ⟨hs', hg'⟩)
              case isFalse => exact Or.inl hn
      · intro n hn
        split
        · split
          · exact hn
          · split
            · exact List.mem_append_left _ hn
            · exact hn
        · split
          · split
            · exact List.mem_append_left _ hn
            · split
              · exact List.mem_append_left _ (List.mem_append_left _ hn)
              · exact List.mem_append_left _ hn
          · split
            · exact hn
            · split
              · exact List.mem_append_left _ hn
              · exact hn
      · intro p hp hg
        split
        case h_1 =>
          split
          case h_1 hnone => rw [hp] at hnone; exact absurd hnone (by simp)
          case h_2 s hs =>
            rw [hp] at hs
            obtain rfl : p = s := by simpa using hs
            rw [if_pos hg]
            exact List.mem_append_right _ (by simp)
        case h_2 s hs =>
          split
          case isTrue =>
            refine List.mem_append_left _ ?_
            split
            case h_1 hnone => rw [hp] at hnone; exact absurd hnone (by simp)
            case h_2 s' hs' =>
              rw [hp] at hs'
              obtain rfl : p = s' := by simpa using hs'
              rw [if_pos hg]
              exact List.mem_append_right _ (by simp)
          case isFalse =>
            split
            case h_1 hnone => rw [hp] at hnone; exact absurd hnone (by simp)
            case h_2 s' hs' =>
              rw [hp] at hs'
              obtain rfl : p = s' := by simpa using hs'
              rw [if_pos hg]
              exact List.mem_append_right _ (by simp)
      · intro p hp hg
        split
        case h_1 hnone => rw [hp] at hnone; exact absurd hnone (by simp)
        case h_2 s hs =>
          rw [hp] at hs
          obtain rfl : p = s := by simpa using hs
          rw [if_pos hg]
          exact List.mem_append_right _ (by simp)

theorem tail_master {fuel : Nat} {inst : Instance}
    {pj sj pm sm : List (Option Nat)} {tail : List Nat} {labT : List Bool}
    {ttr : List Nat}
    (hpjO : ArrOk inst pj) (hpmO : ArrOk inst pm)
    (hsjO : ArrOk inst sj) (hsmO : ArrOk inst sm)
    (hJ : InversePair pj sj) (hM : InversePair pm sm)
    {rk : Nat → Nat} {B : Nat}
    (hrk : RankedBy pj pm rk) (hrkB : ∀ n < inst.n_ops, rk n < B)
    (h : get_tail_times_from_pre_succ_relations fuel inst pj sj pm sm =
      some (tail, labT, ttr)) :
    tail.length = inst.n_ops ∧
    (∀ n < inst.n_ops, n ∈ ttr) ∧
    tailFix inst sj sm tail ∧
    RankedBy sj sm fun n => ttr.indexOf n := by
  simp only [get_tail_times_from_pre_succ_relations] at h
  have hlabF : ∀ i, (List.replicate inst.n_ops false).getD i false =
      false := by
    intro i
    rw [getD_replicate]
    split <;> rfl
  have hinv0 : TailInv inst sj sm
      ((List.range inst.n_ops).filter fun op =>
        (getO sj op).isNone && (getO sm op).isNone)
      (List.replicate inst.n_ops 0)
      (List.replicate inst.n_ops false) [] := by
    refine ⟨by simp, by simp, ?_, ?_, ?_, ?_, ?_, ?_⟩
    · intro i; simp [hlabF i]
    · intro n hn
      exact List.mem_range.mp (List.mem_of_mem_filter hn)
    · intro n hn s hs
      have hmemf := List.of_mem_filter hn
      have h1 : getO sj n = none := Option.isNone_iff_eq_none.mp
        ((Bool.and_eq_true _ _).mp hmemf).1
      have h2 : getO sm n = none := Option.isNone_iff_eq_none.mp
        ((Bool.and_eq_true _ _).mp hmemf).2
      rcases hs with hs | hs
      · rw [h1] at hs; exact absurd hs (by simp)
      · rw [h2] at hs; exact absurd hs (by simp)
    · intro k hk; exact absurd hk (by simp)
    · intro n hn; exact absurd hn (by simp [hlabF n])
    · intro n hn hsucc
      cases hsj : getO sj n with
      | some s =>
        have := hsucc s (Or.inl hsj)
        rw [hlabF s] at this
        exact absurd this (by simp)
      | none =>
        cases hsm : getO sm n with
        | some s =>
          have := hsucc s (Or.inr hsm)
          rw [hlabF s] at this
          exact absurd this (by simp)
        | none =>
          refine Or.inr (List.mem_filter.mpr ⟨List.mem_range.mpr hn, ?_⟩)
          rw [hsj, hsm]
          rfl
  have hfi : TailInv inst sj sm [] tail labT ttr :=
    tail_loop_inv inst hpjO hpmO hJ hM _ _ _ _ _ (tail, labT, ttr) h hinv0
  obtain ⟨tail_len, lab_len, lab_tr, _, _, tr_succs, lab_val, comp⟩ := hfi
  have htot : ∀ n < inst.n_ops, labT.getD n false = true := by
    have main : ∀ d n, n < inst.n_ops → B - rk n ≤ d →
        labT.getD n false = true := by
      intro d
      induction d with
      | zero =>
        intro n hn hd
        have := hrkB n hn
        omega
      | succ d ihd =>
        intro n hn hd
        have hsucc : ∀ s, predOf sj sm s n → labT.getD s false = true := by
          intro s hs
          have hslt : s < inst.n_ops := by
            rcases hs with hs | hs
            · exact hsjO.2 n s hs
            · exact hsmO.2 n s hs
          have hrkns : rk n < rk s := by
            rcases hs with hs | hs
            · exact hrk n s (Or.inl ((hJ n s).mp hs))
            · exact hrk n s (Or.inr ((hM n s).mp hs))
          have := hrkB s hslt
          exact ihd s hslt (by omega)
        rcases comp n hn hsucc with h1 | h1
        · exact h1
        · exact absurd h1 (List.not_mem_nil _)
    intro n hn
    exact main (B - rk n) n hn (Nat.le_refl _)
  have hmemtr : ∀ n < inst.n_ops, n ∈ ttr := by
    intro n hn
    exact (lab_tr n).mp (htot n hn)
  refine ⟨tail_len, hmemtr, ?_, ?_⟩
  · intro n hn
    exact lab_val n (htot n hn)
  · intro s n hs
    have hn : n < inst.n_ops := by
      rcases hs with hs | hs
      · by_contra hc
        rw [getO_out (hsjO.1 ▸ Nat.le_of_not_lt hc)] at hs
        exact absurd hs (by simp)
      · by_contra hc
        rw [getO_out (hsmO.1 ▸ Nat.le_of_not_lt hc)] at hs
        exact absurd hs (by simp)
    have hklt : ttr.indexOf n < ttr.length :=
      List.indexOf_lt_length.mpr (hmemtr n hn)
    have hget : ttr.get ⟨ttr.indexOf n, hklt⟩ = n := List.indexOf_get hklt
    have hmem := tr_succs (ttr.indexOf n) hklt s (by rw [hget]; exact hs)
    exact mem_take_indexOf ttr _ hmem

theorem new_StateWF {fuel : Nat} {inst : Instance} {edges : List Edge}
    {s : IntermediateSolution}
    (h : IntermediateSolution.new fuel inst edges = some s) :
    StateWF s ∧ s.inst = inst ∧ s.oriented_conflict_edges = edges := by
  simp only [IntermediateSolution.new] at h
  split at h
  case h_1 => exact absurd h (by simp)
  case h_2 pre_job succ_job hJpair =>
    split at h
    case h_1 => exact absurd h (by simp)
    case h_2 pre_machine succ_machine hMpair =>
      split at h
      case h_1 => exact absurd h (by simp)
      case h_2 release_times rtr hrel =>
        split at h
        case h_1 => exact absurd h (by simp)
        case h_2 tail_times labT ttr htail =>
          split at h
          case h_1 => exact absurd h (by simp)
          case h_2 cmax hcmax =>
            obtain rfl : s = _ := by
              have hs := h.symm
              simp only [Option.some.injEq] at hs
              exact hs
            obtain ⟨hpjO, hsjO, hJ, _, _, _⟩ :=
              get_pre_succ_spec inst _ pre_job succ_job hJpair
            obtain ⟨hpmO, hsmO, hM, hrecM, _, hsuccMemM⟩ :=
              get_pre_succ_spec inst _ pre_machine succ_machine hMpair
            obtain ⟨hrel_len, hrtot, hrfix, hrrank⟩ :=
              release_master hpjO hpmO hsjO hsmO hJ hM hrel
            have hrkB : ∀ n < inst.n_ops, rtr.indexOf n < rtr.length := by
              intro n hn
              exact List.indexOf_lt_length.mpr (hrtot n hn)
            obtain ⟨htail_len, httot, htfix, htrank⟩ :=
              tail_master hpjO hpmO hsjO hsmO hJ hM hrrank hrkB htail
            refine ⟨⟨hpjO, hsjO, hpmO, hsmO, hJ, hM, hrel_len, htail_len,
              hrfix, htfix, ⟨_, _, hrrank, hrkB⟩, ⟨_, htrank⟩, ?_, rfl,
              hcmax⟩, rfl, rfl⟩
            intro v w
            constructor
            · intro hvw
              exact (hrecM v w hvw).2.1
            · intro hvw
              exact hsuccMemM v w hvw

theorem option_filter_some {x : Option Nat} {p : Nat → Bool} {y : Nat}
    (h : x.filter p = some y) : x = some y ∧ p y = true := by
  cases x with
  | none => simp [Option.filter] at h
  | some v =>
    simp only [Option.filter] at h
    by_cases hp : p v
    · rw [if_pos hp] at h
      obtain rfl : v = y := by simpa using h
      exact ⟨rfl, hp⟩
    · rw [if_neg hp] at h
      exact absurd h (by simp)

theorem insertArc_mem {e f : Edge} :
    ∀ {l : List Edge}, f ∈ insertArc e l → f = e ∨ f ∈ l := by
  intro l
  induction l with
  | nil =>
    intro h
    rw [insertArc] at h
    exact Or.inl (by simpa using h)
  | cons g gs ih =>
    intro h
    rw [insertArc] at h
    split at h
    · rcases List.mem_cons.mp h with rfl | h1
      · exact Or.inl rfl
      · exact Or.inr h1
    · split at h
      · exact Or.inr h
      · rcases List.mem_cons.mp h with rfl | h1
        · exact Or.inr (List.mem_cons_self _ _)
        · rcases ih h1 with h2 | h2
          · exact Or.inl h2
          · exact Or.inr (List.mem_cons_of_mem _ h2)

theorem n1_trace_loop_inv (s : IntermediateSolution) :
    ∀ (fuel : Nat) (q : List Nat) (arcs res : List Edge),
      n1_trace_loop s fuel q arcs = some res →
      (∀ n ∈ q, s.is_critical n = true) →
      (∀ e ∈ arcs, s.is_critical e.1 = true ∧ s.is_critical e.2 = true) →
      ∀ e ∈ res, s.is_critical e.1 = true ∧ s.is_critical e.2 = true := by
  intro fuel
  induction fuel with
  | zero =>
    intro q arcs res h hq harcs
    cases q with
    | nil =>
      simp only [n1_trace_loop, Option.some.injEq] at h
      subst h
      exact harcs
    | cons n rest => simp [n1_trace_loop] at h
  | succ fuel ih =>
    intro q arcs res h hq harcs
    cases q with
    | nil =>
      simp only [n1_trace_loop, Option.some.injEq] at h
      subst h
      exact harcs
    | cons current rest =>
      have hcur : s.is_critical current = true :=
        hq current (List.mem_cons_self _ _)
      have hrest : ∀ n ∈ rest, s.is_critical n = true := fun n hn =>
        hq n (List.mem_cons_of_mem _ hn)
      simp only [n1_trace_loop] at h
      split at h
      case h_1 o1 o2 hf1 hf2 =>
        obtain ⟨_, ho1⟩ := option_filter_some hf1
        obtain ⟨_, ho2⟩ := option_filter_some hf2
        split at h
        case h_1 =>
          refine ih _ _ _ h ?_ ?_
          · intro n hn
            rcases List.mem_append.mp hn with h1 | h1
            · exact hrest n h1
            · obtain rfl : n = o2 := by simpa using h1
              exact ho2
          · intro e he
            rcases insertArc_mem he with rfl | h1
            · exact ⟨ho2, hcur⟩
            · exact harcs e h1
        case h_2 =>
          refine ih _ _ _ h ?_ ?_
          · intro n hn
            rcases List.mem_append.mp hn with h1 | h1
            · exact hrest n h1
            · obtain rfl : n = o1 := by simpa using h1
              exact ho1
          · intro e he
            rcases insertArc_mem he with rfl | h1
            · exact ⟨ho1, hcur⟩
            · exact harcs e h1
        case h_3 =>
          refine ih _ _ _ h ?_ ?_
          · intro n hn
            rcases List.mem_append.mp hn with h1 | h1
            · exact hrest n h1
            · rcases List.mem_cons.mp h1 with rfl | h2
              · exact ho1
              · obtain rfl : n = o2 := by simpa using h2
                exact ho2
          · intro e he
            rcases insertArc_mem he with rfl | h1
            · exact ⟨ho2, hcur⟩
            · rcases insertArc_mem h1 with rfl | h2
              · exact ⟨ho1, hcur⟩
              · exact harcs e h2
      case h_2 o1 hf1 hne =>
        obtain ⟨_, ho1⟩ := option_filter_some hf1
        refine ih _ _ _ h ?_ ?_
        · intro n hn
          rcases List.mem_append.mp hn with h1 | h1
          · exact hrest n h1
          · obtain rfl : n = o1 := by simpa using h1
            exact ho1
        · intro e he
          rcases insertArc_mem he with rfl | h1
          · exact ⟨ho1, hcur⟩
          · exact harcs e h1
      case h_3 o2 hf1 hf2 =>
        obtain ⟨_, ho2⟩ := option_filter_some hf2
        refine ih _ _ _ h ?_ ?_
        · intro n hn
          rcases List.mem_append.mp hn with h1 | h1
          · exact hrest n h1
          · obtain rfl : n = o2 := by simpa using h1
            exact ho2
        · intro e he
          rcases insertArc_mem he with rfl | h1
          · exact ⟨ho2, hcur⟩
          · exact harcs e h1
      case h_4 =>
        refine ih _ _ _ (by simpa using h) hrest harcs

/-- Claim C8: every move produced by `n1::generate_moves` is an oriented
machine edge of the state — the pair is in `oriented_conflict_edges` and
both endpoints share a machine — both endpoints lie on a critical path
(`path_times` equals `cmax`), and the reported estimate is
`cmax_after_swap` of the pair. -/
theorem generate_moves_spec (fuel : Nat) (s : IntermediateSolution)
    (moves : List EvaluatedMove) (h : generate_moves fuel s = some moves) :
    ∀ mv ∈ moves,
      mv.swap_move ∈ s.oriented_conflict_edges ∧
      s.inst.mach mv.swap_move.1 = s.inst.mach mv.swap_move.2 ∧
      s.path mv.swap_move.1 = s.cmax ∧
      s.path mv.swap_move.2 = s.cmax ∧
      mv.cmax = s.cmax_after_swap mv.swap_move.1 mv.swap_move.2 := by
  simp only [generate_moves] at h
  split at h
  case h_1 => exact absurd h (by simp)
  case h_2 critical_arcs harcs =>
    obtain rfl : moves = _ := by
      have hs := h.symm
      simp only [Option.some.injEq] at hs
      exact hs
    intro mv hmv
    obtain ⟨e, he, rfl⟩ := List.mem_map.mp hmv
    have hef := List.mem_filter.mp he
    have hcrit := n1_trace_loop_inv s fuel _ [] critical_arcs harcs
      (fun n hn => by
        have h2 := (List.mem_filter.mp hn).2
        simp only [Bool.and_eq_true] at h2
        exact h2.1.1)
      (fun e he => absurd he (List.not_mem_nil _)) e hef.1
    obtain ⟨hm, hcontains⟩ := (Bool.and_eq_true _ _).mp hef.2
    refine ⟨?_, by simpa using hm, ?_, ?_, rfl⟩
    · exact List.mem_of_elem_eq_true hcontains
    · have := hcrit.1
      simpa [IntermediateSolution.is_critical] using this
    · have := hcrit.2
      simpa [IntermediateSolution.is_critical] using this

/-- Concrete instantiation of `generate_moves_spec` on the one-machine
two-job unit instance: its single move `((0,1), 2)` satisfies all the
stated properties. -/
theorem generate_moves_spec_witness :
    ∃ (s : IntermediateSolution) (moves : List EvaluatedMove),
      IntermediateSolution.new 16 ⟨2, 1, [1, 1], [0, 0]⟩ [(0, 1)] = some s ∧
      generate_moves 16 s = some moves ∧ moves ≠ [] ∧
      ∀ mv ∈ moves,
        mv.swap_move ∈ s.oriented_conflict_edges ∧
        s.inst.mach mv.swap_move.1 = s.inst.mach mv.swap_move.2 ∧
        s.path mv.swap_move.1 = s.cmax ∧
        s.path mv.swap_move.2 = s.cmax ∧
        mv.cmax = s.cmax_after_swap mv.swap_move.1 mv.swap_move.2 := by
  refine ⟨_, _, rfl, rfl, ?_, ?_⟩
  · decide
  · intro mv hmv
    refine generate_moves_spec 16 _ _ ?_ mv hmv
    rfl

theorem relFix_unique {inst : Instance} {pj pm : List (Option Nat)}
    {rel : List Nat} {rk : Nat → Nat} {S : List Nat}
    (hpjO : ArrOk inst pj) (hpmO : ArrOk inst pm)
    (hfix : relFix inst pj pm rel) (hrk : RankedBy pj pm rk)
    (hS : ∀ n < inst.n_ops, S.getD n 0 =
      max (endv inst S (getO pj n)) (endv inst S (getO pm n))) :
    ∀ n < inst.n_ops, rel.getD n 0 = S.getD n 0 := by
  have main : ∀ k n, rk n = k → n < inst.n_ops →
      rel.getD n 0 = S.getD n 0 := by
    intro k
    induction k using Nat.strong_induction_on with
    | _ k ihk =>
      intro n hrkn hn
      rw [hfix n hn, hS n hn]
      have hcong : ∀ (arr : List (Option Nat)), ArrOk inst arr →
          (getO arr n = none ∨ ∃ p, getO arr n = some p ∧ predOf pj pm p n) →
          endv inst rel (getO arr n) = endv inst S (getO arr n) := by
        intro arr harr hmem
        rcases hmem with hnone | ⟨p, hp, hpred⟩
        · rw [hnone]; rfl
        · rw [hp]
          simp only [endv]
          rw [ihk (rk p) (hrkn ▸ hrk p n hpred) p rfl (harr.2 n p hp)]
      rw [hcong pj hpjO ?_, hcong pm hpmO ?_]
      · cases hp : getO pm n with
        | none => exact Or.inl rfl
        | some p => exact Or.inr ⟨p, rfl, Or.inr hp⟩
      · cases hp : getO pj n with
        | none => exact Or.inl rfl
        | some p => exact Or.inr ⟨p, rfl, Or.inl hp⟩
  intro n hn
  exact main (rk n) n rfl hn

/-- Claim C6, as stated, is false: the schedule `[100]` on the one-job
one-machine instance with duration `5` is feasible (spec verifier
predicates hold), yet the state constructed from its induced orientation
has `release_times = [0] ≠ [100]` — the head computation reproduces the
earliest (semi-active) start times, not arbitrary feasible ones. -/
theorem round_trip_false :
    spec_verifier_ok ⟨1, 1, [5], [0]⟩ ⟨[100]⟩ ∧
    get_orientation_from_schedule ⟨1, 1, [5], [0]⟩ ⟨[100]⟩ = some [] ∧
    ∃ s, IntermediateSolution.new 16 ⟨1, 1, [5], [0]⟩ [] = some s ∧
      s.release_times ≠ ([100] : List Nat) := by
  refine ⟨by decide, by decide, _, rfl, by decide⟩

/-- Claim C6 (amended): for every schedule `S` that is semi-active with
respect to its induced orientation — every start time equals the
maximum of the job-predecessor's and machine-predecessor's end times,
an absent predecessor contributing `0` — the state constructed from
`get_orientation_from_schedule (S)` has `release_times` equal to
`S.start_times`. -/
theorem round_trip_semi_active {fuel : Nat} {inst : Instance} {S : Solution}
    {edges : List Edge} {s : IntermediateSolution}
    (_hor : get_orientation_from_schedule inst S = some edges)
    (hnew : IntermediateSolution.new fuel inst edges = some s)
    (hlen : S.start_times.length = inst.n_ops)
    (hsa : ∀ n < inst.n_ops, S.start_times.getD n 0 =
      max (endv inst S.start_times (getO s.pre_job n))
          (endv inst S.start_times (getO s.pre_machine n))) :
    s.release_times = S.start_times := by
  obtain ⟨wf, hinst, hedges⟩ := new_StateWF hnew
  obtain ⟨rk, B, hrk, _⟩ := wf.hrank
  have hmain := relFix_unique wf.hpjO wf.hpmO wf.hfix hrk
    (by rw [hinst]; exact hsa)
  refine List.ext_getElem ?_ ?_
  · rw [wf.rel_len, hinst, hlen]
  · intro i h1 h2
    have hi : i < inst.n_ops := by
      rw [hlen] at h2
      exact h2
    have := hmain i (by rw [hinst]; exact hi)
    rw [List.getD_eq_getElem _ _ h1, List.getD_eq_getElem _ _ h2] at this
    exact this

/-- Concrete instantiation of `round_trip_semi_active`: the semi-active
schedule `[0, 1]` on the one-machine two-job unit instance is reproduced
exactly by the constructed state's release times. -/
theorem round_trip_semi_active_witness :
    get_orientation_from_schedule ⟨2, 1, [1, 1], [0, 0]⟩ ⟨[0, 1]⟩ =
      some [(0, 1)] ∧
    IntermediateSolution.new 16 ⟨2, 1, [1, 1], [0, 0]⟩ [(0, 1)] =
      some ⟨⟨2, 1, [1, 1], [0, 0]⟩, [(0, 1)], [], [none, none], [none, none],
        [none, some 0], [some 1, none], [0, 1], [2, 1], [2, 2], 2⟩ ∧
    (⟨⟨2, 1, [1, 1], [0, 0]⟩, [(0, 1)], [], [none, none], [none, none],
        [none, some 0], [some 1, none], [0, 1], [2, 1], [2, 2],
        2⟩ : IntermediateSolution).release_times =
      (⟨[0, 1]⟩ : Solution).start_times := by
  refine ⟨by decide, by decide, ?_⟩
  exact @round_trip_semi_active 16 ⟨2, 1, [1, 1], [0, 0]⟩ ⟨[0, 1]⟩ [(0, 1)]
    ⟨⟨2, 1, [1, 1], [0, 0]⟩, [(0, 1)], [], [none, none], [none, none],
      [none, some 0], [some 1, none], [0, 1], [2, 1], [2, 2], 2⟩
    (by decide) (by decide) (by decide) (by decide)

/-- Claim C5, as stated, is false: on the single-machine chain
`0 → 1 → 2`, `apply_swap 0 1` gives node `0` the machine-predecessor
`1`, not `1`'s old machine-successor `2` — the specification swapped the
roles of predecessor and successor. -/
theorem apply_swap_relink_false :
    ∃ s s', IntermediateSolution.new 16 ⟨3, 1, [1, 1, 1], [0, 0, 0]⟩
        [(0, 1), (1, 2)] = some s ∧
      IntermediateSolution.apply_swap 16 s 0 1 = some s' ∧
      (0, 1) ∈ s.oriented_conflict_edges ∧
      getO s.succ_machine 1 = some 2 ∧
      getO s'.pre_machine 0 = some 1 ∧
      ¬ getO s'.pre_machine 0 = getO s.succ_machine 1 := by
  refine ⟨_, _, rfl, rfl, ?_, ?_, ?_, ?_⟩ <;> decide

/-- Claim C5 (amended): for a constructed state and an oriented conflict
edge `(a, b)`, `apply_swap(a, b)` reverses the edge to `(b, a)`, makes
`b` the new machine-predecessor of `a` and `a` the new
machine-successor of `b`, sets `a`'s new machine-successor to `b`'s old
machine-successor and `b`'s new machine-predecessor to `a`'s old
machine-predecessor, and relinks the surrounding machine chain: `a`'s
old machine-predecessor now points to `b`, `b`'s old machine-successor
now points back to `a`, and every other operation's machine links are
unchanged. -/
theorem apply_swap_relink {fuel fuel2 : Nat} {inst : Instance}
    {edges : List Edge} {s s' : IntermediateSolution} {a b : Nat}
    (hnew : IntermediateSolution.new fuel inst edges = some s)
    (hab : (a, b) ∈ s.oriented_conflict_edges)
    (hswap : IntermediateSolution.apply_swap fuel2 s a b = some s') :
    getO s'.pre_machine a = some b ∧
    getO s'.succ_machine a = getO s.succ_machine b ∧
    getO s'.pre_machine b = getO s.pre_machine a ∧
    getO s'.succ_machine b = some a ∧
    (b, a) ∈ s'.oriented_conflict_edges ∧
    (∀ p, getO s.pre_machine a = some p → getO s'.succ_machine p = some b) ∧
    (∀ x, getO s.succ_machine b = some x → getO s'.pre_machine x = some a) ∧
    (∀ c, c ≠ a → c ≠ b → getO s.succ_machine b ≠ some c →
      getO s'.pre_machine c = getO s.pre_machine c) ∧
    (∀ c, c ≠ a → c ≠ b → getO s.pre_machine a ≠ some c →
      getO s'.succ_machine c = getO s.succ_machine c) := by
  obtain ⟨wf, hinst, hedges⟩ := new_StateWF hnew
  obtain ⟨rk, B, hrk, _⟩ := wf.hrank
  have hsm_ab : getO s.succ_machine a = some b := (wf.edge_iff a b).mp hab
  have hpm_ba : getO s.pre_machine b = some a := (wf.hM a b).mp hsm_ab
  have hrk_ab : rk a < rk b := hrk a b (Or.inr hpm_ba)
  have hne_ab : a ≠ b := fun hc => by rw [hc] at hrk_ab; omega
  have hb_lt : b < s.inst.n_ops := wf.hsmO.2 a b hsm_ab
  have ha_lt : a < s.inst.n_ops := by
    by_contra hc
    rw [getO_out (wf.hsmO.1 ▸ Nat.le_of_not_lt hc)] at hsm_ab
    exact absurd hsm_ab (by simp)
  have hpm_len : s.pre_machine.length = s.inst.n_ops := wf.hpmO.1
  have hsm_len : s.succ_machine.length = s.inst.n_ops := wf.hsmO.1
  have hpma_ne : ∀ p, getO s.pre_machine a = some p → p ≠ a ∧ p ≠ b := by
    intro p hp
    have h1 : rk p < rk a := hrk p a (Or.inr hp)
    constructor
    · intro hc; rw [hc] at h1; omega
    · intro hc; rw [hc] at h1; omega
  have hsmb_ne : ∀ x, getO s.succ_machine b = some x → x ≠ a ∧ x ≠ b := by
    intro x hx
    have h1 : rk b < rk x := hrk b x (Or.inr ((wf.hM b x).mp hx))
    constructor
    · intro hc; rw [hc] at h1; omega
    · intro hc; rw [hc] at h1; omega
  simp only [IntermediateSolution.apply_swap] at hswap
  split at hswap
  case h_1 => exact absurd hswap (by simp)
  case h_2 release_times rtr hrel =>
    split at hswap
    case h_1 => exact absurd hswap (by simp)
    case h_2 tail_times labT ttr htail =>
      split at hswap
      case h_1 => exact absurd hswap (by simp)
      case h_2 cmax hcmax =>
        obtain rfl : s' = _ := by
          have hs := hswap.symm
          simp only [Option.some.injEq] at hs
          exact hs
        have hlen1 : ∀ q : Option Nat,
            (match getO s.succ_machine b with
              | some succ_machine_b => s.pre_machine.set succ_machine_b
                  (some a)
              | none => s.pre_machine).length = s.pre_machine.length := by
          intro _
          split <;> simp
        refine ⟨?_, ?_, ?_, ?_, ?_, ?_, ?_, ?_, ?_⟩
        · show getO (((match getO s.succ_machine b with
            | some succ_machine_b => s.pre_machine.set succ_machine_b (some a)
            | none => s.pre_machine).set a (some b)).set b
              (getO s.pre_machine a)) a = some b
          rw [getO_set_ne hne_ab.symm]
          refine getO_set_self ?_ _
          split
          case h_1 x hx =>
            simpa using hpm_len ▸ ha_lt
          case h_2 =>
            exact hpm_len ▸ ha_lt
        · show getO (((match getO s.pre_machine a with
            | some pre_machine_a => s.succ_machine.set pre_machine_a (some b)
            | none => s.succ_machine).set a (getO s.succ_machine b)).set b
              (some a)) a = getO s.succ_machine b
          rw [getO_set_ne hne_ab.symm]
          refine getO_set_self ?_ _
          split
          case h_1 x hx =>
            simpa using hsm_len ▸ ha_lt
          case h_2 =>
            exact hsm_len ▸ ha_lt
        · show getO (((match getO s.succ_machine b with
            | some succ_machine_b => s.pre_machine.set succ_machine_b (some a)
            | none => s.pre_machine).set a (some b)).set b
              (getO s.pre_machine a)) b = getO s.pre_machine a
          refine getO_set_self ?_ _
          have : b < s.pre_machine.length := hpm_len ▸ hb_lt
          split
          case h_1 x hx => simpa using this
          case h_2 => simpa using this
        · show getO (((match getO s.pre_machine a with
            | some pre_machine_a => s.succ_machine.set pre_machine_a (some b)
            | none => s.succ_machine).set a (getO s.succ_machine b)).set b
              (some a)) b = some a
          refine getO_set_self ?_ _
          have : b < s.succ_machine.length := hsm_len ▸ hb_lt
          split
          case h_1 x hx => simpa using this
          case h_2 => simpa using this
        · refine List.mem_map.mpr ⟨(a, b), hab, ?_⟩
          rw [if_pos ⟨rfl, rfl⟩]
        · intro p hp
          obtain ⟨hpa, hpb⟩ := hpma_ne p hp
          show getO (((match getO s.pre_machine a with
            | some pre_machine_a => s.succ_machine.set pre_machine_a (some b)
            | none => s.succ_machine).set a (getO s.succ_machine b)).set b
              (some a)) p = some b
          rw [getO_set_ne (Ne.symm hpb), getO_set_ne (Ne.symm hpa)]
          rw [hp]
          refine getO_set_self ?_ _
          have hplt : p < s.inst.n_ops := wf.hpmO.2 a p hp
          exact hsm_len ▸ hplt
        · intro x hx
          obtain ⟨hxa, hxb⟩ := hsmb_ne x hx
          show getO (((match getO s.succ_machine b with
            | some succ_machine_b => s.pre_machine.set succ_machine_b (some a)
            | none => s.pre_machine).set a (some b)).set b
              (getO s.pre_machine a)) x = some a
          rw [getO_set_ne (Ne.symm hxb), getO_set_ne (Ne.symm hxa)]
          rw [hx]
          refine getO_set_self ?_ _
          have hxlt : x < s.inst.n_ops := wf.hsmO.2 b x hx
          exact hpm_len ▸ hxlt
        · intro c hca hcb hcx
          show getO (((match getO s.succ_machine b with
            | some succ_machine_b => s.pre_machine.set succ_machine_b (some a)
            | none => s.pre_machine).set a (some b)).set b
              (getO s.pre_machine a)) c = getO s.pre_machine c
          rw [getO_set_ne (Ne.symm hcb), getO_set_ne (Ne.symm hca)]
          split
          case h_1 x hx =>
            have : x ≠ c := fun hc => hcx (hc ▸ hx)
            rw [getO_set_ne this]
          case h_2 => rfl
        · intro c hca hcb hcp
          show getO (((match getO s.pre_machine a with
            | some pre_machine_a => s.succ_machine.set pre_machine_a (some b)
            | none => s.succ_machine).set a (getO s.succ_machine b)).set b
              (some a)) c = getO s.succ_machine c
          rw [getO_set_ne (Ne.symm hcb), getO_set_ne (Ne.symm hca)]
          split
          case h_1 p hp =>
            have : p ≠ c := fun hc => hcp (hc ▸ hp)
            rw [getO_set_ne this]
          case h_2 => rfl

/-- Concrete instantiation of `apply_swap_relink`: swapping the edge
`(1, 2)` of the chain `0 → 1 → 2` makes `2` the machine-predecessor of
`1` and `1` the machine-successor of `2`. -/
theorem apply_swap_relink_witness :
    IntermediateSolution.new 16 ⟨3, 1, [1, 1, 1], [0, 0, 0]⟩
        [(0, 1), (1, 2)] =
      some ⟨⟨3, 1, [1, 1, 1], [0, 0, 0]⟩, [(0, 1), (1, 2)], [],
        [none, none, none], [none, none, none], [none, some 0, some 1],
        [some 1, some 2, none], [0, 1, 2], [3, 2, 1], [3, 3, 3], 3⟩ ∧
    (1, 2) ∈ ([(0, 1), (1, 2)] : List Edge) ∧
    IntermediateSolution.apply_swap 16
        ⟨⟨3, 1, [1, 1, 1], [0, 0, 0]⟩, [(0, 1), (1, 2)], [],
          [none, none, none], [none, none, none], [none, some 0, some 1],
          [some 1, some 2, none], [0, 1, 2], [3, 2, 1], [3, 3, 3], 3⟩ 1 2 =
      some ⟨⟨3, 1, [1, 1, 1], [0, 0, 0]⟩, [(0, 2), (2, 1)], [],
        [none, none, none], [none, none, none], [none, some 2, some 0],
        [some 2, none, some 1], [0, 2, 1], [3, 1, 2], [3, 3, 3], 3⟩ ∧
    getO [none, some 2, some 0] 1 = some 2 ∧
    getO [some 2, none, some 1] 2 = some 1 := by
  refine ⟨by decide, by decide, by decide, ?_, ?_⟩
  · exact (@apply_swap_relink 16 16 ⟨3, 1, [1, 1, 1], [0, 0, 0]⟩
      [(0, 1), (1, 2)]
      ⟨⟨3, 1, [1, 1, 1], [0, 0, 0]⟩, [(0, 1), (1, 2)], [],
        [none, none, none], [none, none, none], [none, some 0, some 1],
        [some 1, some 2, none], [0, 1, 2], [3, 2, 1], [3, 3, 3], 3⟩
      ⟨⟨3, 1, [1, 1, 1], [0, 0, 0]⟩, [(0, 2), (2, 1)], [],
        [none, none, none], [none, none, none], [none, some 2, some 0],
        [some 2, none, some 1], [0, 2, 1], [3, 1, 2], [3, 3, 3], 3⟩
      1 2 (by decide) (by decide) (by decide)).1
  · exact (@apply_swap_relink 16 16 ⟨3, 1, [1, 1, 1], [0, 0, 0]⟩
      [(0, 1), (1, 2)]
      ⟨⟨3, 1, [1, 1, 1], [0, 0, 0]⟩, [(0, 1), (1, 2)], [],
        [none, none, none], [none, none, none], [none, some 0, some 1],
        [some 1, some 2, none], [0, 1, 2], [3, 2, 1], [3, 3, 3], 3⟩
      ⟨⟨3, 1, [1, 1, 1], [0, 0, 0]⟩, [(0, 2), (2, 1)], [],
        [none, none, none], [none, none, none], [none, some 2, some 0],
        [some 2, none, some 1], [0, 2, 1], [3, 1, 2], [3, 3, 3], 3⟩
      1 2 (by decide) (by decide) (by decide)).2.2.2.1

theorem fold_choice {α : Type} (f : Option α → α → Option α)
    (hf : ∀ q x, f (some q) x = some q ∨ f (some q) x = some x) :
    ∀ (l : List α) (q : α),
      ∃ x, l.foldl f (some q) = some x ∧ (x = q ∨ x ∈ l) := by
  intro l
  induction l with
  | nil => exact fun q => ⟨q, rfl, Or.inl rfl⟩
  | cons p rest ih =>
    intro q
    rw [List.foldl_cons]
    rcases hf q p with h | h
    · obtain ⟨x, hx, hor⟩ := ih q
      refine ⟨x, by rw [h]; exact hx, ?_⟩
      rcases hor with rfl | hm
      · exact Or.inl rfl
      · exact Or.inr (List.mem_cons_of_mem _ hm)
    · obtain ⟨x, hx, hor⟩ := ih p
      refine ⟨x, by rw [h]; exact hx, ?_⟩
      rcases hor with rfl | hm
      · exact Or.inr (List.mem_cons_self _ _)
      · exact Or.inr (List.mem_cons_of_mem _ hm)

theorem foldl_pick {α : Type} (cond : α → α → Bool) :
    ∀ (l : List α) (q : α),
      l.foldl (fun best p => if cond p best then p else best) q = q ∨
      l.foldl (fun best p => if cond p best then p else best) q ∈ l := by
  intro l
  induction l with
  | nil => exact fun _ => Or.inl rfl
  | cons p rest ih =>
    intro q
    rw [List.foldl_cons]
    by_cases h : cond p q
    · rw [if_pos h]
      rcases ih p with h1 | h1
      · rw [h1]
        exact Or.inr (List.mem_cons_self _ _)
      · exact Or.inr (List.mem_cons_of_mem _ h1)
    · rw [if_neg h]
      rcases ih q with h1 | h1
      · exact Or.inl h1
      · exact Or.inr (List.mem_cons_of_mem _ h1)

theorem mem_enum_fst_lt {l : List Nat} {x : Nat × Nat} (h : x ∈ l.enum) :
    x.1 < l.length := by
  have := List.mem_enum_iff_getElem?.mp h
  exact (List.getElem?_eq_some.mp this).1

theorem min_idx_by_lt (key : Nat → List Nat) (l : List Nat) (h : l ≠ []) :
    ∃ i, min_idx_by key l = some i ∧ i < l.length := by
  cases l with
  | nil => exact absurd rfl h
  | cons a as =>
    unfold min_idx_by
    rw [List.enum_cons', List.foldl_cons]
    obtain ⟨x, hx, hor⟩ := fold_choice
      (fun acc p => match acc with
        | none => some p
        | some q => if lexLt (key p.2) (key q.2) then some p else some q)
      (by
        intro q x
        by_cases hc : lexLt (key x.2) (key q.2)
        · exact Or.inr (by simp [hc])
        · exact Or.inl (by simp [hc]))
      (as.enum.map (Prod.map (· + 1) id)) (0, a)
    refine ⟨x.1, ?_, ?_⟩
    · show ((as.enum.map (Prod.map (· + 1) id)).foldl _ (some (0, a))).map
        (·.1) = some x.1
      rw [hx]
      rfl
    · rcases hor with rfl | hm
      · simp
      · obtain ⟨y, hy, rfl⟩ := List.mem_map.mp hm
        have := mem_enum_fst_lt hy
        simp only [Prod.map, List.length_cons]
        omega

theorem max_idx_by_lt (key : Nat → List Nat) (l : List Nat) (h : l ≠ []) :
    ∃ i, max_idx_by key l = some i ∧ i < l.length := by
  cases l with
  | nil => exact absurd rfl h
  | cons a as =>
    unfold max_idx_by
    rw [List.enum_cons', List.foldl_cons]
    obtain ⟨x, hx, hor⟩ := fold_choice
      (fun acc p => match acc with
        | none => some p
        | some q => if lexLt (key p.2) (key q.2) then some q else some p)
      (by
        intro q x
        by_cases hc : lexLt (key x.2) (key q.2)
        · exact Or.inl (by simp [hc])
        · exact Or.inr (by simp [hc]))
      (as.enum.map (Prod.map (· + 1) id)) (0, a)
    refine ⟨x.1, ?_, ?_⟩
    · show ((as.enum.map (Prod.map (· + 1) id)).foldl _ (some (0, a))).map
        (·.1) = some x.1
      rw [hx]
      rfl
    · rcases hor with rfl | hm
      · simp
      · obtain ⟨y, hy, rfl⟩ := List.mem_map.mp hm
        have := mem_enum_fst_lt hy
        simp only [Prod.map, List.length_cons]
        omega

theorem priority_rule_choice (inst : Instance) (k : Nat) (l : List Nat)
    (h : l ≠ []) :
    ∃ i, priority_rule inst k l = some i ∧ i < l.length := by
  match k with
  | 0 => exact min_idx_by_lt (fun op_id =>
      [(inst.op_from_id op_id).2, (inst.op_from_id op_id).1]) l h
  | 1 => exact max_idx_by_lt (fun op_id =>
      [(inst.op_from_id op_id).2, (inst.op_from_id op_id).1]) l h
  | 2 => exact min_idx_by_lt (fun op_id =>
      [inst.dur op_id, (inst.op_from_id op_id).1,
        (inst.op_from_id op_id).2]) l h
  | 3 => exact max_idx_by_lt (fun op_id =>
      [inst.dur op_id, (inst.op_from_id op_id).1,
        (inst.op_from_id op_id).2]) l h
  | 4 => exact min_idx_by_lt (fun op_id =>
      [get_work_remaining inst (inst.op_from_id op_id).1
        (inst.op_from_id op_id).2,
       (inst.op_from_id op_id).1, (inst.op_from_id op_id).2]) l h
  | Nat.succ (Nat.succ (Nat.succ (Nat.succ (Nat.succ _)))) =>
    exact max_idx_by_lt (fun op_id =>
      [get_work_remaining inst (inst.op_from_id op_id).1
        (inst.op_from_id op_id).2,
       (inst.op_from_id op_id).1, (inst.op_from_id op_id).2]) l h

theorem op_id_fst {M j o : Nat} (hM : 0 < M) (ho : o < M) :
    (j * M + o) / M = j ∧ (j * M + o) % M = o := by
  constructor
  · rw [Nat.mul_comm, Nat.mul_add_div hM, Nat.div_eq_of_lt ho]
    omega
  · rw [Nat.mul_comm, Nat.mul_add_mod, Nat.mod_eq_of_lt ho]


theorem op_from_id_to_id (inst : Instance) (hM : 0 < inst.n_machines)
    {j o : Nat} (ho : o < inst.n_machines) :
    inst.op_from_id (inst.op_to_id j o) = (j, o) := by
  have h := @op_id_fst inst.n_machines j o hM ho
  simp only [Instance.op_from_id, Instance.op_to_id, h.1, h.2]

theorem op_to_id_inj (inst : Instance) {j1 o1 j2 o2 : Nat}
    (h1 : o1 < inst.n_machines) (h2 : o2 < inst.n_machines)
    (h : inst.op_to_id j1 o1 = inst.op_to_id j2 o2) : j1 = j2 ∧ o1 = o2 := by
  have hM : 0 < inst.n_machines := Nat.lt_of_le_of_lt (Nat.zero_le o1) h1
  have e1 := @op_id_fst inst.n_machines j1 o1 hM h1
  have e2 := @op_id_fst inst.n_machines j2 o2 hM h2
  unfold Instance.op_to_id at h
  constructor
  · rw [← e1.1, ← e2.1, h]
  · rw [← e1.2, ← e2.2, h]

theorem op_lt_decompose (inst : Instance) (hM : 0 < inst.n_machines)
    (x : Nat) :
    x < inst.n_ops ↔ ∃ j, j < inst.n_jobs ∧ ∃ o, o < inst.n_machines ∧
      x = inst.op_to_id j o := by
  unfold Instance.n_ops Instance.op_to_id
  constructor
  · intro h
    exact ⟨x / inst.n_machines, (Nat.div_lt_iff_lt_mul hM).mpr h,
      x % inst.n_machines, Nat.mod_lt _ hM,
      (Nat.div_add_mod' x inst.n_machines).symm⟩
  · rintro ⟨j, hj, o, ho, rfl⟩
    calc j * inst.n_machines + o
        < j * inst.n_machines + inst.n_machines := Nat.add_lt_add_left ho _
      _ = (j + 1) * inst.n_machines := by ring
      _ ≤ inst.n_jobs * inst.n_machines := Nat.mul_le_mul_right _ hj

theorem priority_earliest_pick (inst : Instance) (jnr mnr : List Nat)
    (r0 : Nat) (rrest : List Nat) :
    priority_earliest inst jnr mnr r0 rrest =
      (r0, priority_completion inst jnr mnr r0) ∨
    priority_earliest inst jnr mnr r0 rrest ∈
      rrest.map fun op => (op, priority_completion inst jnr mnr op) := by
  unfold priority_earliest
  exact foldl_pick
    (fun (p best : Nat × Nat) => lexLt [p.2, p.1] [best.2, best.1]) _ _

theorem priority_earliest_mem (inst : Instance) (jnr mnr : List Nat)
    (r0 : Nat) (rrest : List Nat) :
    (priority_earliest inst jnr mnr r0 rrest).1 ∈ r0 :: rrest ∧
    (priority_earliest inst jnr mnr r0 rrest).2 =
      priority_completion inst jnr mnr
        (priority_earliest inst jnr mnr r0 rrest).1 := by
  rcases priority_earliest_pick inst jnr mnr r0 rrest with h | h
  · exact ⟨by rw [h]; exact List.mem_cons_self _ _, by rw [h]⟩
  · obtain ⟨op, hop, he⟩ := List.mem_map.mp h
    exact ⟨by rw [← he]; exact List.mem_cons_of_mem _ hop, by rw [← he]⟩

/-- The candidate list of an iteration of the dispatch loop always
contains the earliest-completion operation: it trivially lies on its
own machine, and its job clock is bounded by its own completion time
(the completion is `max(job clock, machine clock) + duration`). -/
theorem priority_earliest_mem_candidates (inst : Instance)
    (jnr mnr : List Nat) (r0 : Nat) (rrest : List Nat) :
    (priority_earliest inst jnr mnr r0 rrest).1 ∈
      priority_candidates inst jnr mnr r0 rrest := by
  have hmem := priority_earliest_mem inst jnr mnr r0 rrest
  unfold priority_candidates
  refine List.mem_filter.mpr ⟨List.mem_filter.mpr ⟨hmem.1, ?_⟩, ?_⟩
  · exact beq_self_eq_true _
  · refine decide_eq_true ?_
    rw [hmem.2]
    unfold priority_completion
    exact Nat.le_trans (Nat.le_max_left _ _) (Nat.le_add_right _ _)

theorem priority_candidates_ne_nil (inst : Instance) (jnr mnr : List Nat)
    (r0 : Nat) (rrest : List Nat) :
    priority_candidates inst jnr mnr r0 rrest ≠ [] := by
  intro hnil
  have he := priority_earliest_mem_candidates inst jnr mnr r0 rrest
  rw [hnil] at he
  exact absurd he (List.not_mem_nil _)

theorem priority_candidates_subset (inst : Instance) (jnr mnr : List Nat)
    (r0 : Nat) (rrest : List Nat) {x : Nat}
    (h : x ∈ priority_candidates inst jnr mnr r0 rrest) :
    x ∈ r0 :: rrest := by
  unfold priority_candidates at h
  exact (List.mem_filter.mp (List.mem_filter.mp h).1).1

/-- Totality invariant of the dispatch loop: with ghost per-job
counters `c`, the ready list holds exactly the next unscheduled
operation of each unfinished job, the order trace holds exactly the
already-scheduled operations, and the fuel exceeds the number of
operations still unscheduled.  Under this invariant the loop returns
`some` (no panic) and its final trace contains every operation id
exactly once. -/
theorem priority_loop_total (inst : Instance) (k : Nat)
    (hM : 0 < inst.n_machines) :
    ∀ (fuel : Nat) (c : Nat → Nat) (ready sts mnr jnr order : List Nat),
      (∀ j, j < inst.n_jobs → c j ≤ inst.n_machines) →
      (∀ x, x ∈ ready ↔ ∃ j, j < inst.n_jobs ∧ c j < inst.n_machines ∧
        x = inst.op_to_id j (c j)) →
      ready.Nodup →
      (∀ x, x ∈ order ↔ ∃ j, j < inst.n_jobs ∧ ∃ o, o < c j ∧
        x = inst.op_to_id j o) →
      order.Nodup →
      (∑ j ∈ Finset.range inst.n_jobs, (inst.n_machines - c j)) < fuel →
      sts.length = inst.n_ops →
      ∃ sol order2,
        priority_loop inst (priority_rule inst k) fuel ready sts mnr jnr
          order = some (sol, order2) ∧
        (∀ x, x ∈ order2 ↔ ∃ j, j < inst.n_jobs ∧ ∃ o,
          o < inst.n_machines ∧ x = inst.op_to_id j o) ∧
        order2.Nodup ∧ sol.start_times.length = inst.n_ops := by
  intro fuel
  induction fuel with
  | zero => intro c ready sts mnr jnr order _ _ _ _ _ hfuel _; omega
  | succ fuel ih =>
    intro c ready sts mnr jnr order hA hB hC hD hE hfuel hlen
    rcases ready with _ | ⟨r0, rrest⟩
    · have hcM : ∀ j, j < inst.n_jobs → c j = inst.n_machines := by
        intro j hj
        rcases Nat.lt_or_ge (c j) inst.n_machines with hlt | hge
        · exact absurd ((hB (inst.op_to_id j (c j))).mpr ⟨j, hj, hlt, rfl⟩)
            (List.not_mem_nil _)
        · exact Nat.le_antisymm (hA j hj) hge
      refine ⟨⟨sts⟩, order, by simp only [priority_loop], ?_, hE, hlen⟩
      intro x
      rw [hD x]
      constructor
      · rintro ⟨j, hj, o, ho, rfl⟩
        exact ⟨j, hj, o, by rw [← hcM j hj]; exact ho, rfl⟩
      · rintro ⟨j, hj, o, ho, rfl⟩
        exact ⟨j, hj, o, by rw [hcM j hj]; exact ho, rfl⟩
    · obtain ⟨idx, hidx, hlt⟩ := priority_rule_choice inst k
        (priority_candidates inst jnr mnr r0 rrest)
        (priority_candidates_ne_nil inst jnr mnr r0 rrest)
      obtain ⟨chosen, hget⟩ :
          ∃ ch, (priority_candidates inst jnr mnr r0 rrest).get? idx =
            some ch := ⟨_, List.get?_eq_get hlt⟩
      have hcmem : chosen ∈ priority_candidates inst jnr mnr r0 rrest :=
        List.get?_mem hget
      have hrmem : chosen ∈ r0 :: rrest :=
        priority_candidates_subset inst jnr mnr r0 rrest hcmem
      obtain ⟨j0, hj0, hcj0, hcheq⟩ := (hB chosen).mp hrmem
      have hfrom : inst.op_from_id chosen = (j0, c j0) := by
        rw [hcheq]; exact op_from_id_to_id inst hM hcj0
      have hA2 : ∀ j, j < inst.n_jobs →
          (if j = j0 then c j0 + 1 else c j) ≤ inst.n_machines := by
        intro j hj
        by_cases hjj : j = j0
        · rw [if_pos hjj]; omega
        · rw [if_neg hjj]; exact hA j hj
      have hD2 : ∀ x, x ∈ order ++ [chosen] ↔
          ∃ j, j < inst.n_jobs ∧ ∃ o,
            o < (if j = j0 then c j0 + 1 else c j) ∧
            x = inst.op_to_id j o := by
        intro x
        simp only [List.mem_append, List.mem_singleton]
        constructor
        · rintro (hx | rfl)
          · obtain ⟨j, hj, o, ho, rfl⟩ := (hD x).mp hx
            refine ⟨j, hj, o, ?_, rfl⟩
            by_cases hjj : j = j0
            · rw [hjj] at ho ⊢; rw [if_pos rfl]; omega
            · rw [if_neg hjj]; exact ho
          · exact ⟨j0, hj0, c j0, by rw [if_pos rfl]; omega, hcheq⟩
        · rintro ⟨j, hj, o, ho, rfl⟩
          by_cases hjj : j = j0
          · rw [hjj] at ho ⊢
            rw [if_pos rfl] at ho
            rcases Nat.lt_or_ge o (c j0) with h1 | h1
            · exact Or.inl ((hD _).mpr ⟨j0, hj0, o, h1, rfl⟩)
            · have ho2 : o = c j0 := by omega
              rw [ho2]
              exact Or.inr hcheq.symm
          · rw [if_neg hjj] at ho
            exact Or.inl ((hD _).mpr ⟨j, hj, o, ho, rfl⟩)
      have hE2 : (order ++ [chosen]).Nodup := by
        rw [List.nodup_append]
        refine ⟨hE, List.nodup_singleton _, ?_⟩
        intro x hx hx1
        rw [List.mem_singleton] at hx1
        obtain ⟨j, hj, o, ho, heq⟩ := (hD x).mp hx
        rw [hx1, hcheq] at heq
        have hoM : o < inst.n_machines := Nat.lt_of_lt_of_le ho (hA j hj)
        obtain ⟨hj1, hj2⟩ := op_to_id_inj inst hcj0 hoM heq
        rw [← hj1] at ho
        omega
      have hsum : (∑ j ∈ Finset.range inst.n_jobs,
            (inst.n_machines - (if j = j0 then c j0 + 1 else c j))) + 1 =
          ∑ j ∈ Finset.range inst.n_jobs, (inst.n_machines - c j) := by
        have hmem : j0 ∈ Finset.range inst.n_jobs := Finset.mem_range.mpr hj0
        rw [← Finset.sum_erase_add (Finset.range inst.n_jobs)
            (fun j => inst.n_machines - (if j = j0 then c j0 + 1 else c j))
            hmem,
          ← Finset.sum_erase_add (Finset.range inst.n_jobs)
            (fun j => inst.n_machines - c j) hmem]
        have herase : ∑ j ∈ (Finset.range inst.n_jobs).erase j0,
            (inst.n_machines - (if j = j0 then c j0 + 1 else c j)) =
            ∑ j ∈ (Finset.range inst.n_jobs).erase j0,
            (inst.n_machines - c j) :=
          Finset.sum_congr rfl fun x hx => by
            rw [if_neg (Finset.ne_of_mem_erase hx)]
        rw [herase, if_pos rfl]
        omega
      have hfuel2 : (∑ j ∈ Finset.range inst.n_jobs,
          (inst.n_machines - (if j = j0 then c j0 + 1 else c j))) < fuel := by
        omega
      have hlen2 : (sts.set chosen
          (max (jnr.getD j0 0) (mnr.getD (inst.mach chosen) 0))).length =
          inst.n_ops := by
        rw [List.length_set]; exact hlen
      simp only [priority_loop, hidx, hget, hfrom]
      by_cases htop : c j0 < inst.n_machines - 1
      · rw [if_pos htop]
        have hB2 : ∀ x,
            x ∈ ((r0 :: rrest).filter fun op => op ≠ chosen) ++
              [inst.op_to_id j0 (c j0 + 1)] ↔
            ∃ j, j < inst.n_jobs ∧
              (if j = j0 then c j0 + 1 else c j) < inst.n_machines ∧
              x = inst.op_to_id j (if j = j0 then c j0 + 1 else c j) := by
          intro x
          simp only [List.mem_append, List.mem_filter, List.mem_singleton,
            decide_eq_true_eq]
          constructor
          · rintro (⟨hx, hne⟩ | rfl)
            · obtain ⟨j, hj, hcj, rfl⟩ := (hB x).mp hx
              have hjj : j ≠ j0 := by
                intro hj0eq
                apply hne
                rw [hcheq, hj0eq]
              exact ⟨j, hj, by rw [if_neg hjj]; exact hcj,
                by rw [if_neg hjj]⟩
            · exact ⟨j0, hj0, by rw [if_pos rfl]; omega,
                by rw [if_pos rfl]⟩
          · rintro ⟨j, hj, hcj, rfl⟩
            by_cases hjj : j = j0
            · right
              rw [hjj, if_pos rfl]
            · rw [if_neg hjj] at hcj ⊢
              left
              refine ⟨(hB _).mpr ⟨j, hj, hcj, rfl⟩, ?_⟩
              rw [hcheq]
              exact fun he => hjj (op_to_id_inj inst hcj hcj0 he).1
        have hC2 : (((r0 :: rrest).filter fun op => op ≠ chosen) ++
            [inst.op_to_id j0 (c j0 + 1)]).Nodup := by
          rw [List.nodup_append]
          refine ⟨hC.filter _, List.nodup_singleton _, ?_⟩
          intro x hx hx1
          rw [List.mem_singleton] at hx1
          obtain ⟨j, hj, hcj, heq⟩ := (hB x).mp (List.mem_of_mem_filter hx)
          rw [hx1] at heq
          obtain ⟨hj1, hj2⟩ := op_to_id_inj inst (by omega) hcj heq
          rw [← hj1] at hcj hj2
          omega
        exact ih _ _ _ _ _ _ hA2 hB2 hC2 hD2 hE2 hfuel2 hlen2
      · rw [if_neg htop]
        have hB2 : ∀ x,
            x ∈ (r0 :: rrest).filter (fun op => op ≠ chosen) ↔
            ∃ j, j < inst.n_jobs ∧
              (if j = j0 then c j0 + 1 else c j) < inst.n_machines ∧
              x = inst.op_to_id j (if j = j0 then c j0 + 1 else c j) := by
          intro x
          simp only [List.mem_filter, decide_eq_true_eq]
          constructor
          · rintro ⟨hx, hne⟩
            obtain ⟨j, hj, hcj, rfl⟩ := (hB x).mp hx
            have hjj : j ≠ j0 := by
              intro hj0eq
              apply hne
              rw [hcheq, hj0eq]
            exact ⟨j, hj, by rw [if_neg hjj]; exact hcj,
              by rw [if_neg hjj]⟩
          · rintro ⟨j, hj, hcj, rfl⟩
            have hjj : j ≠ j0 := by
              intro hj0eq
              rw [hj0eq, if_pos rfl] at hcj
              omega
            rw [if_neg hjj] at hcj ⊢
            refine ⟨(hB _).mpr ⟨j, hj, hcj, rfl⟩, ?_⟩
            rw [hcheq]
            exact fun he => hjj (op_to_id_inj inst hcj hcj0 he).1
        have hC2 : ((r0 :: rrest).filter fun op => op ≠ chosen).Nodup :=
          hC.filter _
        exact ih _ _ _ _ _ _ hA2 hB2 hC2 hD2 hE2 hfuel2 hlen2

/-- Claim C1, as stated, is false: on the one-job two-machine instance
with durations `[3, 3]` and both start times `0`, predicate (a) of the
contract is violated (operation 1 starts before operation 0 ends), yet
`verify_solution` returns `Ok` — the guard `other_job != job &&
other_op != op` makes its precedence branch unreachable. -/
theorem verify_solution_iff_spec_false :
    ¬ (verify_solution ⟨1, 2, [3, 3], [0, 1]⟩ ⟨[0, 0]⟩ = true ↔
       spec_verifier_ok ⟨1, 2, [3, 3], [0, 1]⟩ ⟨[0, 0]⟩) := by
  decide

/-- Claim C1 (amended): `verify_solution` returns `Ok` if and only if,
for every two operations that differ in both the job index and the
position index and lie on the same machine, the two intervals do not
overlap (in the code's `end <= other_start || other_end <= start`
sense).  The precedence predicate (a) is never checked — its branch is
dead code under the `other_job != job` guard — non-negativity (c) is
never checked, and same-machine pairs sharing a job index or a position
index are not compared. -/
theorem verify_solution_spec (inst : Instance) (sol : Solution) :
    verify_solution inst sol = true ↔ code_verifier_ok inst sol := by
  unfold verify_solution code_verifier_ok
  simp only [List.all_eq_true, List.mem_range]
  constructor
  · intro h j hj o ho j' hj' o' ho' hjne hone hm
    have := h j hj o ho j' hj' o' ho'
    rw [if_pos ⟨hjne, hone⟩] at this
    have h2 := (Bool.and_eq_true _ _).mp this |>.2
    rw [if_pos hm] at h2
    have h3 := of_decide_eq_true h2
    rcases h3 with ⟨_, h3⟩ | ⟨_, h3⟩
    · exact Or.inl h3
    · exact Or.inr h3
  · intro h j hj o ho j' hj' o' ho'
    by_cases hcond : j' ≠ j ∧ o' ≠ o
    · rw [if_pos hcond]
      refine (Bool.and_eq_true _ _).mpr ⟨?_, ?_⟩
      · rcases hcond with ⟨hjne, _⟩
        rw [if_neg (fun hc => hjne hc.1)]
      · by_cases hm : inst.mach (inst.op_to_id j' o') = inst.mach (inst.op_to_id j o)
        · rw [if_pos hm]
          refine decide_eq_true ?_
          rcases h j hj o ho j' hj' o' ho' hcond.1 hcond.2 hm with h1 | h1
          · exact Or.inl ⟨Nat.le_trans (Nat.le_add_right _ _) h1, h1⟩
          · exact Or.inr ⟨Nat.le_trans (Nat.le_add_right _ _) h1, h1⟩
        · rw [if_neg hm]
    · rw [if_neg hcond]

/-- Claim C7: in `get_orientation_from_schedule`'s per-machine ordering
of two operations, the earlier start time precedes; on equal starts a
unique zero-duration operation precedes; two zero-duration operations
are ordered by operation id (`compare`); and on equal starts with both
durations non-zero the comparison signals infeasibility — `is_before`
panics (modelled `none`), so no orientation is returned for any such
compared pair. -/
theorem op_ordering_spec (a b : Nat) (release_times durations : List Nat) :
    (release_times.getD a 0 < release_times.getD b 0 →
      op_ordering a b release_times durations = Ordering.lt) ∧
    (release_times.getD b 0 < release_times.getD a 0 →
      op_ordering a b release_times durations = Ordering.gt) ∧
    (release_times.getD a 0 = release_times.getD b 0 →
      durations.getD a 0 = 0 → durations.getD b 0 ≠ 0 →
      op_ordering a b release_times durations = Ordering.lt) ∧
    (release_times.getD a 0 = release_times.getD b 0 →
      durations.getD a 0 ≠ 0 → durations.getD b 0 = 0 →
      op_ordering a b release_times durations = Ordering.gt) ∧
    (release_times.getD a 0 = release_times.getD b 0 →
      durations.getD a 0 = 0 → durations.getD b 0 = 0 →
      op_ordering a b release_times durations = compare a b) ∧
    (release_times.getD a 0 = release_times.getD b 0 →
      durations.getD a 0 ≠ 0 → durations.getD b 0 ≠ 0 →
      is_before a b release_times durations = none) := by
  simp only [is_before, op_ordering]
  refine ⟨fun h => ?_, fun h => ?_, fun h h0 h1 => ?_, fun h h0 h1 => ?_,
    fun h h0 h1 => ?_, fun h h0 h1 => ?_⟩ <;>
    split_ifs <;>
    first
      | rfl
      | (exfalso; omega)

/-- Concrete instantiation of `op_ordering_spec`: `0` starts earlier
than `1` in `[0, 1]`, so it precedes; with equal starts `[3, 3]` and
positive durations the bridge signals infeasibility. -/
theorem op_ordering_spec_witness :
    op_ordering 0 1 [0, 1] [2, 2] = Ordering.lt ∧
    is_before 0 1 [3, 3] [2, 2] = none :=
  ⟨(op_ordering_spec 0 1 [0, 1] [2, 2]).1 (by decide),
   (op_ordering_spec 0 1 [3, 3] [2, 2]).2.2.2.2.2 rfl (by decide) (by decide)⟩

/-- Claim C4 fails on the code: `estimate_initial_temperature` computes
`chosen_move.cmax - solution.cmax` in `u32`.  On the 2×2 unit-duration
instance below, the non-delay dispatch order `job1-op0, job0-op0,
job1-op1, job0-op1` (reachable by `generate_random_solution`) gives the
schedule `[0, 3, 1, 2]`, whose trial state has `cmax = 4` while both of
its sampled N1 moves are estimated at `3`.  The recorded delta is
therefore the wrapped value `2^32 - 1` (a debug build panics on the
overflow) and is classified as worsening — not the non-positive signed
value `-1` the specification requires. -/
theorem sa_delta_underflow :
    get_orientation_from_schedule ⟨2, 2, [1, 1, 1, 1], [0, 1, 0, 1]⟩
        ⟨[0, 3, 1, 2]⟩ = some [(0, 2), (3, 1)] ∧
    (IntermediateSolution.new 64 ⟨2, 2, [1, 1, 1, 1], [0, 1, 0, 1]⟩
        [(0, 2), (3, 1)]).map (fun s => s.cmax) = some 4 ∧
    (IntermediateSolution.new 64 ⟨2, 2, [1, 1, 1, 1], [0, 1, 0, 1]⟩
        [(0, 2), (3, 1)]).map (fun s => generate_moves 64 s) =
      some (some [⟨(0, 2), 3⟩, ⟨(3, 1), 3⟩]) ∧
    sa_recorded_delta 3 4 = 2 ^ 32 - 1 ∧ 0 < sa_recorded_delta 3 4 := by
  refine ⟨by decide, by decide, by decide, by decide, by decide⟩

theorem relinkPre_length (pm sm : List (Option Nat)) (a b : Nat) :
    (relinkPre pm sm a b).length = pm.length := by
  unfold relinkPre
  rw [List.length_set, List.length_set]
  split <;> simp

theorem relinkSucc_length (pm sm : List (Option Nat)) (a b : Nat) :
    (relinkSucc pm sm a b).length = sm.length := by
  unfold relinkSucc
  rw [List.length_set, List.length_set]
  split <;> simp

theorem relinkPre_a {pm sm : List (Option Nat)} {a b : Nat} (hab : a ≠ b)
    (ha : a < pm.length) : getO (relinkPre pm sm a b) a = some b := by
  unfold relinkPre
  rw [getO_set_ne (Ne.symm hab)]
  refine getO_set_self ?_ _
  split
  case h_1 x hx => simpa using ha
  case h_2 => exact ha

theorem relinkPre_b {pm sm : List (Option Nat)} {a b : Nat}
    (hb : b < pm.length) : getO (relinkPre pm sm a b) b = getO pm a := by
  unfold relinkPre
  refine getO_set_self ?_ _
  rw [List.length_set]
  split
  case h_1 x hx => simpa using hb
  case h_2 => exact hb

theorem relinkPre_other {pm sm : List (Option Nat)} {a b n : Nat}
    (hna : n ≠ a) (hnb : n ≠ b)
    (hsmb : ∀ x, getO sm b = some x → x < pm.length) :
    getO (relinkPre pm sm a b) n =
      if getO sm b = some n then some a else getO pm n := by
  unfold relinkPre
  rw [getO_set_ne (Ne.symm hnb), getO_set_ne (Ne.symm hna)]
  cases hsb : getO sm b with
  | none => simp
  | some x =>
    by_cases hx : x = n
    · subst hx
      rw [if_pos rfl]
      exact getO_set_self (hsmb x hsb) _
    · rw [if_neg (by simp [hx]), getO_set_ne hx]

theorem relinkSucc_b {pm sm : List (Option Nat)} {a b : Nat}
    (hb : b < sm.length) : getO (relinkSucc pm sm a b) b = some a := by
  unfold relinkSucc
  refine getO_set_self ?_ _
  rw [List.length_set]
  split
  case h_1 x hx => simpa using hb
  case h_2 => exact hb

theorem relinkSucc_a {pm sm : List (Option Nat)} {a b : Nat} (hab : a ≠ b)
    (ha : a < sm.length) : getO (relinkSucc pm sm a b) a = getO sm b := by
  unfold relinkSucc
  rw [getO_set_ne (Ne.symm hab)]
  refine getO_set_self ?_ _
  split
  case h_1 x hx => simpa using ha
  case h_2 => exact ha

theorem relinkSucc_other {pm sm : List (Option Nat)} {a b n : Nat}
    (hna : n ≠ a) (hnb : n ≠ b)
    (hpma : ∀ x, getO pm a = some x → x < sm.length) :
    getO (relinkSucc pm sm a b) n =
      if getO pm a = some n then some b else getO sm n := by
  unfold relinkSucc
  rw [getO_set_ne (Ne.symm hnb), getO_set_ne (Ne.symm hna)]
  cases hpa : getO pm a with
  | none => simp
  | some x =>
    by_cases hx : x = n
    · subst hx
      rw [if_pos rfl]
      exact getO_set_self (hpma x hpa) _
    · rw [if_neg (by simp [hx]), getO_set_ne hx]

/-- Destructuring of a successful `apply_swap`: the two recomputations
ran on the relinked arrays and the result is the assembled record. -/
theorem apply_swap_eq {fuel2 : Nat} {s s' : IntermediateSolution} {a b : Nat}
    (h : IntermediateSolution.apply_swap fuel2 s a b = some s') :
    ∃ rel2 rtr tail2 labT ttr cmax2,
      get_release_times_from_pre_succ_relations fuel2 s.inst s.pre_job
          s.succ_job (relinkPre s.pre_machine s.succ_machine a b)
          (relinkSucc s.pre_machine s.succ_machine a b) =
        some (rel2, rtr) ∧
      get_tail_times_from_pre_succ_relations fuel2 s.inst s.pre_job
          s.succ_job (relinkPre s.pre_machine s.succ_machine a b)
          (relinkSucc s.pre_machine s.succ_machine a b) =
        some (tail2, labT, ttr) ∧
      (List.zipWith (· + ·) rel2 tail2).max? = some cmax2 ∧
      s' = { inst := s.inst
             oriented_conflict_edges :=
               s.oriented_conflict_edges.map (swapEdge a b)
             precedence_edges := s.precedence_edges
             pre_job := s.pre_job
             succ_job := s.succ_job
             pre_machine := relinkPre s.pre_machine s.succ_machine a b
             succ_machine := relinkSucc s.pre_machine s.succ_machine a b
             release_times := rel2
             tail_times := tail2
             path_times := List.zipWith (· + ·) rel2 tail2
             cmax := cmax2 } := by
  simp only [IntermediateSolution.apply_swap] at h
  split at h
  case h_1 => exact absurd h (by simp)
  case h_2 rel2 rtr hrel =>
    split at h
    case h_1 => exact absurd h (by simp)
    case h_2 tail2 labT ttr htail =>
      split at h
      case h_1 => exact absurd h (by simp)
      case h_2 cmax2 hcmax =>
        obtain rfl : s' = _ := by
          have hs := h.symm
          simp only [Option.some.injEq] at hs
          exact hs
        exact ⟨rel2, rtr, tail2, labT, ttr, cmax2, hrel, htail, hcmax, rfl⟩

/-- Basic consequences of an oriented conflict edge `(a, b)` of a
well-formed state: endpoint facts and well-formedness (in-range inverse
pair) of the relinked machine arrays. -/
theorem swap_arrays_wf {s : IntermediateSolution} {a b : Nat}
    (wf : StateWF s) (hab : (a, b) ∈ s.oriented_conflict_edges) :
    a ≠ b ∧ a < s.inst.n_ops ∧ b < s.inst.n_ops ∧
    getO s.succ_machine a = some b ∧ getO s.pre_machine b = some a ∧
    ArrOk s.inst (relinkPre s.pre_machine s.succ_machine a b) ∧
    ArrOk s.inst (relinkSucc s.pre_machine s.succ_machine a b) ∧
    InversePair (relinkPre s.pre_machine s.succ_machine a b)
      (relinkSucc s.pre_machine s.succ_machine a b) := by
  obtain ⟨rk, B, hrk, _⟩ := wf.hrank
  have hsm_ab : getO s.succ_machine a = some b := (wf.edge_iff a b).mp hab
  have hpm_ba : getO s.pre_machine b = some a := (wf.hM a b).mp hsm_ab
  have hrk_ab : rk a < rk b := hrk a b (Or.inr hpm_ba)
  have hne_ab : a ≠ b := fun hc => by rw [hc] at hrk_ab; omega
  have hb_lt : b < s.inst.n_ops := wf.hsmO.2 a b hsm_ab
  have ha_lt : a < s.inst.n_ops := by
    by_contra hc
    rw [getO_out (wf.hsmO.1 ▸ Nat.le_of_not_lt hc)] at hsm_ab
    exact absurd hsm_ab (by simp)
  have hpm_len : s.pre_machine.length = s.inst.n_ops := wf.hpmO.1
  have hsm_len : s.succ_machine.length = s.inst.n_ops := wf.hsmO.1
  have f2 : getO s.succ_machine b ≠ some a := by
    intro h
    have := hrk b a (Or.inr ((wf.hM b a).mp h))
    omega
  have f3 : getO s.succ_machine b ≠ some b := by
    intro h
    have := hrk b b (Or.inr ((wf.hM b b).mp h))
    omega
  have f4 : getO s.pre_machine a ≠ some a := by
    intro h
    have := hrk a a (Or.inr h)
    omega
  have f5 : getO s.pre_machine a ≠ some b := by
    intro h
    have := hrk b a (Or.inr h)
    omega
  have hsmb_lt : ∀ x, getO s.succ_machine b = some x →
      x < s.pre_machine.length := by
    intro x hx
    rw [hpm_len]
    exact wf.hsmO.2 b x hx
  have hpma_lt : ∀ x, getO s.pre_machine a = some x →
      x < s.succ_machine.length := by
    intro x hx
    rw [hsm_len]
    exact wf.hpmO.2 a x hx
  have halp : a < s.pre_machine.length := hpm_len ▸ ha_lt
  have hblp : b < s.pre_machine.length := hpm_len ▸ hb_lt
  have hals : a < s.succ_machine.length := hsm_len ▸ ha_lt
  have hbls : b < s.succ_machine.length := hsm_len ▸ hb_lt
  refine ⟨hne_ab, ha_lt, hb_lt, hsm_ab, hpm_ba, ⟨?_, ?_⟩, ⟨?_, ?_⟩, ?_⟩
  · rw [relinkPre_length, hpm_len]
  · intro i p hp
    by_cases hia : i = a
    · subst hia
      rw [relinkPre_a hne_ab halp] at hp
      obtain rfl : b = p := by simpa using hp
      exact hb_lt
    · by_cases hib : i = b
      · subst hib
        rw [relinkPre_b hblp] at hp
        exact wf.hpmO.2 a p hp
      · rw [relinkPre_other hia hib hsmb_lt] at hp
        by_cases hsb : getO s.succ_machine b = some i
        · rw [if_pos hsb] at hp
          obtain rfl : a = p := by simpa using hp
          exact ha_lt
        · rw [if_neg hsb] at hp
          exact wf.hpmO.2 i p hp
  · rw [relinkSucc_length, hsm_len]
  · intro i p hp
    by_cases hia : i = a
    · subst hia
      rw [relinkSucc_a hne_ab hals] at hp
      exact wf.hsmO.2 b p hp
    · by_cases hib : i = b
      · subst hib
        rw [relinkSucc_b hbls] at hp
        obtain rfl : a = p := by simpa using hp
        exact ha_lt
      · rw [relinkSucc_other hia hib hpma_lt] at hp
        by_cases hq : getO s.pre_machine a = some i
        · rw [if_pos hq] at hp
          obtain rfl : b = p := by simpa using hp
          exact hb_lt
        · rw [if_neg hq] at hp
          exact wf.hsmO.2 i p hp
  · intro p n
    by_cases hpa : p = a
    · rw [hpa]
      rw [relinkSucc_a hne_ab hals]
      by_cases hna : n = a
      · rw [hna]
        rw [relinkPre_a hne_ab halp]
        constructor
        · intro h; exact absurd h f2
        · intro h
          have h2 : b = a := by simpa using h
          exact absurd h2 (Ne.symm hne_ab)
      · by_cases hnb : n = b
        · rw [hnb]
          rw [relinkPre_b hblp]
          constructor
          · intro h; exact absurd h f3
          · intro h; exact absurd h f4
        · rw [relinkPre_other hna hnb hsmb_lt]
          constructor
          · intro h; rw [if_pos h]
          · intro h
            by_cases hsb : getO s.succ_machine b = some n
            · exact hsb
            · rw [if_neg hsb] at h
              have h2 := (wf.hM a n).mpr h
              rw [hsm_ab] at h2
              have h3 : b = n := by simpa using h2
              exact absurd h3.symm hnb
    · by_cases hpb : p = b
      · rw [hpb]
        rw [relinkSucc_b hbls]
        by_cases hna : n = a
        · rw [hna]
          rw [relinkPre_a hne_ab halp]
          exact ⟨fun _ => rfl, fun _ => rfl⟩
        · by_cases hnb : n = b
          · rw [hnb]
            rw [relinkPre_b hblp]
            constructor
            · intro h
              have h2 : a = b := by simpa using h
              exact absurd h2 hne_ab
            · intro h; exact absurd h f5
          · rw [relinkPre_other hna hnb hsmb_lt]
            constructor
            · intro h
              have h2 : a = n := by simpa using h
              exact absurd h2.symm hna
            · intro h
              exfalso
              by_cases hsb : getO s.succ_machine b = some n
              · rw [if_pos hsb] at h
                have h2 : a = b := by simpa using h
                exact hne_ab h2
              · rw [if_neg hsb] at h
                exact hsb ((wf.hM b n).mpr h)
      · rw [relinkSucc_other hpa hpb hpma_lt]
        by_cases hna : n = a
        · rw [hna]
          rw [relinkPre_a hne_ab halp]
          constructor
          · intro h
            exfalso
            by_cases hq : getO s.pre_machine a = some p
            · rw [if_pos hq] at h
              have h2 : b = a := by simpa using h
              exact hne_ab h2.symm
            · rw [if_neg hq] at h
              exact hq ((wf.hM p a).mp h)
          · intro h
            have h2 : b = p := by simpa using h
            exact absurd h2.symm hpb
        · by_cases hnb : n = b
          · rw [hnb]
            rw [relinkPre_b hblp]
            constructor
            · intro h
              by_cases hq : getO s.pre_machine a = some p
              · exact hq
              · rw [if_neg hq] at h
                have h2 := (wf.hM p b).mp h
                rw [hpm_ba] at h2
                have h3 : a = p := by simpa using h2
                exact absurd h3.symm hpa
            · intro h
              rw [if_pos h]
          · rw [relinkPre_other hna hnb hsmb_lt]
            constructor
            · intro h
              by_cases hq : getO s.pre_machine a = some p
              · rw [if_pos hq] at h
                have h2 : b = n := by simpa using h
                exact absurd h2.symm hnb
              · rw [if_neg hq] at h
                by_cases hr : getO s.succ_machine b = some n
                · exfalso
                  have h2 := (wf.hM b n).mp hr
                  have h3 := (wf.hM p n).mp h
                  rw [h3] at h2
                  have h4 : p = b := by simpa using h2
                  exact hpb h4
                · rw [if_neg hr]
                  exact (wf.hM p n).mp h
            · intro h
              by_cases hr : getO s.succ_machine b = some n
              · rw [if_pos hr] at h
                have h2 : a = p := by simpa using h
                exact absurd h2.symm hpa
              · rw [if_neg hr] at h
                by_cases hq : getO s.pre_machine a = some p
                · exfalso
                  have h2 := (wf.hM p a).mpr hq
                  have h3 := (wf.hM p n).mpr h
                  rw [h3] at h2
                  have h4 : n = a := by simpa using h2
                  exact hna h4
                · rw [if_neg hq]
                  exact (wf.hM p n).mpr h

theorem reach_rank {step : Nat → Nat → Prop} {rk : Nat → Nat}
    (hrk : ∀ u v, step u v → rk u < rk v) :
    ∀ {src v : Nat}, reach step src v → rk src ≤ rk v := by
  intro src v h
  induction h with
  | refl => exact Nat.le_refl _
  | tail h1 h2 ih => exact Nat.le_trans ih (Nat.le_of_lt (hrk _ _ h2))

/-- Change propagation: two head (or tail) fixpoints over graphs that
differ only in machine-predecessor entries of nodes reachable from
`src` can differ only at nodes reachable from `src`.  `g` abstracts the
neighbour-value function (`endv` for heads, `tailOf` for tails) and `d`
the per-node offset. -/
theorem fix_diff_reach {inst : Instance} {pj pm pm2 : List (Option Nat)}
    {g : List Nat → Option Nat → Nat} {rel rel2 : List Nat}
    {rk2 : Nat → Nat} {src : Nat} {d : Nat → Nat}
    (hpjO : ArrOk inst pj) (hpm2O : ArrOk inst pm2)
    (hg : ∀ u v : List Nat, ∀ p : Nat, u.getD p 0 = v.getD p 0 →
      g u (some p) = g v (some p))
    (hgn : ∀ u v : List Nat, g u none = g v none)
    (hfix : ∀ n, n < inst.n_ops → rel.getD n 0 =
      max (g rel (getO pj n)) (g rel (getO pm n)) + d n)
    (hfix2 : ∀ n, n < inst.n_ops → rel2.getD n 0 =
      max (g rel2 (getO pj n)) (g rel2 (getO pm2 n)) + d n)
    (hrk2 : RankedBy pj pm2 rk2)
    (hchg : ∀ n, n < inst.n_ops → getO pm2 n ≠ getO pm n →
      reach (predOf pj pm2) src n) :
    ∀ n, n < inst.n_ops → rel2.getD n 0 ≠ rel.getD n 0 →
      reach (predOf pj pm2) src n := by
  have main : ∀ k n, rk2 n = k → n < inst.n_ops →
      rel2.getD n 0 ≠ rel.getD n 0 → reach (predOf pj pm2) src n := by
    intro k
    induction k using Nat.strong_induction_on with
    | _ k ihk =>
      intro n hrkn hn hne
      by_cases hpm : getO pm2 n = getO pm n
      · rw [hfix2 n hn, hfix n hn, ← hpm] at hne
        have key : g rel2 (getO pj n) ≠ g rel (getO pj n) ∨
            g rel2 (getO pm2 n) ≠ g rel (getO pm2 n) := by
          by_contra hc
          push_neg at hc
          rw [hc.1, hc.2] at hne
          exact hne rfl
        rcases key with hk | hk
        · cases hp : getO pj n with
          | none =>
            rw [hp] at hk
            exact absurd (hgn rel2 rel) hk
          | some p =>
            rw [hp] at hk
            have hplt : p < inst.n_ops := hpjO.2 n p hp
            have hstep : predOf pj pm2 p n := Or.inl hp
            have hprel : rel2.getD p 0 ≠ rel.getD p 0 := by
              intro hc
              exact hk (hg rel2 rel p hc)
            exact reach.tail
              (ihk (rk2 p) (hrkn ▸ hrk2 p n hstep) p rfl hplt hprel) hstep
        · cases hp : getO pm2 n with
          | none =>
            rw [hp] at hk
            exact absurd (hgn rel2 rel) hk
          | some p =>
            rw [hp] at hk
            have hplt : p < inst.n_ops := hpm2O.2 n p hp
            have hstep : predOf pj pm2 p n := Or.inr hp
            have hprel : rel2.getD p 0 ≠ rel.getD p 0 := by
              intro hc
              exact hk (hg rel2 rel p hc)
            exact reach.tail
              (ihk (rk2 p) (hrkn ▸ hrk2 p n hstep) p rfl hplt hprel) hstep
      · exact hchg n hn hpm
  intro n hn hne
  exact main (rk2 n) n rfl hn hne

/-- Projection of new-graph reachability from `src` onto ranks: a node
reachable from `src` after the swap is above `tgt` in the new rank or
above `src` in the old rank, where `(src, tgt)` is the reversed arc and
every other redirected machine arc leaves from `tgt`. -/
theorem swap_reach_proj {pj pm pm2 : List (Option Nat)}
    {rkO rk2 : Nat → Nat} {src tgt : Nat}
    (hrkO : RankedBy pj pm rkO) (hrk2 : RankedBy pj pm2 rk2)
    (hother : ∀ v, v ≠ tgt → v ≠ src → ∀ u, getO pm2 v = some u →
      u = tgt ∨ getO pm v = some u) :
    ∀ v, reach (predOf pj pm2) src v →
      rk2 tgt ≤ rk2 v ∨ rkO src ≤ rkO v := by
  intro v h
  induction h with
  | refl => exact Or.inr (Nat.le_refl _)
  | @tail u v h1 h2 ih =>
    by_cases hvt : v = tgt
    · rw [hvt]
      exact Or.inl (Nat.le_refl _)
    · by_cases hvs : v = src
      · rw [hvs]
        exact Or.inr (Nat.le_refl _)
      · rcases h2 with hstep | hstep
        · rcases ih with hl | hl
          · exact Or.inl (Nat.le_trans hl
              (Nat.le_of_lt (hrk2 u v (Or.inl hstep))))
          · exact Or.inr (Nat.le_trans hl
              (Nat.le_of_lt (hrkO u v (Or.inl hstep))))
        · rcases hother v hvt hvs u hstep with rfl | hold
          · exact Or.inl (Nat.le_of_lt (hrk2 u v (Or.inr hstep)))
          · rcases ih with hl | hl
            · exact Or.inl (Nat.le_trans hl
                (Nat.le_of_lt (hrk2 u v (Or.inr hstep))))
            · exact Or.inr (Nat.le_trans hl
                (Nat.le_of_lt (hrkO u v (Or.inr hold))))

theorem getD_zipWith_add {u v : List Nat} {i : Nat} (hu : i < u.length)
    (hv : i < v.length) :
    (List.zipWith (· + ·) u v).getD i 0 = u.getD i 0 + v.getD i 0 := by
  have hw : i < (List.zipWith (· + ·) u v).length := by
    rw [List.length_zipWith]
    omega
  rw [List.getD_eq_getElem _ _ hw, List.getD_eq_getElem _ _ hu,
    List.getD_eq_getElem _ _ hv, List.getElem_zipWith]

theorem foldl_max_le_acc : ∀ (l : List Nat) (acc : Nat),
    acc ≤ l.foldl max acc := by
  intro l
  induction l with
  | nil => exact fun _ => Nat.le_refl _
  | cons x xs ih =>
    intro acc
    rw [List.foldl_cons]
    exact Nat.le_trans (Nat.le_max_left acc x) (ih (max acc x))

theorem foldl_max_le_mem : ∀ (l : List Nat) (acc x : Nat), x ∈ l →
    x ≤ l.foldl max acc := by
  intro l
  induction l with
  | nil => intro acc x hx; exact absurd hx (List.not_mem_nil x)
  | cons y ys ih =>
    intro acc x hx
    rw [List.foldl_cons]
    rcases List.mem_cons.mp hx with rfl | hx1
    · exact Nat.le_trans (Nat.le_max_right acc x) (foldl_max_le_acc ys _)
    · exact ih (max acc y) x hx1

theorem foldl_max_choice : ∀ (l : List Nat) (acc : Nat),
    l.foldl max acc = acc ∨ l.foldl max acc ∈ l := by
  intro l
  induction l with
  | nil => exact fun _ => Or.inl rfl
  | cons y ys ih =>
    intro acc
    rw [List.foldl_cons]
    rcases ih (max acc y) with h | h
    · rw [h]
      rcases max_choice acc y with h1 | h1
      · exact Or.inl h1
      · rw [h1]
        exact Or.inr (List.mem_cons_self _ _)
    · exact Or.inr (List.mem_cons_of_mem _ h)

theorem nat_max?_spec {l : List Nat} {m : Nat} (h : l.max? = some m) :
    m ∈ l ∧ ∀ x ∈ l, x ≤ m := by
  cases l with
  | nil => exact absurd h (by simp)
  | cons y ys =>
    have hm : m = ys.foldl max y := by
      have : (y :: ys).max? = some (ys.foldl max y) := rfl
      rw [this] at h
      simpa using h.symm
    subst hm
    constructor
    · rcases foldl_max_choice ys y with h1 | h1
      · rw [h1]
        exact List.mem_cons_self _ _
      · exact List.mem_cons_of_mem _ h1
    · intro x hx
      rcases List.mem_cons.mp hx with rfl | hx1
      · exact foldl_max_le_acc ys x
      · exact foldl_max_le_mem ys y x hx1

/-- The reoriented edge list coincides with the relinked
machine-successor relation. -/
theorem swap_edge_iff {s : IntermediateSolution} {a b : Nat}
    (wf : StateWF s) (hab : (a, b) ∈ s.oriented_conflict_edges) :
    ∀ v w, (v, w) ∈ s.oriented_conflict_edges.map (swapEdge a b) ↔
      getO (relinkSucc s.pre_machine s.succ_machine a b) v = some w := by
  obtain ⟨rk, B, hrk, _⟩ := wf.hrank
  have hsm_ab : getO s.succ_machine a = some b := (wf.edge_iff a b).mp hab
  have hpm_ba : getO s.pre_machine b = some a := (wf.hM a b).mp hsm_ab
  have hrk_ab : rk a < rk b := hrk a b (Or.inr hpm_ba)
  have hne_ab : a ≠ b := fun hc => by rw [hc] at hrk_ab; omega
  have hb_lt : b < s.inst.n_ops := wf.hsmO.2 a b hsm_ab
  have ha_lt : a < s.inst.n_ops := by
    by_contra hc
    rw [getO_out (wf.hsmO.1 ▸ Nat.le_of_not_lt hc)] at hsm_ab
    exact absurd hsm_ab (by simp)
  have hsm_len : s.succ_machine.length = s.inst.n_ops := wf.hsmO.1
  have hals : a < s.succ_machine.length := hsm_len ▸ ha_lt
  have hbls : b < s.succ_machine.length := hsm_len ▸ hb_lt
  have hpma_lt : ∀ x, getO s.pre_machine a = some x →
      x < s.succ_machine.length := by
    intro x hx
    rw [hsm_len]
    exact wf.hpmO.2 a x hx
  intro v w
  constructor
  · intro hvw
    obtain ⟨⟨u0, v0⟩, hmem, heq⟩ := List.mem_map.mp hvw
    have hsm0 : getO s.succ_machine u0 = some v0 :=
      (wf.edge_iff u0 v0).mp hmem
    simp only [swapEdge] at heq
    split_ifs at heq with h1 h2 h3
    · obtain ⟨hv, hw⟩ : b = v ∧ a = w := by
        simpa using heq
      rw [← hv, ← hw, relinkSucc_b hbls]
    · obtain ⟨hv, hw⟩ : u0 = v ∧ b = w := by
        simpa using heq
      rw [h2] at hsm0
      have hpm0 : getO s.pre_machine a = some u0 := (wf.hM u0 a).mp hsm0
      have hrk0 : rk u0 < rk a := hrk u0 a (Or.inr hpm0)
      have hu0a : u0 ≠ a := fun hc => by rw [hc] at hrk0; omega
      have hu0b : u0 ≠ b := fun hc => by rw [hc] at hrk0; omega
      rw [← hv, ← hw, relinkSucc_other hu0a hu0b hpma_lt, if_pos hpm0]
    · obtain ⟨hv, hw⟩ : a = v ∧ v0 = w := by
        simpa using heq
      rw [h3] at hsm0
      rw [← hv, ← hw, relinkSucc_a hne_ab hals]
      exact hsm0
    · obtain ⟨hv, hw⟩ : u0 = v ∧ v0 = w := by
        simpa using heq
      have hu0a : u0 ≠ a := by
        intro hc
        rw [hc, hsm_ab] at hsm0
        have h5 : b = v0 := by simpa using hsm0
        exact h1 ⟨hc, h5.symm⟩
      rw [← hv, ← hw, relinkSucc_other hu0a h3 hpma_lt]
      rw [if_neg]
      · exact hsm0
      · intro hq
        have h4 := (wf.hM u0 a).mpr hq
        rw [hsm0] at h4
        have h5 : v0 = a := by simpa using h4
        exact h2 h5
  · intro hvw
    by_cases hvb : v = b
    · rw [hvb, relinkSucc_b hbls] at hvw
      have haw : a = w := by simpa using hvw
      rw [hvb, ← haw]
      refine List.mem_map.mpr ⟨(a, b), hab, ?_⟩
      simp [swapEdge]
    · by_cases hva : v = a
      · rw [hva, relinkSucc_a hne_ab hals] at hvw
        have hmembw : (b, w) ∈ s.oriented_conflict_edges :=
          (wf.edge_iff b w).mpr hvw
        have hrkw : rk b < rk w := hrk b w (Or.inr ((wf.hM b w).mp hvw))
        have hwa : w ≠ a := fun hc => by rw [hc] at hrkw; omega
        have hwb : w ≠ b := fun hc => by rw [hc] at hrkw; omega
        rw [hva]
        refine List.mem_map.mpr ⟨(b, w), hmembw, ?_⟩
        simp [swapEdge, Ne.symm hne_ab, hwa]
      · rw [relinkSucc_other hva hvb hpma_lt] at hvw
        by_cases hq : getO s.pre_machine a = some v
        · rw [if_pos hq] at hvw
          have hbw : b = w := by simpa using hvw
          rw [← hbw]
          have hsv : getO s.succ_machine v = some a := (wf.hM v a).mpr hq
          have hmemva : (v, a) ∈ s.oriented_conflict_edges :=
            (wf.edge_iff v a).mpr hsv
          refine List.mem_map.mpr ⟨(v, a), hmemva, ?_⟩
          simp [swapEdge, hva]
        · rw [if_neg hq] at hvw
          have hmemvw : (v, w) ∈ s.oriented_conflict_edges :=
            (wf.edge_iff v w).mpr hvw
          have hwa : w ≠ a := by
            intro hc
            rw [hc] at hvw
            exact hq ((wf.hM v a).mp hvw)
          refine List.mem_map.mpr ⟨(v, w), hmemvw, ?_⟩
          simp [swapEdge, hva, hwa, hvb]

/-- Exactness of the estimator at the swapped endpoints: after a
successful `apply_swap` on an oriented conflict edge of a well-formed
state, the recomputed heads and tails of `a` and `b` equal the four
`times_after_swap` values (releases of the three relevant predecessors
and tails of the three relevant successors are unchanged by the swap),
the result is well-formed, the estimate is a lower bound on the new
`cmax`, and it is exact when `a` or `b` is critical afterwards. -/
theorem swap_exact {fuel2 : Nat} {s s' : IntermediateSolution} {a b : Nat}
    (wf : StateWF s) (hab : (a, b) ∈ s.oriented_conflict_edges)
    (hswap : IntermediateSolution.apply_swap fuel2 s a b = some s') :
    StateWF s' ∧ s'.inst = s.inst ∧
    s'.rel a = (s.times_after_swap a b).1 ∧
    s'.tl a = (s.times_after_swap a b).2.1 ∧
    s'.rel b = (s.times_after_swap a b).2.2.1 ∧
    s'.tl b = (s.times_after_swap a b).2.2.2 ∧
    s'.path a = s'.rel a + s'.tl a ∧
    s'.path b = s'.rel b + s'.tl b ∧
    s.cmax_after_swap a b ≤ s'.cmax ∧
    ((s'.path a = s'.cmax ∨ s'.path b = s'.cmax) →
      s.cmax_after_swap a b = s'.cmax) := by
  obtain ⟨hne_ab, ha_lt, hb_lt, hsm_ab, hpm_ba, hpm2O, hsm2O, hM2⟩ :=
    swap_arrays_wf wf hab
  obtain ⟨rel2, rtr, tail2, labT, ttr, cmax2, hrel, htail, hcmax, rfl⟩ :=
    apply_swap_eq hswap
  obtain ⟨rk, B, hrk, hrkB⟩ := wf.hrank
  obtain ⟨rkT, hrkT⟩ := wf.hrankT
  have hpm_len : s.pre_machine.length = s.inst.n_ops := wf.hpmO.1
  have hsm_len : s.succ_machine.length = s.inst.n_ops := wf.hsmO.1
  have halp : a < s.pre_machine.length := hpm_len ▸ ha_lt
  have hblp : b < s.pre_machine.length := hpm_len ▸ hb_lt
  have hals : a < s.succ_machine.length := hsm_len ▸ ha_lt
  have hbls : b < s.succ_machine.length := hsm_len ▸ hb_lt
  have hsmb_lt : ∀ x, getO s.succ_machine b = some x →
      x < s.pre_machine.length := by
    intro x hx
    rw [hpm_len]
    exact wf.hsmO.2 b x hx
  have hpma_lt : ∀ x, getO s.pre_machine a = some x →
      x < s.succ_machine.length := by
    intro x hx
    rw [hsm_len]
    exact wf.hpmO.2 a x hx
  obtain ⟨hrel2_len, hrtot, hfix2, hrrank2⟩ :=
    release_master wf.hpjO hpm2O wf.hsjO hsm2O wf.hJ hM2 hrel
  have hrkB2 : ∀ n < s.inst.n_ops, rtr.indexOf n < rtr.length := fun n hn =>
    List.indexOf_lt_length.mpr (hrtot n hn)
  obtain ⟨htail2_len, httot, htfix2, htrank2⟩ :=
    tail_master wf.hpjO hpm2O wf.hsjO hsm2O wf.hJ hM2 hrrank2 hrkB2 htail
  have hstep_ba : predOf s.pre_job
      (relinkPre s.pre_machine s.succ_machine a b) b a :=
    Or.inr (relinkPre_a hne_ab halp)
  have hchgH : ∀ n, n < s.inst.n_ops →
      getO (relinkPre s.pre_machine s.succ_machine a b) n ≠
        getO s.pre_machine n →
      reach (predOf s.pre_job (relinkPre s.pre_machine s.succ_machine a b))
        b n := by
    intro n hn hne
    by_cases hna : n = a
    · rw [hna]
      exact reach.tail reach.refl hstep_ba
    · by_cases hnb : n = b
      · rw [hnb]
        exact reach.refl
      · rw [relinkPre_other hna hnb hsmb_lt] at hne
        by_cases hsb : getO s.succ_machine b = some n
        · have hstep_an : predOf s.pre_job
              (relinkPre s.pre_machine s.succ_machine a b) a n :=
            Or.inr (by rw [relinkPre_other hna hnb hsmb_lt, if_pos hsb])
          exact reach.tail (reach.tail reach.refl hstep_ba) hstep_an
        · rw [if_neg hsb] at hne
          exact absurd rfl hne
  have hHdiff := @fix_diff_reach s.inst s.pre_job s.pre_machine
    (relinkPre s.pre_machine s.succ_machine a b) (endv s.inst)
    s.release_times rel2 (fun n => rtr.indexOf n) b (fun _ => 0)
    wf.hpjO hpm2O
    (fun u v p h => by simp only [endv]; rw [h])
    (fun u v => rfl)
    (fun n hn => by simpa using wf.hfix n hn)
    (fun n hn => by simpa using hfix2 n hn)
    hrrank2 hchgH
  have hotherH : ∀ v, v ≠ a → v ≠ b → ∀ u,
      getO (relinkPre s.pre_machine s.succ_machine a b) v = some u →
      u = a ∨ getO s.pre_machine v = some u := by
    intro v hva hvb u hu
    rw [relinkPre_other hva hvb hsmb_lt] at hu
    by_cases hsb : getO s.succ_machine b = some v
    · rw [if_pos hsb] at hu
      exact Or.inl (by simpa using hu.symm)
    · rw [if_neg hsb] at hu
      exact Or.inr hu
  have hprojH := @swap_reach_proj s.pre_job s.pre_machine
    (relinkPre s.pre_machine s.succ_machine a b) rk
    (fun n => rtr.indexOf n) b a hrk hrrank2 hotherH
  have hHcore : ∀ p, p < s.inst.n_ops →
      (reach (predOf s.pre_job (relinkPre s.pre_machine s.succ_machine a b))
          b p → False) →
      rel2.getD p 0 = s.release_times.getD p 0 := by
    intro p hp hnr
    by_contra hc
    exact hnr (hHdiff p hp hc)
  have hrk2_ba : rtr.indexOf b < rtr.indexOf a := hrrank2 b a hstep_ba
  have hUpma : ∀ p, getO s.pre_machine a = some p →
      rel2.getD p 0 = s.release_times.getD p 0 := by
    intro p hp
    refine hHcore p (wf.hpmO.2 a p hp) ?_
    intro hr
    rcases hprojH p hr with hl | hl
    · have h1 := hrrank2 p b (Or.inr (by rw [relinkPre_b hblp]; exact hp))
      simp only [] at hl h1
      omega
    · have h1 := hrk p a (Or.inr hp)
      have h2 := hrk a b (Or.inr hpm_ba)
      omega
  have hUpjb : ∀ p, getO s.pre_job b = some p →
      rel2.getD p 0 = s.release_times.getD p 0 := by
    intro p hp
    refine hHcore p (wf.hpjO.2 b p hp) ?_
    intro hr
    rcases hprojH p hr with hl | hl
    · have h1 := hrrank2 p b (Or.inl hp)
      simp only [] at hl h1
      omega
    · have h1 := hrk p b (Or.inl hp)
      omega
  have hUpja : ∀ p, getO s.pre_job a = some p →
      rel2.getD p 0 = s.release_times.getD p 0 := by
    intro p hp
    refine hHcore p (wf.hpjO.2 a p hp) ?_
    intro hr
    rcases hprojH p hr with hl | hl
    · have h1 := hrrank2 p a (Or.inl hp)
      simp only [] at hl h1
      omega
    · have h1 := hrk p a (Or.inl hp)
      have h2 := hrk a b (Or.inr hpm_ba)
      omega
  have hstepT_ab : predOf s.succ_job
      (relinkSucc s.pre_machine s.succ_machine a b) a b :=
    Or.inr (relinkSucc_b hbls)
  have hchgT : ∀ n, n < s.inst.n_ops →
      getO (relinkSucc s.pre_machine s.succ_machine a b) n ≠
        getO s.succ_machine n →
      reach (predOf s.succ_job (relinkSucc s.pre_machine s.succ_machine a b))
        a n := by
    intro n hn hne
    by_cases hnb : n = b
    · rw [hnb]
      exact reach.tail reach.refl hstepT_ab
    · by_cases hna : n = a
      · rw [hna]
        exact reach.refl
      · rw [relinkSucc_other hna hnb hpma_lt] at hne
        by_cases hq : getO s.pre_machine a = some n
        · have hstep_bn : predOf s.succ_job
              (relinkSucc s.pre_machine s.succ_machine a b) b n :=
            Or.inr (by rw [relinkSucc_other hna hnb hpma_lt, if_pos hq])
          exact reach.tail (reach.tail reach.refl hstepT_ab) hstep_bn
        · rw [if_neg hq] at hne
          exact absurd rfl hne
  have hTdiff := @fix_diff_reach s.inst s.succ_job s.succ_machine
    (relinkSucc s.pre_machine s.succ_machine a b) (fun t x => tailOf t x)
    s.tail_times tail2 (fun n => ttr.indexOf n) a s.inst.dur
    wf.hsjO hsm2O
    (fun u v p h => by simp only [tailOf]; rw [h])
    (fun u v => rfl)
    (fun n hn => wf.htfix n hn)
    (fun n hn => htfix2 n hn)
    htrank2 hchgT
  have hotherT : ∀ v, v ≠ b → v ≠ a → ∀ u,
      getO (relinkSucc s.pre_machine s.succ_machine a b) v = some u →
      u = b ∨ getO s.succ_machine v = some u := by
    intro v hvb hva u hu
    rw [relinkSucc_other hva hvb hpma_lt] at hu
    by_cases hq : getO s.pre_machine a = some v
    · rw [if_pos hq] at hu
      exact Or.inl (by simpa using hu.symm)
    · rw [if_neg hq] at hu
      exact Or.inr hu
  have hprojT := @swap_reach_proj s.succ_job s.succ_machine
    (relinkSucc s.pre_machine s.succ_machine a b) rkT
    (fun n => ttr.indexOf n) a b hrkT htrank2 hotherT
  have hTcore : ∀ p, p < s.inst.n_ops →
      (reach (predOf s.succ_job (relinkSucc s.pre_machine s.succ_machine a b))
          a p → False) →
      tail2.getD p 0 = s.tail_times.getD p 0 := by
    intro p hp hnr
    by_contra hc
    exact hnr (hTdiff p hp hc)
  have hrkT2_ab : ttr.indexOf a < ttr.indexOf b := htrank2 a b hstepT_ab
  have hrkT_ba : rkT b < rkT a := hrkT b a (Or.inr hsm_ab)
  have hUsmb : ∀ q, getO s.succ_machine b = some q →
      tail2.getD q 0 = s.tail_times.getD q 0 := by
    intro q hq
    refine hTcore q (wf.hsmO.2 b q hq) ?_
    intro hr
    rcases hprojT q hr with hl | hl
    · have h1 := htrank2 q a
        (Or.inr (by rw [relinkSucc_a hne_ab hals]; exact hq))
      simp only [] at hl h1
      omega
    · have h1 := hrkT q b (Or.inr hq)
      omega
  have hUsja : ∀ q, getO s.succ_job a = some q →
      tail2.getD q 0 = s.tail_times.getD q 0 := by
    intro q hq
    refine hTcore q (wf.hsjO.2 a q hq) ?_
    intro hr
    rcases hprojT q hr with hl | hl
    · have h1 := htrank2 q a (Or.inl hq)
      simp only [] at hl h1
      omega
    · have h1 := hrkT q a (Or.inl hq)
      omega
  have hUsjb : ∀ q, getO s.succ_job b = some q →
      tail2.getD q 0 = s.tail_times.getD q 0 := by
    intro q hq
    refine hTcore q (wf.hsjO.2 b q hq) ?_
    intro hr
    rcases hprojT q hr with hl | hl
    · have h1 := htrank2 q b (Or.inl hq)
      simp only [] at hl h1
      omega
    · have h1 := hrkT q b (Or.inl hq)
      omega
  have harm_pma : endv s.inst rel2 (getO s.pre_machine a) =
      (match getO s.pre_machine a with
        | some p => s.rel p + s.inst.dur p
        | none => 0) := by
    cases hp : getO s.pre_machine a with
    | none => rfl
    | some p =>
      show rel2.getD p 0 + s.inst.dur p = s.rel p + s.inst.dur p
      rw [hUpma p hp]
      rfl
  have harm_pjb : endv s.inst rel2 (getO s.pre_job b) =
      (match getO s.pre_job b with
        | some p => s.rel p + s.inst.dur p
        | none => 0) := by
    cases hp : getO s.pre_job b with
    | none => rfl
    | some p =>
      show rel2.getD p 0 + s.inst.dur p = s.rel p + s.inst.dur p
      rw [hUpjb p hp]
      rfl
  have harm_pja : endv s.inst rel2 (getO s.pre_job a) =
      (match getO s.pre_job a with
        | some p => s.rel p + s.inst.dur p
        | none => 0) := by
    cases hp : getO s.pre_job a with
    | none => rfl
    | some p =>
      show rel2.getD p 0 + s.inst.dur p = s.rel p + s.inst.dur p
      rw [hUpja p hp]
      rfl
  have harm_smb : tailOf tail2 (getO s.succ_machine b) =
      (match getO s.succ_machine b with
        | some p => s.tl p
        | none => 0) := by
    cases hq : getO s.succ_machine b with
    | none => rfl
    | some q =>
      show tail2.getD q 0 = s.tl q
      rw [hUsmb q hq]
      rfl
  have harm_sja : tailOf tail2 (getO s.succ_job a) =
      (match getO s.succ_job a with
        | some p => s.tl p
        | none => 0) := by
    cases hq : getO s.succ_job a with
    | none => rfl
    | some q =>
      show tail2.getD q 0 = s.tl q
      rw [hUsja q hq]
      rfl
  have harm_sjb : tailOf tail2 (getO s.succ_job b) =
      (match getO s.succ_job b with
        | some p => s.tl p
        | none => 0) := by
    cases hq : getO s.succ_job b with
    | none => rfl
    | some q =>
      show tail2.getD q 0 = s.tl q
      rw [hUsjb q hq]
      rfl
  have hrelb : rel2.getD b 0 = (s.times_after_swap a b).2.2.1 := by
    have h := hfix2 b hb_lt
    rw [relinkPre_b hblp] at h
    rw [h, harm_pjb, harm_pma]
    simp only [IntermediateSolution.times_after_swap]
    rw [Nat.max_comm]
  have hrela : rel2.getD a 0 = (s.times_after_swap a b).1 := by
    have h := hfix2 a ha_lt
    rw [relinkPre_a hne_ab halp] at h
    have hb2 : endv s.inst rel2 (some b) =
        rel2.getD b 0 + s.inst.dur b := rfl
    rw [h, harm_pja, hb2, hrelb]
    simp only [IntermediateSolution.times_after_swap]
    rw [Nat.max_comm]
  have htla : tail2.getD a 0 = (s.times_after_swap a b).2.1 := by
    have h := htfix2 a ha_lt
    rw [relinkSucc_a hne_ab hals] at h
    rw [h, harm_sja, harm_smb]
    simp only [IntermediateSolution.times_after_swap]
    rw [Nat.max_comm]
  have htlb : tail2.getD b 0 = (s.times_after_swap a b).2.2.2 := by
    have h := htfix2 b hb_lt
    rw [relinkSucc_b hbls] at h
    have ha2 : tailOf tail2 (some a) = tail2.getD a 0 := rfl
    rw [h, harm_sjb, ha2, htla]
    simp only [IntermediateSolution.times_after_swap]
    rw [Nat.max_comm]
  have hpa : (List.zipWith (· + ·) rel2 tail2).getD a 0 =
      rel2.getD a 0 + tail2.getD a 0 :=
    getD_zipWith_add (hrel2_len ▸ ha_lt) (htail2_len ▸ ha_lt)
  have hpb : (List.zipWith (· + ·) rel2 tail2).getD b 0 =
      rel2.getD b 0 + tail2.getD b 0 :=
    getD_zipWith_add (hrel2_len ▸ hb_lt) (htail2_len ▸ hb_lt)
  have hest : s.cmax_after_swap a b =
      max ((s.times_after_swap a b).2.2.1 + (s.times_after_swap a b).2.2.2)
        ((s.times_after_swap a b).1 + (s.times_after_swap a b).2.1) := by
    rcases hts : s.times_after_swap a b with ⟨aR, aT, bR, bT⟩
    simp only [IntermediateSolution.cmax_after_swap, hts]
  have hmemle : ∀ i, i < s.inst.n_ops →
      (List.zipWith (· + ·) rel2 tail2).getD i 0 ≤ cmax2 := by
    intro i hi
    have hlen2 : i < (List.zipWith (· + ·) rel2 tail2).length := by
      rw [List.length_zipWith, hrel2_len, htail2_len]
      exact lt_min hi hi
    refine (nat_max?_spec hcmax).2 _ ?_
    rw [List.getD_eq_getElem _ _ hlen2]
    exact List.getElem_mem _
  have hestle : s.cmax_after_swap a b ≤ cmax2 := by
    rw [hest]
    refine max_le ?_ ?_
    · rw [← hrelb, ← htlb, ← hpb]
      exact hmemle b hb_lt
    · rw [← hrela, ← htla, ← hpa]
      exact hmemle a ha_lt
  refine ⟨⟨wf.hpjO, wf.hsjO, hpm2O, hsm2O, wf.hJ, hM2, hrel2_len,
    htail2_len, hfix2, htfix2,
    ⟨fun n => rtr.indexOf n, rtr.length, hrrank2, hrkB2⟩,
    ⟨fun n => ttr.indexOf n, htrank2⟩, swap_edge_iff wf hab, rfl, hcmax⟩,
    rfl, hrela, htla, hrelb, htlb, hpa, hpb, hestle, ?_⟩
  intro hcrit
  refine Nat.le_antisymm hestle ?_
  rcases hcrit with hca | hcb
  · calc cmax2 = rel2.getD a 0 + tail2.getD a 0 := by
          rw [← hpa]; exact hca.symm
      _ = (s.times_after_swap a b).1 + (s.times_after_swap a b).2.1 := by
          rw [hrela, htla]
      _ ≤ s.cmax_after_swap a b := by
          rw [hest]; exact le_max_right _ _
  · calc cmax2 = rel2.getD b 0 + tail2.getD b 0 := by
          rw [← hpb]; exact hcb.symm
      _ = (s.times_after_swap a b).2.2.1 + (s.times_after_swap a b).2.2.2 := by
          rw [hrelb, htlb]
      _ ≤ s.cmax_after_swap a b := by
          rw [hest]; exact le_max_left _ _

/-- Claim C3: for every constructed state and every oriented conflict
edge `(a, b)` whose reversal leaves the graph acyclic (a successful
`apply_swap` — its recomputation panics exactly on a cyclic result),
`cmax_after_swap(a, b)` equals the value
`max(a_new_release + a_new_tail, b_new_release + b_new_tail)` of the
spec's five formulas over the pre-swap release and tail times, is a
lower bound on `apply_swap(a, b).cmax`, and equals that `cmax` whenever
some critical path of the post-swap state passes through `a` or `b`. -/
theorem cmax_after_swap_exact {fuel fuel2 : Nat} {inst : Instance}
    {edges : List Edge} {s s' : IntermediateSolution} {a b : Nat}
    (hnew : IntermediateSolution.new fuel inst edges = some s)
    (hab : (a, b) ∈ s.oriented_conflict_edges)
    (hswap : IntermediateSolution.apply_swap fuel2 s a b = some s') :
    s.cmax_after_swap a b = spec_cmax_after_swap s a b ∧
    s.cmax_after_swap a b ≤ s'.cmax ∧
    ((s'.path a = s'.cmax ∨ s'.path b = s'.cmax) →
      s.cmax_after_swap a b = s'.cmax) := by
  obtain ⟨wf, _, _⟩ := new_StateWF hnew
  obtain ⟨_, _, _, _, _, _, _, _, hle, hexact⟩ := swap_exact wf hab hswap
  refine ⟨?_, hle, hexact⟩
  rcases hts : s.times_after_swap a b with ⟨aR, aT, bR, bT⟩
  have hts2 : spec_new_times s a b = (aR, aT, bR, bT) := by
    rw [← hts]
    rfl
  simp only [IntermediateSolution.cmax_after_swap, spec_cmax_after_swap,
    hts, hts2]
  rw [Nat.max_comm]

/-- Instantiation of the estimator-exactness theorem on the
three-job single-machine chain `0 → 1 → 2` of unit durations, swapping
the edge `(1, 2)`. -/
theorem cmax_after_swap_exact_witness :
    IntermediateSolution.cmax_after_swap
        ⟨⟨3, 1, [1, 1, 1], [0, 0, 0]⟩, [(0, 1), (1, 2)], [],
          [none, none, none], [none, none, none], [none, some 0, some 1],
          [some 1, some 2, none], [0, 1, 2], [3, 2, 1], [3, 3, 3], 3⟩ 1 2 =
      spec_cmax_after_swap
        ⟨⟨3, 1, [1, 1, 1], [0, 0, 0]⟩, [(0, 1), (1, 2)], [],
          [none, none, none], [none, none, none], [none, some 0, some 1],
          [some 1, some 2, none], [0, 1, 2], [3, 2, 1], [3, 3, 3], 3⟩ 1 2 ∧
    IntermediateSolution.cmax_after_swap
        ⟨⟨3, 1, [1, 1, 1], [0, 0, 0]⟩, [(0, 1), (1, 2)], [],
          [none, none, none], [none, none, none], [none, some 0, some 1],
          [some 1, some 2, none], [0, 1, 2], [3, 2, 1], [3, 3, 3], 3⟩ 1 2 ≤
      IntermediateSolution.cmax
        ⟨⟨3, 1, [1, 1, 1], [0, 0, 0]⟩, [(0, 2), (2, 1)], [],
          [none, none, none], [none, none, none], [none, some 2, some 0],
          [some 2, none, some 1], [0, 2, 1], [3, 1, 2], [3, 3, 3], 3⟩ ∧
    ((IntermediateSolution.path
          ⟨⟨3, 1, [1, 1, 1], [0, 0, 0]⟩, [(0, 2), (2, 1)], [],
            [none, none, none], [none, none, none], [none, some 2, some 0],
            [some 2, none, some 1], [0, 2, 1], [3, 1, 2], [3, 3, 3], 3⟩ 1 =
        IntermediateSolution.cmax
          ⟨⟨3, 1, [1, 1, 1], [0, 0, 0]⟩, [(0, 2), (2, 1)], [],
            [none, none, none], [none, none, none], [none, some 2, some 0],
            [some 2, none, some 1], [0, 2, 1], [3, 1, 2], [3, 3, 3], 3⟩ ∨
      IntermediateSolution.path
          ⟨⟨3, 1, [1, 1, 1], [0, 0, 0]⟩, [(0, 2), (2, 1)], [],
            [none, none, none], [none, none, none], [none, some 2, some 0],
            [some 2, none, some 1], [0, 2, 1], [3, 1, 2], [3, 3, 3], 3⟩ 2 =
        IntermediateSolution.cmax
          ⟨⟨3, 1, [1, 1, 1], [0, 0, 0]⟩, [(0, 2), (2, 1)], [],
            [none, none, none], [none, none, none], [none, some 2, some 0],
            [some 2, none, some 1], [0, 2, 1], [3, 1, 2], [3, 3, 3], 3⟩) →
      IntermediateSolution.cmax_after_swap
          ⟨⟨3, 1, [1, 1, 1], [0, 0, 0]⟩, [(0, 1), (1, 2)], [],
            [none, none, none], [none, none, none], [none, some 0, some 1],
            [some 1, some 2, none], [0, 1, 2], [3, 2, 1], [3, 3, 3], 3⟩ 1 2 =
        IntermediateSolution.cmax
          ⟨⟨3, 1, [1, 1, 1], [0, 0, 0]⟩, [(0, 2), (2, 1)], [],
            [none, none, none], [none, none, none], [none, some 2, some 0],
            [some 2, none, some 1], [0, 2, 1], [3, 1, 2], [3, 3, 3], 3⟩) :=
  @cmax_after_swap_exact 16 16 ⟨3, 1, [1, 1, 1], [0, 0, 0]⟩
    [(0, 1), (1, 2)]
    ⟨⟨3, 1, [1, 1, 1], [0, 0, 0]⟩, [(0, 1), (1, 2)], [],
      [none, none, none], [none, none, none], [none, some 0, some 1],
      [some 1, some 2, none], [0, 1, 2], [3, 2, 1], [3, 3, 3], 3⟩
    ⟨⟨3, 1, [1, 1, 1], [0, 0, 0]⟩, [(0, 2), (2, 1)], [],
      [none, none, none], [none, none, none], [none, some 2, some 0],
      [some 2, none, some 1], [0, 2, 1], [3, 1, 2], [3, 3, 3], 3⟩
    1 2 (by decide) (by decide) (by decide)

theorem rel_ge_pred {inst : Instance} {pj pm : List (Option Nat)}
    {rel : List Nat} (hfix : relFix inst pj pm rel) {p n : Nat}
    (hn : n < inst.n_ops) (hp : predOf pj pm p n) :
    rel.getD p 0 + inst.dur p ≤ rel.getD n 0 := by
  rcases hp with hp | hp
  · rw [hfix n hn, hp]
    exact le_max_left _ _
  · rw [hfix n hn, hp]
    exact le_max_right _ _

theorem tl_ge_succ {inst : Instance} {sj sm : List (Option Nat)}
    {tail : List Nat} (htfix : tailFix inst sj sm tail) {u v : Nat}
    (hu : u < inst.n_ops)
    (hs : getO sj u = some v ∨ getO sm u = some v) :
    tail.getD v 0 + inst.dur u ≤ tail.getD u 0 := by
  rcases hs with hs | hs
  · rw [htfix u hu, hs]
    exact Nat.add_le_add_right (le_max_left _ _) _
  · rw [htfix u hu, hs]
    exact Nat.add_le_add_right (le_max_right _ _) _

/-- Soundness of heads: the weight of any path into `n` is at most the
head of `n`. -/
theorem head_sound {inst : Instance} {pj pm : List (Option Nat)}
    {rel : List Nat} (hfix : relFix inst pj pm rel) :
    ∀ (l : List Nat) (n : Nat),
      List.Chain' (predOf pj pm) (l ++ [n]) → n < inst.n_ops →
      (∀ x ∈ l, x < inst.n_ops) → wt inst l ≤ rel.getD n 0 := by
  intro l
  induction l using List.reverseRecOn with
  | nil =>
    intro n _ _ _
    exact Nat.zero_le _
  | append_singleton l p ih =>
    intro n hchain hn hmem
    have hplt : p < inst.n_ops := hmem p (by simp)
    rw [List.chain'_append] at hchain
    obtain ⟨hc1, _, hlink⟩ := hchain
    have hstep : predOf pj pm p n := by
      refine hlink p ?_ n rfl
      rw [List.getLast?_concat]
      rfl
    have hwt : wt inst (l ++ [p]) = wt inst l + inst.dur p := by
      unfold wt
      rw [List.map_append, List.sum_append]
      simp
    rw [hwt]
    have h1 := ih p hc1 hplt fun x hx => hmem x (List.mem_append_left _ hx)
    have h2 := rel_ge_pred hfix hn hstep
    omega

/-- Soundness of tails: the weight of any path out of `u` (inclusive)
is at most the tail of `u`. -/
theorem tail_sound {inst : Instance} {pj pm sj sm : List (Option Nat)}
    {tail : List Nat} (htfix : tailFix inst sj sm tail)
    (hJ : InversePair pj sj) (hM : InversePair pm sm) :
    ∀ (l : List Nat) (u : Nat),
      List.Chain' (predOf pj pm) (u :: l) → u < inst.n_ops →
      (∀ x ∈ l, x < inst.n_ops) → wt inst (u :: l) ≤ tail.getD u 0 := by
  intro l
  induction l with
  | nil =>
    intro u _ hu _
    have h := htfix u hu
    unfold wt
    simp only [List.map_cons, List.map_nil, List.sum_cons, List.sum_nil]
    omega
  | cons v l ih =>
    intro u hchain hu hmem
    have hvlt : v < inst.n_ops := hmem v (List.mem_cons_self _ _)
    have hstep : predOf pj pm u v := (List.chain'_cons.mp hchain).1
    have hchain2 : List.Chain' (predOf pj pm) (v :: l) :=
      (List.chain'_cons.mp hchain).2
    have hsucc : getO sj u = some v ∨ getO sm u = some v := by
      rcases hstep with h | h
      · exact Or.inl ((hJ u v).mpr h)
      · exact Or.inr ((hM u v).mpr h)
    have hih := ih v hchain2 hvlt fun x hx => hmem x (List.mem_cons_of_mem _ hx)
    have hge := tl_ge_succ htfix hu hsucc
    unfold wt at hih ⊢
    simp only [List.map_cons, List.sum_cons] at hih ⊢
    omega

/-- Realizability of heads: the head of `n` is the weight of some path
into `n`. -/
theorem head_complete {inst : Instance} {pj pm : List (Option Nat)}
    {rel : List Nat} {rk : Nat → Nat}
    (hpjO : ArrOk inst pj) (hpmO : ArrOk inst pm)
    (hfix : relFix inst pj pm rel) (hrk : RankedBy pj pm rk) :
    ∀ n, n < inst.n_ops → ∃ l, List.Chain' (predOf pj pm) (l ++ [n]) ∧
      (∀ x ∈ l, x < inst.n_ops) ∧ wt inst l = rel.getD n 0 := by
  have main : ∀ k n, rk n = k → n < inst.n_ops →
      ∃ l, List.Chain' (predOf pj pm) (l ++ [n]) ∧
        (∀ x ∈ l, x < inst.n_ops) ∧ wt inst l = rel.getD n 0 := by
    intro k
    induction k using Nat.strong_induction_on with
    | _ k ihk =>
      intro n hrkn hn
      by_cases h0 : rel.getD n 0 = 0
      · refine ⟨[], List.chain'_singleton n, by simp, ?_⟩
        rw [h0]
        rfl
      · have hmax := hfix n hn
        have hext : ∃ p, predOf pj pm p n ∧ p < inst.n_ops ∧
            rel.getD n 0 = rel.getD p 0 + inst.dur p := by
          rcases max_choice (endv inst rel (getO pj n))
              (endv inst rel (getO pm n)) with hc | hc
          · rw [hc] at hmax
            cases hp : getO pj n with
            | none =>
              rw [hp] at hmax
              exact absurd hmax h0
            | some p =>
              rw [hp] at hmax
              exact ⟨p, Or.inl hp, hpjO.2 n p hp, hmax⟩
          · rw [hc] at hmax
            cases hp : getO pm n with
            | none =>
              rw [hp] at hmax
              exact absurd hmax h0
            | some p =>
              rw [hp] at hmax
              exact ⟨p, Or.inr hp, hpmO.2 n p hp, hmax⟩
        obtain ⟨p, hstep, hplt, hval⟩ := hext
        obtain ⟨l, hch, hlt, hwl⟩ :=
          ihk (rk p) (hrkn ▸ hrk p n hstep) p rfl hplt
        refine ⟨l ++ [p], ?_, ?_, ?_⟩
        · rw [List.chain'_append]
          refine ⟨hch, List.chain'_singleton n, ?_⟩
          intro x hx y hy
          have hxp : p = x := by
            rw [List.getLast?_concat] at hx
            simpa using hx
          have hyn : n = y := by simpa using hy
          rw [← hxp, ← hyn]
          exact hstep
        · intro x hx
          rcases List.mem_append.mp hx with h1 | h1
          · exact hlt x h1
          · rw [List.mem_singleton] at h1
            rw [h1]
            exact hplt
        · unfold wt at hwl ⊢
          rw [List.map_append, List.sum_append]
          simp only [List.map_cons, List.map_nil, List.sum_cons,
            List.sum_nil]
          omega
  intro n hn
  exact main (rk n) n rfl hn

/-- Realizability of tails: the tail of `n` is the weight of some path
out of `n` (inclusive). -/
theorem tail_complete {inst : Instance} {pj pm sj sm : List (Option Nat)}
    {tail : List Nat} {rkT : Nat → Nat}
    (hsjO : ArrOk inst sj) (hsmO : ArrOk inst sm)
    (htfix : tailFix inst sj sm tail)
    (hJ : InversePair pj sj) (hM : InversePair pm sm)
    (hrkT : RankedBy sj sm rkT) :
    ∀ n, n < inst.n_ops → ∃ l, List.Chain' (predOf pj pm) (n :: l) ∧
      (∀ x ∈ l, x < inst.n_ops) ∧ wt inst (n :: l) = tail.getD n 0 := by
  have main : ∀ k n, rkT n = k → n < inst.n_ops →
      ∃ l, List.Chain' (predOf pj pm) (n :: l) ∧
        (∀ x ∈ l, x < inst.n_ops) ∧ wt inst (n :: l) = tail.getD n 0 := by
    intro k
    induction k using Nat.strong_induction_on with
    | _ k ihk =>
      intro n hrkn hn
      have hmax := htfix n hn
      by_cases h0 : max (tailOf tail (getO sj n)) (tailOf tail (getO sm n)) = 0
      · refine ⟨[], List.chain'_singleton n, by simp, ?_⟩
        rw [hmax, h0]
        unfold wt
        simp
      · have hext : ∃ v, predOf sj sm v n ∧ predOf pj pm n v ∧
            v < inst.n_ops ∧
            tail.getD n 0 = tail.getD v 0 + inst.dur n := by
          rcases max_choice (tailOf tail (getO sj n))
              (tailOf tail (getO sm n)) with hc | hc
          · rw [hc] at hmax
            cases hs : getO sj n with
            | none =>
              rw [hc, hs] at h0
              exact absurd rfl h0
            | some v =>
              rw [hs] at hmax
              exact ⟨v, Or.inl hs, Or.inl ((hJ n v).mp hs),
                hsjO.2 n v hs, hmax⟩
          · rw [hc] at hmax
            cases hs : getO sm n with
            | none =>
              rw [hc, hs] at h0
              exact absurd rfl h0
            | some v =>
              rw [hs] at hmax
              exact ⟨v, Or.inr hs, Or.inr ((hM n v).mp hs),
                hsmO.2 n v hs, hmax⟩
        obtain ⟨v, hstepT, hstep, hvlt, hval⟩ := hext
        obtain ⟨l, hch, hlt, hwl⟩ :=
          ihk (rkT v) (hrkn ▸ hrkT v n hstepT) v rfl hvlt
        refine ⟨v :: l, List.chain'_cons.mpr ⟨hstep, hch⟩, ?_, ?_⟩
        · intro x hx
          rcases List.mem_cons.mp hx with rfl | h1
          · exact hvlt
          · exact hlt x h1
        · unfold wt at hwl ⊢
          simp only [List.map_cons, List.sum_cons] at hwl ⊢
          omega
  intro n hn
  exact main (rkT n) n rfl hn

theorem chain'_imp_mem {R S : Nat → Nat → Prop} :
    ∀ (l : List Nat), List.Chain' R l →
      (∀ u v, u ∈ l → v ∈ l → R u v → S u v) → List.Chain' S l := by
  intro l
  induction l with
  | nil => intro _ _; exact List.chain'_nil
  | cons x xs ih =>
    intro hch himp
    cases xs with
    | nil => exact List.chain'_singleton x
    | cons y ys =>
      rw [List.chain'_cons] at hch ⊢
      refine ⟨himp x y (by simp) (by simp) hch.1, ?_⟩
      exact ih hch.2 fun u v hu hv hr =>
        himp u v (List.mem_cons_of_mem _ hu) (List.mem_cons_of_mem _ hv) hr

/-- The post-swap `cmax` never exceeds the larger of the estimate and
the pre-swap `cmax`: every longest path of the new graph either passes
through `a` or `b` (bounded by the estimate) or uses only unchanged
arcs (bounded by the old `cmax`). -/
theorem swap_cmax_le {fuel2 : Nat} {s s' : IntermediateSolution} {a b : Nat}
    (wf : StateWF s) (hab : (a, b) ∈ s.oriented_conflict_edges)
    (hswap : IntermediateSolution.apply_swap fuel2 s a b = some s') :
    s'.cmax ≤ max (s.cmax_after_swap a b) s.cmax := by
  obtain ⟨hne_ab, ha_lt, hb_lt, hsm_ab, hpm_ba, hpm2O, hsm2O, hM2⟩ :=
    swap_arrays_wf wf hab
  obtain ⟨wf2, hinst2, hra, hta, hrb, htb, hpa, hpb, hestle, _⟩ :=
    swap_exact wf hab hswap
  obtain ⟨rel2, rtr, tail2, labT, ttr, cmax2, hrel, htail, hcmax, rfl⟩ :=
    apply_swap_eq hswap
  have hsmb_lt : ∀ x, getO s.succ_machine b = some x →
      x < s.pre_machine.length := by
    intro x hx
    rw [wf.hpmO.1]
    exact wf.hsmO.2 b x hx
  have hrel2_len : rel2.length = s.inst.n_ops := wf2.rel_len
  have htail2_len : tail2.length = s.inst.n_ops := wf2.tail_len
  have hfix2 : relFix s.inst s.pre_job
      (relinkPre s.pre_machine s.succ_machine a b) rel2 := wf2.hfix
  have htfix2 : tailFix s.inst s.succ_job
      (relinkSucc s.pre_machine s.succ_machine a b) tail2 := wf2.htfix
  have hJ2 : InversePair s.pre_job s.succ_job := wf2.hJ
  have hKa : rel2.getD a 0 + tail2.getD a 0 ≤
      max (s.cmax_after_swap a b) s.cmax := by
    refine le_trans ?_ (le_max_left _ _)
    have h2 : rel2.getD a 0 = (s.times_after_swap a b).1 := hra
    have h3 : tail2.getD a 0 = (s.times_after_swap a b).2.1 := hta
    rcases hts : s.times_after_swap a b with ⟨aR, aT, bR, bT⟩
    rw [hts] at h2 h3
    rw [h2, h3]
    simp only [IntermediateSolution.cmax_after_swap, hts]
    exact le_max_right _ _
  have hKb : rel2.getD b 0 + tail2.getD b 0 ≤
      max (s.cmax_after_swap a b) s.cmax := by
    refine le_trans ?_ (le_max_left _ _)
    have h2 : rel2.getD b 0 = (s.times_after_swap a b).2.2.1 := hrb
    have h3 : tail2.getD b 0 = (s.times_after_swap a b).2.2.2 := htb
    rcases hts : s.times_after_swap a b with ⟨aR, aT, bR, bT⟩
    rw [hts] at h2 h3
    rw [h2, h3]
    simp only [IntermediateSolution.cmax_after_swap, hts]
    exact le_max_left _ _
  have hKold : ∀ n, n < s.inst.n_ops →
      s.release_times.getD n 0 + s.tail_times.getD n 0 ≤
        max (s.cmax_after_swap a b) s.cmax := by
    intro n hn
    refine le_trans ?_ (le_max_right _ _)
    have hpn : s.path_times.getD n 0 =
        s.release_times.getD n 0 + s.tail_times.getD n 0 := by
      rw [wf.path_eq]
      exact getD_zipWith_add (wf.rel_len ▸ hn) (wf.tail_len ▸ hn)
    rw [← hpn]
    have hlenp : n < s.path_times.length := by
      rw [wf.path_eq, List.length_zipWith, wf.rel_len, wf.tail_len]
      exact lt_min hn hn
    refine (nat_max?_spec wf.cmax_eq).2 _ ?_
    rw [List.getD_eq_getElem _ _ hlenp]
    exact List.getElem_mem _
  have hnode : ∀ n, n < s.inst.n_ops →
      rel2.getD n 0 + tail2.getD n 0 ≤
        max (s.cmax_after_swap a b) s.cmax := by
    intro n hn
    obtain ⟨rkn, Bn, hrkn, _⟩ := wf2.hrank
    obtain ⟨rkTn, hrkTn⟩ := wf2.hrankT
    obtain ⟨lb, hchb, hltb, hwtb⟩ :=
      head_complete wf2.hpjO wf2.hpmO wf2.hfix hrkn n hn
    obtain ⟨lf, hchf, hltf, hwtf⟩ :=
      tail_complete wf2.hsjO wf2.hsmO wf2.htfix wf2.hJ wf2.hM hrkTn n hn
    have hchb2 : List.Chain' (predOf s.pre_job
        (relinkPre s.pre_machine s.succ_machine a b)) (lb ++ [n]) := hchb
    have hchf2 : List.Chain' (predOf s.pre_job
        (relinkPre s.pre_machine s.succ_machine a b)) (n :: lf) := hchf
    have hwtb2 : wt s.inst lb = rel2.getD n 0 := hwtb
    have hwtf2 : wt s.inst (n :: lf) = tail2.getD n 0 := hwtf
    have hcomb : List.Chain' (predOf s.pre_job
        (relinkPre s.pre_machine s.succ_machine a b)) (lb ++ n :: lf) := by
      rw [List.chain'_append]
      rw [List.chain'_append] at hchb2
      refine ⟨hchb2.1, hchf2, ?_⟩
      intro x hx y hy
      have hyn : n = y := by simpa using hy
      rw [← hyn]
      exact hchb2.2.2 x hx n rfl
    have hwcomb : wt s.inst (lb ++ n :: lf) =
        rel2.getD n 0 + tail2.getD n 0 := by
      unfold wt at hwtb2 hwtf2 ⊢
      rw [List.map_append, List.sum_append, hwtb2, hwtf2]
    have hallL : ∀ x ∈ lb ++ n :: lf, x < s.inst.n_ops := by
      intro x hx
      rcases List.mem_append.mp hx with h1 | h1
      · exact hltb x h1
      · rcases List.mem_cons.mp h1 with rfl | h2
        · exact hn
        · exact hltf x h2
    have hhit : ∀ c, c < s.inst.n_ops → c ∈ lb ++ n :: lf →
        rel2.getD n 0 + tail2.getD n 0 ≤
          rel2.getD c 0 + tail2.getD c 0 := by
      intro c hclt hm
      obtain ⟨l1, l2, hsplit⟩ := List.append_of_mem hm
      rw [← hwcomb, hsplit]
      have hall2 : ∀ x ∈ l1 ++ c :: l2, x < s.inst.n_ops := by
        rw [← hsplit]
        exact hallL
      have hch : List.Chain' (predOf s.pre_job
          (relinkPre s.pre_machine s.succ_machine a b)) (l1 ++ c :: l2) :=
        hsplit ▸ hcomb
      rw [List.chain'_append] at hch
      obtain ⟨hch1, hch2, hlink⟩ := hch
      have hch1c : List.Chain' (predOf s.pre_job
          (relinkPre s.pre_machine s.succ_machine a b)) (l1 ++ [c]) := by
        rw [List.chain'_append]
        refine ⟨hch1, List.chain'_singleton c, ?_⟩
        intro x hx y hy
        have hyc : c = y := by simpa using hy
        rw [← hyc]
        exact hlink x hx c rfl
      have hwsplit : wt s.inst (l1 ++ c :: l2) =
          wt s.inst l1 + wt s.inst (c :: l2) := by
        unfold wt
        rw [List.map_append, List.sum_append]
      rw [hwsplit]
      have hb1 : wt s.inst l1 ≤ rel2.getD c 0 :=
        head_sound hfix2 l1 c hch1c hclt fun x hx =>
          hall2 x (List.mem_append_left _ hx)
      have hb2 : wt s.inst (c :: l2) ≤ tail2.getD c 0 :=
        tail_sound htfix2 hJ2 hM2 l2 c hch2 hclt fun x hx =>
          hall2 x (List.mem_append_right _ (List.mem_cons_of_mem _ hx))
      omega
    rcases Classical.em (a ∈ lb ++ n :: lf ∨ b ∈ lb ++ n :: lf) with hm | hm
    · rcases hm with hm | hm
      · exact le_trans (hhit a ha_lt hm) hKa
      · exact le_trans (hhit b hb_lt hm) hKb
    · push_neg at hm
      obtain ⟨hnotA, hnotB⟩ := hm
      have hold : List.Chain' (predOf s.pre_job s.pre_machine)
          (lb ++ n :: lf) := by
        refine chain'_imp_mem _ hcomb ?_
        intro u v hu hv hr
        rcases hr with h | h
        · exact Or.inl h
        · have hva : v ≠ a := fun hc => hnotA (hc ▸ hv)
          have hvb : v ≠ b := fun hc => hnotB (hc ▸ hv)
          have hua : u ≠ a := fun hc => hnotA (hc ▸ hu)
          rw [relinkPre_other hva hvb hsmb_lt] at h
          by_cases hsb : getO s.succ_machine b = some v
          · rw [if_pos hsb] at h
            have h2 : a = u := by simpa using h
            exact absurd h2.symm hua
          · rw [if_neg hsb] at h
            exact Or.inr h
      rcases List.eq_nil_or_concat (lb ++ n :: lf) with hnil | ⟨L3, m, hLm⟩
      · exact absurd hnil (by simp)
      · rw [List.concat_eq_append] at hLm
        have hch3 : List.Chain' (predOf s.pre_job s.pre_machine)
            (L3 ++ [m]) := hLm ▸ hold
        have hmlt : m < s.inst.n_ops := by
          refine hallL m ?_
          rw [hLm]
          simp
        have hwL : wt s.inst L3 ≤ s.release_times.getD m 0 :=
          head_sound wf.hfix L3 m hch3 hmlt fun x hx => by
            refine hallL x ?_
            rw [hLm]
            exact List.mem_append_left _ hx
        have hdm : s.inst.dur m ≤ s.tail_times.getD m 0 := by
          have h := wf.htfix m hmlt
          omega
        rw [← hwcomb, hLm]
        have hwm : wt s.inst (L3 ++ [m]) = wt s.inst L3 + s.inst.dur m := by
          unfold wt
          rw [List.map_append, List.sum_append]
          simp
        rw [hwm]
        have hKm := hKold m hmlt
        omega
  obtain ⟨hcm_mem, _⟩ := nat_max?_spec hcmax
  obtain ⟨i, hi, hieq⟩ := List.mem_iff_getElem.mp hcm_mem
  have hilt : i < s.inst.n_ops := by
    rw [List.length_zipWith, hrel2_len, htail2_len] at hi
    omega
  show cmax2 ≤ max (s.cmax_after_swap a b) s.cmax
  have h2 : (List.zipWith (· + ·) rel2 tail2).getD i 0 =
      rel2.getD i 0 + tail2.getD i 0 :=
    getD_zipWith_add (hrel2_len ▸ hilt) (htail2_len ▸ hilt)
  have h3 : (List.zipWith (· + ·) rel2 tail2).getD i 0 = cmax2 := by
    rw [List.getD_eq_getElem _ _ hi]
    exact hieq
  rw [← h3, h2]
  exact hnode i hilt

theorem option_filter_mem {α : Type} {x : Option α} {p : α → Bool} {y : α}
    (h : x.filter p = some y) : x = some y ∧ p y = true := by
  cases x with
  | none => simp [Option.filter] at h
  | some v =>
    simp only [Option.filter] at h
    by_cases hp : p v
    · rw [if_pos hp] at h
      obtain rfl : v = y := by simpa using h
      exact ⟨rfl, hp⟩
    · rw [if_neg hp] at h
      exact absurd h (by simp)

theorem find_move_go_mem {sa : Option EvaluatedMove → EvaluatedMove → Bool}
    {method : SearchMethod} :
    ∀ (moves : List EvaluatedMove) (best : Option EvaluatedMove)
      (m : EvaluatedMove),
      find_move_go sa method moves best = some m →
      best = some m ∨ m ∈ moves := by
  intro moves
  induction moves with
  | nil =>
    intro best m h
    exact Or.inl h
  | cons x xs ih =>
    intro best m h
    simp only [find_move_go] at h
    by_cases hacc : sa best x
    · rw [if_pos hacc] at h
      cases method with
      | First =>
        obtain rfl : x = m := by simpa using h
        exact Or.inr (List.mem_cons_self _ _)
      | Exhaustive =>
        rcases ih (some x) m h with h1 | h1
        · obtain rfl : x = m := by simpa using h1
          exact Or.inr (List.mem_cons_self _ _)
        · exact Or.inr (List.mem_cons_of_mem _ h1)
    · rw [if_neg hacc] at h
      rcases ih best m h with h1 | h1
      · exact Or.inl h1
      · exact Or.inr (List.mem_cons_of_mem _ h1)

theorem generate_moves_mem {fuel : Nat} {s : IntermediateSolution}
    {moves : List EvaluatedMove} (h : generate_moves fuel s = some moves) :
    ∀ m ∈ moves, m.swap_move ∈ s.oriented_conflict_edges ∧
      m.cmax = s.cmax_after_swap m.swap_move.1 m.swap_move.2 := by
  simp only [generate_moves] at h
  split at h
  case h_1 => exact absurd h (by simp)
  case h_2 arcs harcs =>
    obtain rfl : moves = _ := by simpa using h.symm
    intro m hm
    obtain ⟨e, he, rfl⟩ := List.mem_map.mp hm
    have hf := List.of_mem_filter he
    simp only [Bool.and_eq_true] at hf
    exact ⟨of_decide_eq_true hf.2, rfl⟩

/-- The descent loop of the hill climber preserves well-formedness and
never increases `cmax`: every applied move has estimate strictly below
the current `cmax` and the post-swap `cmax` is bounded by the larger of
estimate and current `cmax`. -/
theorem hc_loop_le {fuel : Nat} :
    ∀ (n : Nat) (s st : IntermediateSolution),
      hc_loop fuel n s = some st → StateWF s →
      StateWF st ∧ st.cmax ≤ s.cmax ∧ st.inst = s.inst := by
  intro n
  induction n with
  | zero =>
    intro s st h _
    simp [hc_loop] at h
  | succ n ih =>
    intro s st h wf
    simp only [hc_loop] at h
    split at h
    case h_1 => exact absurd h (by simp)
    case h_2 maybe_move hfm =>
      split at h
      case h_1 next_move hfilter =>
        split at h
        case h_1 => exact absurd h (by simp)
        case h_2 s2 hswap =>
          obtain ⟨hmm, hlt⟩ := option_filter_mem hfilter
          simp only [find_move] at hfm
          cases hgm : generate_moves fuel s with
          | none =>
            rw [hgm] at hfm
            exact absurd hfm (by simp)
          | some moves =>
            rw [hgm, Option.map_some'] at hfm
            have hmm2 := Option.some.inj hfm
            rw [hmm] at hmm2
            rcases find_move_go_mem moves none next_move hmm2 with habs | hmem
            · exact absurd habs (by simp)
            · obtain ⟨hedge, hcmaxeq⟩ := generate_moves_mem hgm next_move hmem
              have hedge2 : (next_move.swap_move.1, next_move.swap_move.2) ∈
                  s.oriented_conflict_edges := hedge
              obtain ⟨wf2, hinst2, _, _, _, _, _, _, _, _⟩ :=
                swap_exact wf hedge2 hswap
              have hle2 := swap_cmax_le wf hedge2 hswap
              have hlt2 : next_move.cmax < s.cmax := of_decide_eq_true hlt
              rw [hcmaxeq] at hlt2
              have hle3 : s2.cmax ≤ s.cmax :=
                le_trans hle2 (max_le (Nat.le_of_lt hlt2) (Nat.le_refl _))
              obtain ⟨wfst, hstle, hstinst⟩ := ih s2 st h wf2
              exact ⟨wfst, Nat.le_trans hstle hle3, by rw [hstinst, hinst2]⟩
      case h_2 hfilter =>
        obtain rfl : st = s := by simpa using h.symm
        exact ⟨wf, Nat.le_refl _, rfl⟩

theorem new_arcs_mem {fuel : Nat} {inst : Instance} {edges : List Edge}
    {s : IntermediateSolution}
    (h : IntermediateSolution.new fuel inst edges = some s) :
    (∀ n p, getO s.pre_job n = some p →
      (p, n) ∈ get_precedence_edges inst) ∧
    (∀ n p, getO s.pre_machine n = some p → (p, n) ∈ edges) := by
  simp only [IntermediateSolution.new] at h
  split at h
  case h_1 => exact absurd h (by simp)
  case h_2 pre_job succ_job hJpair =>
    split at h
    case h_1 => exact absurd h (by simp)
    case h_2 pre_machine succ_machine hMpair =>
      split at h
      case h_1 => exact absurd h (by simp)
      case h_2 rel rtr hrel =>
        split at h
        case h_1 => exact absurd h (by simp)
        case h_2 tail labT ttr htail =>
          split at h
          case h_1 => exact absurd h (by simp)
          case h_2 cmax hcmax =>
            obtain rfl : s = _ := by
              have hs := h.symm
              simp only [Option.some.injEq] at hs
              exact hs
            obtain ⟨_, _, _, _, hpreJ, _⟩ :=
              get_pre_succ_spec inst _ _ _ hJpair
            obtain ⟨_, _, _, _, hpreM, _⟩ :=
              get_pre_succ_spec inst _ _ _ hMpair
            exact ⟨hpreJ, hpreM⟩

/-- Head domination: any start-time vector compatible with all arcs
dominates the computed heads. -/
theorem relFix_le {inst : Instance} {pj pm : List (Option Nat)}
    {rel : List Nat} {rk : Nat → Nat} {S : List Nat}
    (hpjO : ArrOk inst pj) (hpmO : ArrOk inst pm)
    (hfix : relFix inst pj pm rel) (hrk : RankedBy pj pm rk)
    (hS : ∀ n, n < inst.n_ops → ∀ p, predOf pj pm p n →
      S.getD p 0 + inst.dur p ≤ S.getD n 0) :
    ∀ n, n < inst.n_ops → rel.getD n 0 ≤ S.getD n 0 := by
  have main : ∀ k n, rk n = k → n < inst.n_ops →
      rel.getD n 0 ≤ S.getD n 0 := by
    intro k
    induction k using Nat.strong_induction_on with
    | _ k ihk =>
      intro n hrkn hn
      rw [hfix n hn]
      refine max_le ?_ ?_
      · cases hp : getO pj n with
        | none => exact Nat.zero_le _
        | some p =>
          have hplt := hpjO.2 n p hp
          have hstep : predOf pj pm p n := Or.inl hp
          have h1 := ihk (rk p) (hrkn ▸ hrk p n hstep) p rfl hplt
          have h2 := hS n hn p hstep
          show rel.getD p 0 + inst.dur p ≤ S.getD n 0
          omega
      · cases hp : getO pm n with
        | none => exact Nat.zero_le _
        | some p =>
          have hplt := hpmO.2 n p hp
          have hstep : predOf pj pm p n := Or.inr hp
          have h1 := ihk (rk p) (hrkn ▸ hrk p n hstep) p rfl hplt
          have h2 := hS n hn p hstep
          show rel.getD p 0 + inst.dur p ≤ S.getD n 0
          omega
  intro n hn
  exact main (rk n) n rfl hn

/-- Tail domination: under a compatible start-time vector with makespan
bound `C`, every tail fits between its node's start and `C`. -/
theorem tailFix_le {inst : Instance} {pj pm sj sm : List (Option Nat)}
    {tail : List Nat} {rkT : Nat → Nat} {S : List Nat} {C : Nat}
    (hsjO : ArrOk inst sj) (hsmO : ArrOk inst sm)
    (htfix : tailFix inst sj sm tail) (hrkT : RankedBy sj sm rkT)
    (hJ : InversePair pj sj) (hM : InversePair pm sm)
    (hS : ∀ n, n < inst.n_ops → ∀ p, predOf pj pm p n →
      S.getD p 0 + inst.dur p ≤ S.getD n 0)
    (hC : ∀ n, n < inst.n_ops → S.getD n 0 + inst.dur n ≤ C) :
    ∀ n, n < inst.n_ops → tail.getD n 0 + S.getD n 0 ≤ C := by
  have main : ∀ k n, rkT n = k → n < inst.n_ops →
      tail.getD n 0 + S.getD n 0 ≤ C := by
    intro k
    induction k using Nat.strong_induction_on with
    | _ k ihk =>
      intro n hrkn hn
      have harmJ : tailOf tail (getO sj n) + inst.dur n + S.getD n 0 ≤ C := by
        cases hv : getO sj n with
        | none =>
          have h1 := hC n hn
          show 0 + inst.dur n + S.getD n 0 ≤ C
          omega
        | some v =>
          have hvlt := hsjO.2 n v hv
          have hstepT : predOf sj sm v n := Or.inl hv
          have hstep : predOf pj pm n v := Or.inl ((hJ n v).mp hv)
          have hSv := hS v hvlt n hstep
          have hih := ihk (rkT v) (hrkn ▸ hrkT v n hstepT) v rfl hvlt
          show tail.getD v 0 + inst.dur n + S.getD n 0 ≤ C
          omega
      have harmM : tailOf tail (getO sm n) + inst.dur n + S.getD n 0 ≤ C := by
        cases hv : getO sm n with
        | none =>
          have h1 := hC n hn
          show 0 + inst.dur n + S.getD n 0 ≤ C
          omega
        | some v =>
          have hvlt := hsmO.2 n v hv
          have hstepT : predOf sj sm v n := Or.inr hv
          have hstep : predOf pj pm n v := Or.inr ((hM n v).mp hv)
          have hSv := hS v hvlt n hstep
          have hih := ihk (rkT v) (hrkn ▸ hrkT v n hstepT) v rfl hvlt
          show tail.getD v 0 + inst.dur n + S.getD n 0 ≤ C
          omega
      rw [htfix n hn]
      rcases max_choice (tailOf tail (getO sj n)) (tailOf tail (getO sm n))
          with hc | hc
      · rw [hc]
        exact harmJ
      · rw [hc]
        exact harmM
  intro n hn
  exact main (rkT n) n rfl hn

theorem foldl_max_key_acc {f : Nat → Nat} :
    ∀ (l : List Nat) (acc : Nat),
      acc ≤ l.foldl (fun c op => max c (f op)) acc := by
  intro l
  induction l with
  | nil => exact fun _ => Nat.le_refl _
  | cons y ys ih =>
    intro acc
    rw [List.foldl_cons]
    exact Nat.le_trans (Nat.le_max_left acc (f y)) (ih (max acc (f y)))

theorem foldl_max_key_le {f : Nat → Nat} :
    ∀ (l : List Nat) (acc x : Nat), x ∈ l →
      f x ≤ l.foldl (fun c op => max c (f op)) acc := by
  intro l
  induction l with
  | nil => intro acc x hx; exact absurd hx (List.not_mem_nil x)
  | cons y ys ih =>
    intro acc x hx
    rw [List.foldl_cons]
    rcases List.mem_cons.mp hx with rfl | h1
    · exact Nat.le_trans (Nat.le_max_right acc (f x)) (foldl_max_key_acc ys _)
    · exact ih (max acc (f y)) x h1

theorem calculate_cmax_ge {inst : Instance} {sol : Solution} :
    ∀ n, n < inst.n_ops →
      sol.start n + inst.dur n ≤ calculate_cmax inst sol := by
  intro n hn
  unfold calculate_cmax
  exact @foldl_max_key_le (fun op => sol.start op + inst.dur op)
    (List.range inst.n_ops) 0 n (List.mem_range.mpr hn)

/-- Makespan bound for the state built from a schedule that respects
its job arcs and its induced machine orientation. -/
theorem new_cmax_le {fuel : Nat} {inst : Instance} {edges : List Edge}
    {s : IntermediateSolution} {S : Solution}
    (hnew : IntermediateSolution.new fuel inst edges = some s)
    (hJdom : ∀ p q, (p, q) ∈ get_precedence_edges inst →
      S.start p + inst.dur p ≤ S.start q)
    (hMdom : ∀ p q, (p, q) ∈ edges → S.start p + inst.dur p ≤ S.start q) :
    s.cmax ≤ calculate_cmax inst S := by
  obtain ⟨wf, hinst, hedges⟩ := new_StateWF hnew
  obtain ⟨hpreJ, hpreM⟩ := new_arcs_mem hnew
  obtain ⟨rk, B, hrk, _⟩ := wf.hrank
  obtain ⟨rkT, hrkT⟩ := wf.hrankT
  have hS : ∀ n, n < s.inst.n_ops → ∀ p,
      predOf s.pre_job s.pre_machine p n →
      S.start_times.getD p 0 + s.inst.dur p ≤ S.start_times.getD n 0 := by
    intro n hn p hp
    rw [hinst]
    rcases hp with hp | hp
    · exact hJdom p n (hpreJ n p hp)
    · exact hMdom p n (hpreM n p hp)
  have hC : ∀ n, n < s.inst.n_ops →
      S.start_times.getD n 0 + s.inst.dur n ≤ calculate_cmax inst S := by
    intro n hn
    rw [hinst]
    exact calculate_cmax_ge n (hinst ▸ hn)
  have hrel_le := relFix_le wf.hpjO wf.hpmO wf.hfix hrk hS
  have htail_le := tailFix_le wf.hsjO wf.hsmO wf.htfix hrkT wf.hJ wf.hM hS hC
  obtain ⟨hcm_mem, _⟩ := nat_max?_spec wf.cmax_eq
  obtain ⟨i, hi, hieq⟩ := List.mem_iff_getElem.mp hcm_mem
  have hilt : i < s.inst.n_ops := by
    rw [wf.path_eq, List.length_zipWith, wf.rel_len, wf.tail_len] at hi
    omega
  have h2 : s.path_times.getD i 0 =
      s.release_times.getD i 0 + s.tail_times.getD i 0 := by
    rw [wf.path_eq]
    exact getD_zipWith_add (wf.rel_len ▸ hilt) (wf.tail_len ▸ hilt)
  have h3 : s.path_times.getD i 0 = s.cmax := by
    rw [List.getD_eq_getElem _ _ hi]
    exact hieq
  have h4 := hrel_le i hilt
  have h5 := htail_le i hilt
  omega

/-- Claim C2 is false as stated: on the instance with two jobs over
three machines, durations `[9, 0, 9, 10, 0, 0]` and machine assignment
`[0, 1, 2, 1, 0, 0]`, the schedule `[0, 9, 9, 0, 10, 10]` satisfies all
three verifier predicates of the spec (the zero-length operation 1 sits
strictly inside operation 3's interval on machine 1, which the interval
disjointness predicate only checks for pairs of positive durations) and
has makespan 18, yet the hill climber terminates with `cmax` 19: the
induced orientation places operation 3 before operation 1, the head
recomputation pushes operation 1's start from 9 to 10, and the single
N1 move has estimate 19, so no move is applied. -/
theorem improve_solution_not_monotone :
    spec_verifier_ok ⟨2, 3, [9, 0, 9, 10, 0, 0], [0, 1, 2, 1, 0, 0]⟩
        ⟨[0, 9, 9, 0, 10, 10]⟩ ∧
    (improve_solution 16 ⟨2, 3, [9, 0, 9, 10, 0, 0], [0, 1, 2, 1, 0, 0]⟩
        ⟨[0, 9, 9, 0, 10, 10]⟩).map IntermediateSolution.cmax =
      some 19 ∧
    calculate_cmax ⟨2, 3, [9, 0, 9, 10, 0, 0], [0, 1, 2, 1, 0, 0]⟩
        ⟨[0, 9, 9, 0, 10, 10]⟩ = 18 ∧
    18 < 19 :=
  ⟨by decide, rfl, rfl, by decide⟩

/-- Claim C2 (amended): the hill climber's final `cmax` is bounded by
the initial schedule's makespan for every schedule that respects its
job precedences and its induced machine orientation (every arc's source
finishes by its target's start) — in particular every feasible schedule
with positive durations.  Mere spec-feasibility is not enough: a
zero-duration operation scheduled strictly inside another operation's
interval inflates the constructed heads. -/
theorem improve_solution_monotone {fuel : Nat} {inst : Instance}
    {S : Solution} {edges : List Edge} {st : IntermediateSolution}
    (hor : get_orientation_from_schedule inst S = some edges)
    (hrun : improve_solution fuel inst S = some st)
    (hJdom : ∀ p q, (p, q) ∈ get_precedence_edges inst →
      S.start p + inst.dur p ≤ S.start q)
    (hMdom : ∀ p q, (p, q) ∈ edges → S.start p + inst.dur p ≤ S.start q) :
    st.cmax ≤ calculate_cmax inst S := by
  simp only [improve_solution, hor] at hrun
  cases hnew : IntermediateSolution.new fuel inst edges with
  | none =>
    rw [hnew] at hrun
    exact absurd hrun (by simp)
  | some s0 =>
    rw [hnew] at hrun
    obtain ⟨wf0, hinst0, _⟩ := new_StateWF hnew
    obtain ⟨_, hle, _⟩ := hc_loop_le fuel s0 st hrun wf0
    exact Nat.le_trans hle (new_cmax_le hnew hJdom hMdom)

theorem improve_solution_monotone_witness :
    IntermediateSolution.cmax
        ⟨⟨2, 1, [2, 1], [0, 0]⟩, [(0, 1)], [], [none, none], [none, none],
          [none, some 0], [some 1, none], [0, 2], [3, 1], [3, 3], 3⟩ ≤
      calculate_cmax ⟨2, 1, [2, 1], [0, 0]⟩ ⟨[0, 2]⟩ :=
  @improve_solution_monotone 16 ⟨2, 1, [2, 1], [0, 0]⟩ ⟨[0, 2]⟩ [(0, 1)]
    ⟨⟨2, 1, [2, 1], [0, 0]⟩, [(0, 1)], [], [none, none], [none, none],
      [none, some 0], [some 1, none], [0, 2], [3, 1], [3, 3], 3⟩
    rfl rfl
    (by
      intro p q h
      rw [show get_precedence_edges ⟨2, 1, [2, 1], [0, 0]⟩ =
          ([] : List Edge) from rfl] at h
      exact absurd h (List.not_mem_nil _))
    (by
      intro p q h
      have h2 : p = 0 ∧ q = 1 := by simpa using h
      obtain ⟨rfl, rfl⟩ := h2
      decide)

/-- Claim C10: for every instance with at least one job and at least
one machine and each of the six priority-rule closures, the dispatcher
`priority::find_solution` never panics: every iteration's candidate
list is non-empty (it contains the earliest-completion operation, whose
job clock is bounded by its own completion time), the chosen index is
in bounds, and the loop terminates having assigned a start time to each
of the `J * M` operations exactly once — the scheduling trace is a
permutation of all operation ids. -/
theorem priority_dispatch_total (inst : Instance) (k : Nat)
    (hJ : 0 < inst.n_jobs) (hM : 0 < inst.n_machines) :
    ∃ sol order,
      priority_find_solution inst (priority_rule inst k) =
        some (sol, order) ∧
      order.Perm (List.range inst.n_ops) ∧
      sol.start_times.length = inst.n_ops := by
  obtain ⟨sol, order2, hrun, hmem, hnd, hlen⟩ :=
    priority_loop_total inst k hM (inst.n_ops + 1) (fun _ => 0)
      ((List.range inst.n_jobs).map fun j => inst.op_to_id j 0)
      (List.replicate inst.n_ops 0) (List.replicate inst.n_machines 0)
      (List.replicate inst.n_jobs 0) []
      (fun j _ => Nat.zero_le _)
      (fun x => by
        simp only [List.mem_map, List.mem_range]
        constructor
        · rintro ⟨j, hj, rfl⟩; exact ⟨j, hj, hM, rfl⟩
        · rintro ⟨j, hj, _, rfl⟩; exact ⟨j, hj, rfl⟩)
      (by
        refine (List.nodup_range inst.n_jobs).map ?_
        intro a b hab
        simp only [Instance.op_to_id] at hab
        have h2 : a * inst.n_machines = b * inst.n_machines := by
          simpa using hab
        exact Nat.eq_of_mul_eq_mul_right hM h2)
      (fun x => by
        constructor
        · intro h; exact absurd h (List.not_mem_nil x)
        · rintro ⟨j, hj, o, ho, rfl⟩; simp at ho)
      List.nodup_nil
      (by
        have hconst : ∀ j ∈ Finset.range inst.n_jobs,
            inst.n_machines - (fun _ => 0 : Nat → Nat) j =
              inst.n_machines := fun j _ => rfl
        rw [Finset.sum_congr rfl hconst, Finset.sum_const,
          Finset.card_range, smul_eq_mul]
        unfold Instance.n_ops
        omega)
      (List.length_replicate _ _)
  refine ⟨sol, order2, hrun, ?_, hlen⟩
  refine (List.perm_ext_iff_of_nodup hnd (List.nodup_range _)).mpr ?_
  intro x
  rw [hmem x, List.mem_range]
  exact (op_lt_decompose inst hM x).symm

/-- Instantiation of the dispatcher-totality theorem on the 2×2
unit-duration instance with the SPS rule (rule index 0). -/
theorem priority_dispatch_total_witness :
    ∃ sol order,
      priority_find_solution ⟨2, 2, [1, 1, 1, 1], [0, 1, 0, 1]⟩
          (priority_rule ⟨2, 2, [1, 1, 1, 1], [0, 1, 0, 1]⟩ 0) =
        some (sol, order) ∧
      order.Perm (List.range
        (Instance.n_ops ⟨2, 2, [1, 1, 1, 1], [0, 1, 0, 1]⟩)) ∧
      sol.start_times.length =
        Instance.n_ops ⟨2, 2, [1, 1, 1, 1], [0, 1, 0, 1]⟩ :=
  priority_dispatch_total ⟨2, 2, [1, 1, 1, 1], [0, 1, 0, 1]⟩ 0
    (by decide) (by decide)

end JSSP
